import Mathlib

/-!
Verification of the `nhanngyn2004/crawler` repository.

The Python sources (`scraper.py`, `utils/analytics.py`, `crawler/worker.py`)
are shallowly embedded below.  Python strings are modelled as `List Char`
(sequences of Unicode scalar values); the functions from `urllib.parse` used
by the crawler (`urlparse`, `urlunparse`, `urldefrag`, `urljoin`, `parse_qsl`,
`urlencode`, and the percent codec they rely on) are translated from their
CPython definitions, since the crawler's behaviour is inseparable from them.
Percent encoding and decoding go through UTF-8 at the byte level, exactly as
in CPython; `str.lower` is modelled on its ASCII fragment (the crawler only
compares ASCII keywords and hostnames).
-/

namespace Crawler

/-- Python strings are sequences of Unicode scalar values. -/
abbrev PS := List Char

/-- Coerce a Lean string literal to the model type. -/
def S (s : String) : PS := s.toList

/-- ASCII fragment of Python `str.lower` (character level). -/
def pyLowerChar (c : Char) : Char :=
  if 65 ≤ c.toNat ∧ c.toNat ≤ 90 then Char.ofNat (c.toNat + 32) else c

/-- Python `str.lower` on the ASCII fragment. -/
def lowerS (s : PS) : PS := s.map pyLowerChar

/-- Characters Python `str.isspace` recognises (used by `str.strip`). -/
def isPySpace (c : Char) : Bool :=
  c.toNat ∈ [9, 10, 11, 12, 13, 28, 29, 30, 31, 32, 0x85, 0xA0, 0x1680,
    0x2000, 0x2001, 0x2002, 0x2003, 0x2004, 0x2005, 0x2006, 0x2007, 0x2008,
    0x2009, 0x200A, 0x2028, 0x2029, 0x202F, 0x205F, 0x3000]

/-- Python `str.lstrip()` (whitespace form). -/
def pyLStrip (s : PS) : PS := s.dropWhile isPySpace

/-- Python `str.rstrip()` (whitespace form). -/
def pyRStrip (s : PS) : PS := (s.reverse.dropWhile isPySpace).reverse

/-- Python `str.strip()` (whitespace form). -/
def pyStrip (s : PS) : PS := pyRStrip (pyLStrip s)

/-- Split at the first occurrence of `c`: `some (before, after)`, or `none`
when `c` does not occur. -/
def splitFirst (c : Char) : PS → Option (PS × PS)
  | [] => none
  | a :: t =>
    if a = c then some ([], t)
    else
      match splitFirst c t with
      | none => none
      | some (pre, post) => some (a :: pre, post)

/-- Python `str.split(sep)` for a one-character separator. -/
def splitAll (c : Char) : PS → List PS
  | [] => [[]]
  | a :: t =>
    if a = c then [] :: splitAll c t
    else
      match splitAll c t with
      | [] => [[a]]
      | h :: r => (a :: h) :: r

/-- Python substring membership `needle in hay`. -/
def containsSub (needle : PS) : PS → Bool
  | [] => needle.isEmpty
  | a :: t => List.isPrefixOf needle (a :: t) || containsSub needle t

/-- Portion of `s` after the last occurrence of `c` (`s.rpartition(c)[2]`,
which is all of `s` when `c` does not occur). -/
def afterLastChar (c : Char) (s : PS) : PS :=
  (s.reverse.takeWhile (fun a => a ≠ c)).reverse

/-- Portion of `s` before the first occurrence of `c` (`s.partition(c)[0]`,
which is all of `s` when `c` does not occur). -/
def beforeFirstChar (c : Char) (s : PS) : PS :=
  match splitFirst c s with
  | none => s
  | some (pre, _) => pre

/-- Portion of `s` after the first occurrence of `c` (`s.partition(c)[2]`,
which is empty when `c` does not occur). -/
def afterFirstChar (c : Char) (s : PS) : PS :=
  match splitFirst c s with
  | none => []
  | some (_, post) => post

section StringLemmas

theorem splitFirst_eq_none {c : Char} {s : PS} (h : c ∉ s) :
    splitFirst c s = none := by
  induction s with
  | nil => rfl
  | cons a t ih =>
    simp only [List.mem_cons, not_or] at h
    have hac : a ≠ c := fun hc => h.1 hc.symm
    simp only [splitFirst, if_neg hac, ih h.2]

theorem splitFirst_append {c : Char} {a : PS} (b : PS) (h : c ∉ a) :
    splitFirst c (a ++ c :: b) = some (a, b) := by
  induction a with
  | nil => simp [splitFirst]
  | cons x t ih =>
    simp only [List.mem_cons, not_or] at h
    have hac : x ≠ c := fun hc => h.1 hc.symm
    simp only [List.cons_append, splitFirst, if_neg hac, List.append_eq,
      ih h.2]

theorem splitFirst_eq_some {c : Char} {s pre post : PS}
    (h : splitFirst c s = some (pre, post)) :
    s = pre ++ c :: post ∧ c ∉ pre := by
  induction s generalizing pre post with
  | nil => simp [splitFirst] at h
  | cons a t ih =>
    simp only [splitFirst] at h
    by_cases hac : a = c
    · simp only [if_pos hac] at h
      cases h
      simp [hac]
    · simp only [if_neg hac] at h
      cases hsp : splitFirst c t with
      | none => rw [hsp] at h; cases h
      | some pr =>
        rw [hsp] at h
        cases pr with
        | mk pre' post' =>
          simp only [Option.some.injEq, Prod.mk.injEq] at h
          obtain ⟨h1, h2⟩ := h
          subst h1; subst h2
          obtain ⟨ht, hn⟩ := ih hsp
          constructor
          · rw [ht]; rfl
          · simp only [List.mem_cons, not_or]
            exact ⟨fun hc => hac hc.symm, hn⟩

theorem char_toNat_ofNat {n : Nat} (h : Nat.isValidChar n) :
    (Char.ofNat n).toNat = n := by
  simp only [Char.ofNat, dif_pos h]
  simp [Char.ofNatAux, Char.toNat, UInt32.toNat, BitVec.toNat_ofNatLt]

theorem pyLowerChar_toNat (c : Char) :
    (pyLowerChar c).toNat =
      if 65 ≤ c.toNat ∧ c.toNat ≤ 90 then c.toNat + 32 else c.toNat := by
  by_cases h : 65 ≤ c.toNat ∧ c.toNat ≤ 90
  · have hv : Nat.isValidChar (c.toNat + 32) := Or.inl (by omega)
    simp [pyLowerChar, if_pos h, char_toNat_ofNat hv]
  · simp [pyLowerChar, if_neg h]

theorem pyLowerChar_eq_of_not_upper {c : Char}
    (h : ¬(65 ≤ c.toNat ∧ c.toNat ≤ 90)) : pyLowerChar c = c := by
  simp [pyLowerChar, if_neg h]

theorem pyLowerChar_idem (c : Char) :
    pyLowerChar (pyLowerChar c) = pyLowerChar c := by
  by_cases h : 65 ≤ c.toNat ∧ c.toNat ≤ 90
  · apply pyLowerChar_eq_of_not_upper
    rw [pyLowerChar_toNat, if_pos h]
    omega
  · simp [pyLowerChar_eq_of_not_upper h]

theorem lowerS_idem (s : PS) : lowerS (lowerS s) = lowerS s := by
  simp only [lowerS, List.map_map]
  apply List.map_congr_left
  intro c _
  exact pyLowerChar_idem c

theorem isPySpace_pyLowerChar (c : Char) :
    isPySpace (pyLowerChar c) = isPySpace c := by
  have h := pyLowerChar_toNat c
  by_cases hc : 65 ≤ c.toNat ∧ c.toNat ≤ 90
  · rw [if_pos hc] at h
    simp only [isPySpace, h]
    apply decide_eq_decide.mpr
    simp only [List.mem_cons, List.not_mem_nil, or_false]
    omega
  · rw [if_neg hc] at h
    simp only [isPySpace, h]

theorem isPySpace_comp_pyLowerChar : isPySpace ∘ pyLowerChar = isPySpace :=
  funext isPySpace_pyLowerChar

theorem lowerS_pyLStrip (s : PS) :
    lowerS (pyLStrip s) = pyLStrip (lowerS s) := by
  simp only [pyLStrip, lowerS, List.dropWhile_map, isPySpace_comp_pyLowerChar]

theorem lowerS_pyRStrip (s : PS) :
    lowerS (pyRStrip s) = pyRStrip (lowerS s) := by
  unfold pyRStrip lowerS
  have h1 : (List.map pyLowerChar s).reverse = List.map pyLowerChar s.reverse := by
    simp [List.map_reverse]
  rw [h1, List.dropWhile_map, isPySpace_comp_pyLowerChar, List.map_reverse]

theorem lowerS_pyStrip (s : PS) :
    lowerS (pyStrip s) = pyStrip (lowerS s) := by
  simp only [pyStrip, lowerS_pyRStrip, lowerS_pyLStrip]

theorem pyLStrip_idem (s : PS) : pyLStrip (pyLStrip s) = pyLStrip s :=
  List.dropWhile_idempotent _ _

theorem pyRStrip_idem (s : PS) : pyRStrip (pyRStrip s) = pyRStrip s := by
  simp only [pyRStrip, List.reverse_reverse]
  rw [List.dropWhile_idempotent]

theorem dropWhile_eq_self_of_head {p : Char → Bool} {s : PS}
    (h : ∀ c ∈ s.head?, p c = false) : s.dropWhile p = s := by
  cases s with
  | nil => rfl
  | cons a t =>
    have := h a (by simp)
    simp [List.dropWhile, this]

theorem pyRStrip_prefix (s : PS) : (pyRStrip s).IsPrefix s := by
  obtain ⟨t, ht⟩ := List.dropWhile_suffix (l := s.reverse) (p := isPySpace)
  refine ⟨t.reverse, ?_⟩
  have h := congrArg List.reverse ht
  simpa [pyRStrip] using h

theorem head?_pyLStrip {s : PS} {c : Char} (h : (pyLStrip s).head? = some c) :
    isPySpace c = false := by
  have hm := List.head?_dropWhile_not isPySpace s
  rw [show List.dropWhile isPySpace s = pyLStrip s from rfl, h] at hm
  exact hm

theorem pyStrip_idem (s : PS) : pyStrip (pyStrip s) = pyStrip s := by
  simp only [pyStrip]
  have h1 : pyLStrip (pyRStrip (pyLStrip s)) = pyRStrip (pyLStrip s) := by
    apply dropWhile_eq_self_of_head
    intro c hc
    cases hp : pyRStrip (pyLStrip s) with
    | nil => simp [hp] at hc
    | cons a r =>
      rw [hp] at hc
      simp only [List.head?_cons, Option.mem_def, Option.some.injEq] at hc
      subst hc
      obtain ⟨t, ht⟩ := pyRStrip_prefix (pyLStrip s)
      rw [hp] at ht
      apply head?_pyLStrip (s := s)
      rw [← ht]
      simp
  rw [h1, pyRStrip_idem]

theorem char_toNat_valid (c : Char) : Nat.isValidChar c.toNat := by
  have h := c.valid
  unfold UInt32.isValidChar at h
  exact h

theorem char_eq_of_toNat_eq {c d : Char} (h : c.toNat = d.toNat) : c = d := by
  have := congrArg Char.ofNat h
  rwa [Char.ofNat_toNat, Char.ofNat_toNat] at this

theorem mem_lowerS_iff {d : Char}
    (hd : d.toNat < 65 ∨ (90 < d.toNat ∧ d.toNat < 97) ∨ 122 < d.toNat)
    (s : PS) : d ∈ lowerS s ↔ d ∈ s := by
  simp only [lowerS, List.mem_map]
  constructor
  · rintro ⟨c, hc, he⟩
    by_cases hu : 65 ≤ c.toNat ∧ c.toNat ≤ 90
    · exfalso
      have ht := congrArg Char.toNat he
      rw [pyLowerChar_toNat, if_pos hu] at ht
      omega
    · rw [pyLowerChar_eq_of_not_upper hu] at he
      exact he ▸ hc
  · intro hm
    refine ⟨d, hm, pyLowerChar_eq_of_not_upper (by omega)⟩

/-- Python `sep.join(parts)` for list-of-strings. -/
def pyJoin (sep : PS) : List PS → PS
  | [] => []
  | [p] => p
  | p :: q :: rest => p ++ sep ++ pyJoin sep (q :: rest)

theorem splitAll_no_sep {c : Char} {s : PS} (h : c ∉ s) : splitAll c s = [s] := by
  induction s with
  | nil => rfl
  | cons a t ih =>
    simp only [List.mem_cons, not_or] at h
    have hac : a ≠ c := fun hc => h.1 hc.symm
    simp only [splitAll, if_neg hac, ih h.2]

theorem splitAll_sep_append {c : Char} {p : PS} (q : PS) (h : c ∉ p) :
    splitAll c (p ++ c :: q) = p :: splitAll c q := by
  induction p with
  | nil =>
    simp [splitAll]
  | cons a t ih =>
    simp only [List.mem_cons, not_or] at h
    have hac : a ≠ c := fun hc => h.1 hc.symm
    simp only [List.cons_append, splitAll, if_neg hac, List.append_eq, ih h.2]

theorem splitAll_pyJoin {c : Char} {parts : List PS}
    (hne : parts ≠ []) (h : ∀ p ∈ parts, c ∉ p) :
    splitAll c (pyJoin [c] parts) = parts := by
  induction parts with
  | nil => exact absurd rfl hne
  | cons p rest ih =>
    cases rest with
    | nil =>
      simp only [pyJoin]
      exact splitAll_no_sep (h p (by simp))
    | cons q rest' =>
      have hstep : pyJoin [c] (p :: q :: rest') =
          p ++ c :: pyJoin [c] (q :: rest') := by
        simp [pyJoin]
      rw [hstep, splitAll_sep_append _ (h p (by simp)),
        ih (by simp) (fun x hx => h x (List.mem_cons_of_mem _ hx))]

theorem mem_pyJoin {sep : PS} {parts : List PS} {x : Char}
    (hx : x ∈ pyJoin sep parts) : x ∈ sep ∨ ∃ p ∈ parts, x ∈ p := by
  induction parts with
  | nil => simp [pyJoin] at hx
  | cons p rest ih =>
    cases rest with
    | nil =>
      right
      exact ⟨p, by simp, hx⟩
    | cons q rest' =>
      simp only [pyJoin, List.append_assoc, List.mem_append] at hx
      rcases hx with hp | hs | hrest
      · right; exact ⟨p, by simp, hp⟩
      · left; exact hs
      · rcases ih hrest with hsep | ⟨r, hr, hxr⟩
        · left; exact hsep
        · right; exact ⟨r, List.mem_cons_of_mem _ hr, hxr⟩

end StringLemmas

/-! UTF-8 codec, as used by CPython's percent codec
(`quote` encodes via UTF-8; `unquote(..., errors='replace')` decodes with
U+FFFD replacement).  Invalid sequences are mapped to replacement characters;
the crawler's proofs only exercise valid sequences. -/

/-- UTF-8 encoding of one Unicode scalar value. -/
def utf8EncodeCp (n : Nat) : List Nat :=
  if n < 0x80 then [n]
  else if n < 0x800 then [0xC0 + n / 64, 0x80 + n % 64]
  else if n < 0x10000 then
    [0xE0 + n / 4096, 0x80 + n / 64 % 64, 0x80 + n % 64]
  else
    [0xF0 + n / 262144, 0x80 + n / 4096 % 64, 0x80 + n / 64 % 64,
      0x80 + n % 64]

/-- Continuation-byte test. -/
def isUtf8Cont (b : Nat) : Bool := decide (0x80 ≤ b) && decide (b ≤ 0xBF)

/-- Decode one scalar value from leading byte `b` and tail `bs`; returns the
scalar (U+FFFD on error) and how many tail bytes were consumed.  Strict on
overlong and surrogate encodings, as CPython's decoder is. -/
def utf8DecodeOne (b : Nat) (bs : List Nat) : Nat × Nat :=
  if b < 0x80 then (b, 0)
  else if b < 0xC2 then (0xFFFD, 0)
  else if b < 0xE0 then
    match bs with
    | b1 :: _ =>
      if isUtf8Cont b1 then ((b - 0xC0) * 64 + (b1 - 0x80), 1)
      else (0xFFFD, 0)
    | _ => (0xFFFD, 0)
  else if b < 0xF0 then
    match bs with
    | b1 :: b2 :: _ =>
      if isUtf8Cont b1 && isUtf8Cont b2 &&
          decide (0x800 ≤ (b - 0xE0) * 4096 + (b1 - 0x80) * 64 + (b2 - 0x80)) &&
          !(decide (0xD800 ≤ (b - 0xE0) * 4096 + (b1 - 0x80) * 64 + (b2 - 0x80)) &&
            decide ((b - 0xE0) * 4096 + (b1 - 0x80) * 64 + (b2 - 0x80) < 0xE000)) then
        ((b - 0xE0) * 4096 + (b1 - 0x80) * 64 + (b2 - 0x80), 2)
      else (0xFFFD, 0)
    | _ => (0xFFFD, 0)
  else if b < 0xF5 then
    match bs with
    | b1 :: b2 :: b3 :: _ =>
      if isUtf8Cont b1 && isUtf8Cont b2 && isUtf8Cont b3 &&
          decide (0x10000 ≤ (b - 0xF0) * 262144 + (b1 - 0x80) * 4096 +
            (b2 - 0x80) * 64 + (b3 - 0x80)) &&
          decide ((b - 0xF0) * 262144 + (b1 - 0x80) * 4096 +
            (b2 - 0x80) * 64 + (b3 - 0x80) < 0x110000) then
        ((b - 0xF0) * 262144 + (b1 - 0x80) * 4096 + (b2 - 0x80) * 64 +
          (b3 - 0x80), 3)
      else (0xFFFD, 0)
    | _ => (0xFFFD, 0)
  else (0xFFFD, 0)

/-- Fuel-driven decoding loop (the fuel, at least the byte count, makes the
recursion structural so that concrete inputs evaluate by `decide`). -/
def utf8DecodeLoop : Nat → List Nat → List Nat
  | 0, _ => []
  | _ + 1, [] => []
  | fuel + 1, b :: bs =>
    (utf8DecodeOne b bs).1 ::
      utf8DecodeLoop fuel (bs.drop (utf8DecodeOne b bs).2)

/-- UTF-8 decoding of a byte sequence to scalar values, with U+FFFD
replacement on errors. -/
def utf8DecodeBytes (l : List Nat) : List Nat := utf8DecodeLoop l.length l

/-- UTF-8 encoding of a whole string. -/
def utf8EncodeStr (s : PS) : List Nat :=
  s.flatMap (fun c => utf8EncodeCp c.toNat)

theorem utf8EncodeCp_lt_256 {n : Nat} (h : Nat.isValidChar n) :
    ∀ b ∈ utf8EncodeCp n, b < 256 := by
  unfold Nat.isValidChar at h
  intro b hb
  unfold utf8EncodeCp at hb
  by_cases h1 : n < 0x80
  · rw [if_pos h1] at hb; simp at hb; omega
  by_cases h2 : n < 0x800
  · rw [if_neg h1, if_pos h2] at hb; simp at hb
    rcases hb with hb | hb <;> omega
  by_cases h3 : n < 0x10000
  · rw [if_neg h1, if_neg h2, if_pos h3] at hb; simp at hb
    rcases hb with hb | hb | hb <;> omega
  · rw [if_neg h1, if_neg h2, if_neg h3] at hb; simp at hb
    rcases hb with hb | hb | hb | hb <;> omega

theorem utf8DecodeLoop_fuel {f1 f2 : Nat} {l : List Nat}
    (h1 : l.length ≤ f1) (h2 : l.length ≤ f2) :
    utf8DecodeLoop f1 l = utf8DecodeLoop f2 l := by
  induction f1 generalizing f2 l with
  | zero =>
    have hl : l = [] := List.eq_nil_of_length_eq_zero (by omega)
    subst hl
    cases f2 <;> rfl
  | succ f1' ih =>
    cases l with
    | nil => cases f2 <;> rfl
    | cons b bs =>
      cases f2 with
      | zero => simp at h2
      | succ f2' =>
        simp only [utf8DecodeLoop]
        congr 1
        have hd : (bs.drop (utf8DecodeOne b bs).2).length ≤ bs.length := by
          rw [List.length_drop]
          omega
        simp only [List.length_cons] at h1 h2
        exact ih (by omega) (by omega)

theorem utf8DecodeBytes_cons (b : Nat) (bs : List Nat) :
    utf8DecodeBytes (b :: bs) =
      (utf8DecodeOne b bs).1 ::
        utf8DecodeBytes (bs.drop (utf8DecodeOne b bs).2) := by
  unfold utf8DecodeBytes
  simp only [List.length_cons, utf8DecodeLoop]
  congr 1
  apply utf8DecodeLoop_fuel
  · rw [List.length_drop]
    omega
  · exact le_refl _

theorem utf8_decode_encode_cons {n : Nat} (h : Nat.isValidChar n)
    (bs : List Nat) :
    utf8DecodeBytes (utf8EncodeCp n ++ bs) = n :: utf8DecodeBytes bs := by
  unfold Nat.isValidChar at h
  by_cases h1 : n < 0x80
  · rw [utf8EncodeCp, if_pos h1, List.cons_append, List.nil_append,
      utf8DecodeBytes_cons]
    have e : utf8DecodeOne n bs = (n, 0) := by
      simp only [utf8DecodeOne, if_pos h1]
    rw [e]
    simp
  by_cases h2 : n < 0x800
  · rw [utf8EncodeCp, if_neg h1, if_pos h2, List.cons_append,
      List.cons_append, List.nil_append, utf8DecodeBytes_cons]
    have e4 : isUtf8Cont (0x80 + n % 64) = true := by
      simp only [isUtf8Cont, Bool.and_eq_true, decide_eq_true_eq]
      omega
    have e : utf8DecodeOne (0xC0 + n / 64) ((0x80 + n % 64) :: bs) = (n, 1) := by
      simp only [utf8DecodeOne, if_neg (by omega : ¬(0xC0 + n / 64 < 0x80)),
        if_neg (by omega : ¬(0xC0 + n / 64 < 0xC2)),
        if_pos (by omega : 0xC0 + n / 64 < 0xE0), if_pos e4,
        Prod.mk.injEq]
      exact ⟨by omega, trivial⟩
    rw [e]
    simp
  by_cases h3 : n < 0x10000
  · rw [utf8EncodeCp, if_neg h1, if_neg h2, if_pos h3, List.cons_append,
      List.cons_append, List.cons_append, List.nil_append,
      utf8DecodeBytes_cons]
    have e4 : (isUtf8Cont (0x80 + n / 64 % 64) && isUtf8Cont (0x80 + n % 64) &&
        decide (0x800 ≤ (0xE0 + n / 4096 - 0xE0) * 4096 +
          (0x80 + n / 64 % 64 - 0x80) * 64 + (0x80 + n % 64 - 0x80)) &&
        !(decide (0xD800 ≤ (0xE0 + n / 4096 - 0xE0) * 4096 +
            (0x80 + n / 64 % 64 - 0x80) * 64 + (0x80 + n % 64 - 0x80)) &&
          decide ((0xE0 + n / 4096 - 0xE0) * 4096 +
            (0x80 + n / 64 % 64 - 0x80) * 64 + (0x80 + n % 64 - 0x80) <
            0xE000))) = true := by
      simp only [isUtf8Cont, Bool.and_eq_true, Bool.not_eq_true',
        Bool.and_eq_false_iff, decide_eq_true_eq, decide_eq_false_iff_not,
        not_le, not_lt]
      refine ⟨⟨⟨⟨?_, ?_⟩, ⟨?_, ?_⟩⟩, ?_⟩, ?_⟩ <;> omega
    have e : utf8DecodeOne (0xE0 + n / 4096)
        ((0x80 + n / 64 % 64) :: (0x80 + n % 64) :: bs) = (n, 2) := by
      simp only [utf8DecodeOne, if_neg (by omega : ¬(0xE0 + n / 4096 < 0x80)),
        if_neg (by omega : ¬(0xE0 + n / 4096 < 0xC2)),
        if_neg (by omega : ¬(0xE0 + n / 4096 < 0xE0)),
        if_pos (by omega : 0xE0 + n / 4096 < 0xF0), if_pos e4,
        Prod.mk.injEq]
      exact ⟨by omega, trivial⟩
    rw [e]
    simp
  · rw [utf8EncodeCp, if_neg h1, if_neg h2, if_neg h3, List.cons_append,
      List.cons_append, List.cons_append, List.cons_append, List.nil_append,
      utf8DecodeBytes_cons]
    have e4 : (isUtf8Cont (0x80 + n / 4096 % 64) &&
        isUtf8Cont (0x80 + n / 64 % 64) && isUtf8Cont (0x80 + n % 64) &&
        decide (0x10000 ≤ (0xF0 + n / 262144 - 0xF0) * 262144 +
          (0x80 + n / 4096 % 64 - 0x80) * 4096 +
          (0x80 + n / 64 % 64 - 0x80) * 64 + (0x80 + n % 64 - 0x80)) &&
        decide ((0xF0 + n / 262144 - 0xF0) * 262144 +
          (0x80 + n / 4096 % 64 - 0x80) * 4096 +
          (0x80 + n / 64 % 64 - 0x80) * 64 + (0x80 + n % 64 - 0x80) <
          0x110000)) = true := by
      simp only [isUtf8Cont, Bool.and_eq_true, decide_eq_true_eq]
      refine ⟨⟨⟨⟨⟨?_, ?_⟩, ⟨?_, ?_⟩⟩, ⟨?_, ?_⟩⟩, ?_⟩, ?_⟩ <;> omega
    have e : utf8DecodeOne (0xF0 + n / 262144)
        ((0x80 + n / 4096 % 64) :: (0x80 + n / 64 % 64) :: (0x80 + n % 64) :: bs) =
        (n, 3) := by
      simp only [utf8DecodeOne,
        if_neg (by omega : ¬(0xF0 + n / 262144 < 0x80)),
        if_neg (by omega : ¬(0xF0 + n / 262144 < 0xC2)),
        if_neg (by omega : ¬(0xF0 + n / 262144 < 0xE0)),
        if_neg (by omega : ¬(0xF0 + n / 262144 < 0xF0)),
        if_pos (by omega : 0xF0 + n / 262144 < 0xF5), if_pos e4,
        Prod.mk.injEq]
      exact ⟨by omega, trivial⟩
    rw [e]
    simp

theorem utf8_roundtrip_map (s : PS) :
    utf8DecodeBytes (utf8EncodeStr s) = s.map Char.toNat := by
  induction s with
  | nil => rfl
  | cons c t ih =>
    simp only [utf8EncodeStr, List.flatMap_cons] at ih ⊢
    rw [utf8_decode_encode_cons (char_toNat_valid c), ih]
    simp [utf8EncodeStr]

theorem utf8_decode_encode_str (s : PS) :
    (utf8DecodeBytes (utf8EncodeStr s)).map Char.ofNat = s := by
  rw [utf8_roundtrip_map, List.map_map]
  have : Char.ofNat ∘ Char.toNat = id := funext Char.ofNat_toNat
  rw [this, List.map_id]

/-! Percent codec (`urllib.parse.quote`, `quote_plus`, `unquote`). -/

/-- Value of an ASCII hex digit (CPython's `_hextobyte` accepts both cases). -/
def hexVal (c : Char) : Option Nat :=
  if 48 ≤ c.toNat ∧ c.toNat ≤ 57 then some (c.toNat - 48)
  else if 65 ≤ c.toNat ∧ c.toNat ≤ 70 then some (c.toNat - 55)
  else if 97 ≤ c.toNat ∧ c.toNat ≤ 102 then some (c.toNat - 87)
  else none

/-- Uppercase hex digit of a nibble (CPython's `quote` emits uppercase). -/
def hexDigit (n : Nat) : Char :=
  if n < 10 then Char.ofNat (48 + n) else Char.ofNat (55 + n)

/-- Characters `quote` never escapes: ASCII alphanumerics and `_.-~`. -/
def isAlwaysSafe (c : Char) : Bool :=
  decide (65 ≤ c.toNat ∧ c.toNat ≤ 90) ||
    decide (97 ≤ c.toNat ∧ c.toNat ≤ 122) ||
    decide (48 ≤ c.toNat ∧ c.toNat ≤ 57) ||
    decide (c.toNat = 95) || decide (c.toNat = 46) ||
    decide (c.toNat = 45) || decide (c.toNat = 126)

/-- Percent-escape of one byte. -/
def pctByte (b : Nat) : PS := ['%', hexDigit (b / 16), hexDigit (b % 16)]

/-- CPython `urllib.parse.quote(s, safe=extraSafe)`: safe characters pass
through, everything else is UTF-8 encoded then percent-escaped bytewise. -/
def pyQuote (extraSafe : List Char) (s : PS) : PS :=
  s.flatMap (fun c =>
    if isAlwaysSafe c || decide (c ∈ extraSafe) then [c]
    else (utf8EncodeCp c.toNat).flatMap pctByte)

/-- CPython `urllib.parse.quote_plus(s, safe='')`: when a space occurs,
quote with space safe and then turn spaces into plus signs; otherwise plain
`quote`. -/
def pyQuotePlus (s : PS) : PS :=
  if ' ' ∈ s then
    (pyQuote [' '] s).map (fun c => if c = ' ' then '+' else c)
  else pyQuote [] s

/-- Decode a pending byte buffer (UTF-8, U+FFFD replacement), as CPython's
`unquote` does for each run of ASCII text between non-ASCII characters. -/
def flushBuf (buf : List Nat) : PS := (utf8DecodeBytes buf).map Char.ofNat

/-- Leading two-hex-digit byte of a string, if present. -/
def hexPair : PS → Option Nat
  | c1 :: c2 :: _ =>
    match hexVal c1, hexVal c2 with
    | some h1, some h2 => some (h1 * 16 + h2)
    | _, _ => none
  | _ => none

/-- Fuel-driven worker loop for `unquote` (fuel at least the character
count; structural recursion so concrete inputs evaluate by `decide`). -/
def unquoteLoop : Nat → PS → List Nat → PS
  | 0, _, buf => flushBuf buf
  | _ + 1, [], buf => flushBuf buf
  | fuel + 1, c :: rest, buf =>
    if c.toNat = 37 then
      match hexPair rest with
      | some b => unquoteLoop fuel (rest.drop 2) (buf ++ [b])
      | none => unquoteLoop fuel rest (buf ++ [37])
    else if c.toNat < 0x80 then unquoteLoop fuel rest (buf ++ [c.toNat])
    else flushBuf buf ++ c :: unquoteLoop fuel rest []

/-- Worker for CPython `urllib.parse.unquote(s, errors='replace')`:
ASCII literals and `%XX` escapes accumulate as bytes, flushed through the
UTF-8 decoder at each non-ASCII character and at the end. -/
def unquoteAux (s : PS) (buf : List Nat) : PS := unquoteLoop s.length s buf

/-- CPython `urllib.parse.unquote(s, encoding='utf-8', errors='replace')`. -/
def pyUnquote (s : PS) : PS := unquoteAux s []

/-- Plus-to-space replacement applied by `parse_qsl` before unquoting. -/
def plusToSpace (c : Char) : Char := if c.toNat = 43 then ' ' else c

section CodecLemmas

theorem map_eq_self_of_id {f : Char → Char} {l : PS}
    (h : ∀ d ∈ l, f d = d) : l.map f = l := by
  rw [List.map_congr_left (g := id) h, List.map_id]

theorem hexVal_hexDigit {n : Nat} (h : n < 16) :
    hexVal (hexDigit n) = some n := by
  by_cases h10 : n < 10
  · have ht : (hexDigit n).toNat = 48 + n := by
      unfold hexDigit
      rw [if_pos h10]
      exact char_toNat_ofNat (Or.inl (by omega))
    unfold hexVal
    rw [ht, if_pos (by omega)]
    congr 1
    omega
  · have ht : (hexDigit n).toNat = 55 + n := by
      unfold hexDigit
      rw [if_neg h10]
      exact char_toNat_ofNat (Or.inl (by omega))
    unfold hexVal
    rw [ht, if_neg (by omega), if_pos (by omega)]
    congr 1
    omega

theorem isAlwaysSafe_hexDigit {n : Nat} (h : n < 16) :
    isAlwaysSafe (hexDigit n) = true := by
  simp only [isAlwaysSafe, Bool.or_eq_true, decide_eq_true_eq]
  by_cases h10 : n < 10
  · have ht : (hexDigit n).toNat = 48 + n := by
      unfold hexDigit
      rw [if_pos h10]
      exact char_toNat_ofNat (Or.inl (by omega))
    omega
  · have ht : (hexDigit n).toNat = 55 + n := by
      unfold hexDigit
      rw [if_neg h10]
      exact char_toNat_ofNat (Or.inl (by omega))
    omega

theorem isAlwaysSafe_toNat_bounds {c : Char} (h : isAlwaysSafe c = true) :
    c.toNat < 0x80 ∧ c.toNat ≠ 37 ∧ c.toNat ≠ 32 ∧ c.toNat ≠ 43 := by
  simp only [isAlwaysSafe, Bool.or_eq_true, decide_eq_true_eq] at h
  omega

theorem mem_pctByte_char {b : Nat} (hb : b < 256) {d : Char}
    (hd : d ∈ pctByte b) : d.toNat = 37 ∨ isAlwaysSafe d = true := by
  simp only [pctByte, List.mem_cons, List.not_mem_nil, or_false] at hd
  rcases hd with hd | hd | hd
  · left; rw [hd]; rfl
  · right; rw [hd]; exact isAlwaysSafe_hexDigit (by omega)
  · right; rw [hd]; exact isAlwaysSafe_hexDigit (by omega)

theorem unquoteLoop_fuel {f1 f2 : Nat} {s : PS} {buf : List Nat}
    (h1 : s.length ≤ f1) (h2 : s.length ≤ f2) :
    unquoteLoop f1 s buf = unquoteLoop f2 s buf := by
  induction f1 generalizing f2 s buf with
  | zero =>
    have hl : s = [] := List.eq_nil_of_length_eq_zero (by omega)
    subst hl
    cases f2 <;> rfl
  | succ f1' ih =>
    cases s with
    | nil => cases f2 <;> rfl
    | cons c rest =>
      cases f2 with
      | zero => simp at h2
      | succ f2' =>
        simp only [List.length_cons] at h1 h2
        simp only [unquoteLoop]
        by_cases h37 : c.toNat = 37
        · rw [if_pos h37, if_pos h37]
          cases hp : hexPair rest with
          | none => exact ih (by omega) (by omega)
          | some b =>
            apply ih
            · rw [List.length_drop]; omega
            · rw [List.length_drop]; omega
        · rw [if_neg h37, if_neg h37]
          by_cases ha : c.toNat < 0x80
          · rw [if_pos ha, if_pos ha]
            exact ih (by omega) (by omega)
          · rw [if_neg ha, if_neg ha]
            rw [@ih f2' rest [] (by omega) (by omega)]

theorem unquoteAux_nil (buf : List Nat) : unquoteAux [] buf = flushBuf buf :=
  rfl

theorem unquoteAux_cons (c : Char) (rest : PS) (buf : List Nat) :
    unquoteAux (c :: rest) buf =
      if c.toNat = 37 then
        match hexPair rest with
        | some b => unquoteAux (rest.drop 2) (buf ++ [b])
        | none => unquoteAux rest (buf ++ [37])
      else if c.toNat < 0x80 then unquoteAux rest (buf ++ [c.toNat])
      else flushBuf buf ++ c :: unquoteAux rest [] := by
  unfold unquoteAux
  simp only [List.length_cons, unquoteLoop]
  by_cases h37 : c.toNat = 37
  · rw [if_pos h37, if_pos h37]
    cases hp : hexPair rest with
    | none => exact unquoteLoop_fuel (by omega) (le_refl _)
    | some b =>
      apply unquoteLoop_fuel
      · rw [List.length_drop]; omega
      · exact le_refl _
  · rw [if_neg h37, if_neg h37]

theorem unquoteAux_pct {b : Nat} (hb : b < 256) (rest : PS)
    (buf : List Nat) :
    unquoteAux (pctByte b ++ rest) buf = unquoteAux rest (buf ++ [b]) := by
  have hp : hexPair (hexDigit (b / 16) :: hexDigit (b % 16) :: rest) =
      some b := by
    have h0 : hexPair (hexDigit (b / 16) :: hexDigit (b % 16) :: rest) =
        some (b / 16 * 16 + b % 16) := by
      simp only [hexPair, hexVal_hexDigit (by omega : b / 16 < 16),
        hexVal_hexDigit (by omega : b % 16 < 16)]
    rw [h0]
    congr 1
    omega
  rw [pctByte, List.cons_append, List.cons_append, List.cons_append,
    List.nil_append, unquoteAux_cons,
    if_pos (show Char.toNat '%' = 37 from rfl), hp]
  simp only [List.drop_succ_cons, List.drop_zero]

theorem unquoteAux_ascii {c : Char} (h1 : c.toNat < 0x80) (h2 : c.toNat ≠ 37)
    (rest : PS) (buf : List Nat) :
    unquoteAux (c :: rest) buf = unquoteAux rest (buf ++ [c.toNat]) := by
  rw [unquoteAux_cons, if_neg h2, if_pos h1]

theorem unquoteAux_pctBytes {bytes : List Nat} (hb : ∀ b ∈ bytes, b < 256)
    (rest : PS) (buf : List Nat) :
    unquoteAux (bytes.flatMap pctByte ++ rest) buf =
      unquoteAux rest (buf ++ bytes) := by
  induction bytes generalizing buf with
  | nil => simp
  | cons b bt ih =>
    rw [List.flatMap_cons, List.append_assoc,
      unquoteAux_pct (hb b (by simp)) _ buf,
      ih (fun x hx => hb x (List.mem_cons_of_mem _ hx)), List.append_assoc]
    rfl

/-- Result of `quote(k, safe=' ')`, which is what feeding `quote_plus(k)`
through plus-to-space replacement produces. -/
def quoteSpChar (c : Char) : PS :=
  if c.toNat = 32 then [' ']
  else if isAlwaysSafe c then [c]
  else (utf8EncodeCp c.toNat).flatMap pctByte

theorem plusToSpace_space_swap {d : Char} (hd : d.toNat ≠ 43) :
    plusToSpace (if d = ' ' then '+' else d) = d := by
  by_cases hsp : d = ' '
  · subst hsp
    rfl
  · rw [if_neg hsp]
    rw [plusToSpace, if_neg hd]

theorem plusToSpace_id {d : Char} (hd : d.toNat ≠ 43) : plusToSpace d = d := by
  rw [plusToSpace, if_neg hd]

theorem quoteSpChar_eq_branch (c : Char) :
    (if (isAlwaysSafe c || decide (c ∈ [' '])) = true then [c]
      else (utf8EncodeCp c.toNat).flatMap pctByte) = quoteSpChar c := by
  by_cases hsp : c = ' '
  · subst hsp
    rw [if_pos (by simp), quoteSpChar,
      if_pos (show Char.toNat ' ' = 32 from rfl)]
  · have hc32 : c.toNat ≠ 32 := fun he => hsp (char_eq_of_toNat_eq (show c.toNat = Char.toNat ' ' from he))
    by_cases hsafe : isAlwaysSafe c = true
    · rw [if_pos (by simp [hsafe]), quoteSpChar, if_neg hc32, if_pos hsafe]
    · rw [if_neg (by simp [hsafe, hsp]), quoteSpChar, if_neg hc32,
        if_neg hsafe]

theorem mem_quoteSpBranch_ne43 {c d : Char}
    (hd : d ∈ (if (isAlwaysSafe c || decide (c ∈ [' '])) = true then [c]
      else (utf8EncodeCp c.toNat).flatMap pctByte)) : d.toNat ≠ 43 := by
  by_cases hcond : (isAlwaysSafe c || decide (c ∈ [' '])) = true
  · rw [if_pos hcond] at hd
    simp only [List.mem_singleton] at hd
    subst hd
    simp only [Bool.or_eq_true, decide_eq_true_eq, List.mem_singleton] at hcond
    rcases hcond with hs | hsp
    · exact (isAlwaysSafe_toNat_bounds hs).2.2.2
    · subst hsp
      decide
  · rw [if_neg hcond] at hd
    simp only [List.mem_flatMap] at hd
    obtain ⟨bb, hbb, hdb⟩ := hd
    have hbound := utf8EncodeCp_lt_256 (char_toNat_valid c) bb hbb
    rcases mem_pctByte_char hbound hdb with h37 | hsafe
    · omega
    · exact (isAlwaysSafe_toNat_bounds hsafe).2.2.2

theorem mem_quoteBranch_ne43 {c d : Char}
    (hd : d ∈ (if (isAlwaysSafe c || decide (c ∈ ([] : List Char))) = true
      then [c] else (utf8EncodeCp c.toNat).flatMap pctByte)) :
    d.toNat ≠ 43 := by
  by_cases hcond : (isAlwaysSafe c || decide (c ∈ ([] : List Char))) = true
  · rw [if_pos hcond] at hd
    simp only [List.mem_singleton] at hd
    subst hd
    simp only [Bool.or_eq_true, decide_eq_true_eq, List.not_mem_nil,
      or_false] at hcond
    exact (isAlwaysSafe_toNat_bounds hcond).2.2.2
  · rw [if_neg hcond] at hd
    simp only [List.mem_flatMap] at hd
    obtain ⟨bb, hbb, hdb⟩ := hd
    have hbound := utf8EncodeCp_lt_256 (char_toNat_valid c) bb hbb
    rcases mem_pctByte_char hbound hdb with h37 | hsafe
    · omega
    · exact (isAlwaysSafe_toNat_bounds hsafe).2.2.2

theorem map_plusToSpace_pyQuotePlus (s : PS) :
    (pyQuotePlus s).map plusToSpace = s.flatMap quoteSpChar := by
  unfold pyQuotePlus pyQuote
  by_cases hsp : ' ' ∈ s
  · rw [if_pos hsp, List.map_map, List.map_flatMap]
    apply List.flatMap_congr
    intro c _
    rw [show (plusToSpace ∘ fun d => if d = ' ' then '+' else d) =
        fun d => plusToSpace (if d = ' ' then '+' else d) from rfl]
    rw [← quoteSpChar_eq_branch c]
    apply map_eq_self_of_id
    intro d hd
    exact plusToSpace_space_swap (mem_quoteSpBranch_ne43 hd)
  · rw [if_neg hsp, List.map_flatMap]
    apply List.flatMap_congr
    intro c hc
    have hcq : (if (isAlwaysSafe c || decide (c ∈ ([] : List Char))) = true
        then [c] else (utf8EncodeCp c.toNat).flatMap pctByte) =
        quoteSpChar c := by
      have hc32 : c.toNat ≠ 32 := by
        intro he
        exact hsp (char_eq_of_toNat_eq (show c.toNat = Char.toNat ' ' from he) ▸ hc)
      by_cases hsafe : isAlwaysSafe c = true
      · rw [if_pos (by simp [hsafe]), quoteSpChar, if_neg hc32, if_pos hsafe]
      · rw [if_neg (by simp [hsafe]), quoteSpChar, if_neg hc32, if_neg hsafe]
    rw [← hcq]
    apply map_eq_self_of_id
    intro d hd
    exact plusToSpace_id (mem_quoteBranch_ne43 hd)

theorem unquote_quoteSp (k : PS) (buf : List Nat) :
    unquoteAux (k.flatMap quoteSpChar) buf =
      flushBuf (buf ++ utf8EncodeStr k) := by
  induction k generalizing buf with
  | nil => simp [unquoteAux_nil, utf8EncodeStr]
  | cons c k' ih =>
    rw [List.flatMap_cons]
    by_cases hc32 : c.toNat = 32
    · have hc : c = ' ' := char_eq_of_toNat_eq hc32
      subst hc
      rw [quoteSpChar,
        if_pos (show Char.toNat ' ' = 32 from rfl), List.cons_append,
        List.nil_append, unquoteAux_ascii (by decide) (by decide), ih]
      simp [utf8EncodeStr, utf8EncodeCp]
    · by_cases hsafe : isAlwaysSafe c
      · have hb := isAlwaysSafe_toNat_bounds hsafe
        rw [quoteSpChar, if_neg hc32, if_pos hsafe, List.cons_append,
          List.nil_append, unquoteAux_ascii hb.1 hb.2.1, ih]
        have henc : utf8EncodeCp c.toNat = [c.toNat] := by
          rw [utf8EncodeCp, if_pos hb.1]
        simp [utf8EncodeStr, henc]
      · rw [quoteSpChar, if_neg hc32, if_neg hsafe,
          unquoteAux_pctBytes (utf8EncodeCp_lt_256 (char_toNat_valid c)), ih]
        simp [utf8EncodeStr]

theorem pyUnquote_plus_quotePlus (k : PS) :
    pyUnquote ((pyQuotePlus k).map plusToSpace) = k := by
  rw [map_plusToSpace_pyQuotePlus, pyUnquote, unquote_quoteSp,
    List.nil_append]
  exact utf8_decode_encode_str k

end CodecLemmas

/-! URL parsing (`urllib.parse.urlsplit` / `urlparse` / `urlunsplit` /
`urlunparse` / `urldefrag` / `urljoin` / `parse_qsl` / `urlencode`),
translated from CPython. -/

/-- Characters CPython's `urlsplit` removes anywhere in the URL
(`_UNSAFE_URL_BYTES_TO_REMOVE`: tab, CR, LF). -/
def removeUnsafeUrlChars (s : PS) : PS :=
  s.filter (fun c => !(c.toNat = 9 || c.toNat = 13 || c.toNat = 10))

/-- WHATWG C0-control-or-space class used by `urlsplit`'s lstrip. -/
def isC0OrSpace (c : Char) : Bool := decide (c.toNat ≤ 32)

/-- CPython `scheme_chars`. -/
def isSchemeChar (c : Char) : Bool :=
  decide (65 ≤ c.toNat ∧ c.toNat ≤ 90) ||
    decide (97 ≤ c.toNat ∧ c.toNat ≤ 122) ||
    decide (48 ≤ c.toNat ∧ c.toNat ≤ 57) || decide (c.toNat = 43) ||
    decide (c.toNat = 45) || decide (c.toNat = 46)

/-- ASCII letter test (`c.isascii() and c.isalpha()`). -/
def isAsciiAlpha (c : Char) : Bool :=
  decide (65 ≤ c.toNat ∧ c.toNat ≤ 90) ||
    decide (97 ≤ c.toNat ∧ c.toNat ≤ 122)

/-- Result of `urlsplit`. -/
structure USplit where
  scheme : PS
  netloc : PS
  path : PS
  query : PS
  fragment : PS
deriving DecidableEq

/-- Result of `urlparse` (adds the params component). -/
structure UParse where
  scheme : PS
  netloc : PS
  path : PS
  params : PS
  query : PS
  fragment : PS
deriving DecidableEq

/-- Netloc delimiter test used by `_splitnetloc`. -/
def isNetlocDelim (c : Char) : Bool :=
  c.toNat = 47 || c.toNat = 63 || c.toNat = 35

/-- WHATWG preprocessing of the url argument of `urlsplit`: strip leading
C0-control-or-space characters, remove tab/CR/LF anywhere. -/
def usUrl1 (url0 : PS) : PS := removeUnsafeUrlChars (url0.dropWhile isC0OrSpace)

/-- The same preprocessing of the default-scheme argument (stripped on
both sides). -/
def usDefS (d : PS) : PS :=
  removeUnsafeUrlChars
    (((d.dropWhile isC0OrSpace).reverse.dropWhile isC0OrSpace).reverse)

/-- Scheme detection of `urlsplit`: the part before the first `:` when it
is a non-empty run of scheme characters starting with an ASCII letter,
lowercased; the default scheme otherwise.  Returns (scheme, rest). -/
def splitScheme (url1 defS : PS) : PS × PS :=
  match splitFirst ':' url1 with
  | some (pre, post) =>
    if pre ≠ [] ∧ isAsciiAlpha (pre.headD ' ') ∧ pre.all isSchemeChar
    then (lowerS pre, post) else (defS, url1)
  | none => (defS, url1)

/-- `_splitnetloc` step: when the rest starts with `//`, the netloc runs
to the first `/`, `?` or `#`.  Returns (netloc, rest). -/
def splitNetlocPart (rest : PS) : PS × PS :=
  if rest.take 2 = ['/', '/'] then
    ((rest.drop 2).takeWhile (fun c => !isNetlocDelim c),
      (rest.drop 2).dropWhile (fun c => !isNetlocDelim c))
  else ([], rest)

/-- Fragment split at the first `#`.  Returns (rest, fragment). -/
def splitFrag (rest2 : PS) : PS × PS :=
  match splitFirst '#' rest2 with
  | some (pre, post) => (pre, post)
  | none => (rest2, [])

/-- Query split at the first `?`.  Returns (path, query). -/
def splitQueryPart (s : PS) : PS × PS :=
  match splitFirst '?' s with
  | some (pre, post) => (pre, post)
  | none => (s, [])

/-- (scheme, rest) stage of `urlsplitE` on preprocessed input. -/
def usSR (url0 d : PS) : PS × PS := splitScheme (usUrl1 url0) (usDefS d)

/-- (netloc, rest) stage of `urlsplitE`. -/
def usNR (url0 d : PS) : PS × PS := splitNetlocPart (usSR url0 d).2

/-- (rest, fragment) stage of `urlsplitE`. -/
def usRF (url0 d : PS) : PS × PS := splitFrag (usNR url0 d).2

/-- (path, query) stage of `urlsplitE`. -/
def usPQ (url0 d : PS) : PS × PS := splitQueryPart (usRF url0 d).1

/-- CPython `urllib.parse.urlsplit(url, scheme=defScheme)` with
`allow_fragments=True` (as in every use in the crawler).  Returns `none`
where CPython raises `ValueError` (mismatched square brackets in the
authority; the IPv6-content and NFKC netloc checks are not modelled, and the
crawler never constructs bracketed hosts). -/
def urlsplitE (url0 : PS) (defScheme : PS) : Option USplit :=
  if ('[' ∈ (usNR url0 defScheme).1 ∧ ']' ∉ (usNR url0 defScheme).1) ∨
      (']' ∈ (usNR url0 defScheme).1 ∧ '[' ∉ (usNR url0 defScheme).1) then
    none
  else
    some ⟨(usSR url0 defScheme).1, (usNR url0 defScheme).1,
      (usPQ url0 defScheme).1, (usPQ url0 defScheme).2,
      (usRF url0 defScheme).2⟩

/-- CPython 3.11 `uses_params`. -/
def usesParams : List PS :=
  [[], S ("ftp"), S ("hdl"), S ("prospero"), S ("http"), S ("imap"),
    S ("https"), S ("shttp"), S ("rtsp"), S ("rtsps"), S ("rtspu"),
    S ("sip"), S ("sips"), S ("mms"), S ("sftp"), S ("tel")]

/-- CPython `_splitparams`. -/
def splitparams (url : PS) : PS × PS :=
  if '/' ∈ url then
    let after := afterLastChar '/' url
    match splitFirst ';' after with
    | none => (url, [])
    | some (a1, a2) => (url.take (url.length - after.length) ++ a1, a2)
  else
    match splitFirst ';' url with
    | none => (url, [])
    | some (a1, a2) => (a1, a2)

/-- CPython `urllib.parse.urlparse(url, scheme=defScheme)`. -/
def urlparseE (url : PS) (defScheme : PS) : Option UParse :=
  match urlsplitE url defScheme with
  | none => none
  | some sp =>
    if sp.scheme ∈ usesParams ∧ ';' ∈ sp.path then
      let pp := splitparams sp.path
      some ⟨sp.scheme, sp.netloc, pp.1, pp.2, sp.query, sp.fragment⟩
    else some ⟨sp.scheme, sp.netloc, sp.path, [], sp.query, sp.fragment⟩

/-- CPython 3.11 `uses_relative`. -/
def usesRelative : List PS :=
  [[], S ("ftp"), S ("http"), S ("gopher"), S ("nntp"), S ("imap"),
    S ("wais"), S ("file"), S ("https"), S ("shttp"), S ("mms"),
    S ("prospero"), S ("rtsp"), S ("rtsps"), S ("rtspu"), S ("sftp"),
    S ("svn"), S ("svn+ssh"), S ("ws"), S ("wss")]

/-- CPython 3.11 `uses_netloc`. -/
def usesNetloc : List PS :=
  [[], S ("ftp"), S ("http"), S ("gopher"), S ("nntp"), S ("telnet"),
    S ("imap"), S ("wais"), S ("file"), S ("mms"), S ("https"), S ("shttp"),
    S ("snews"), S ("prospero"), S ("rtsp"), S ("rtsps"), S ("rtspu"),
    S ("rsync"), S ("svn"), S ("svn+ssh"), S ("sftp"), S ("nfs"),
    S ("git"), S ("git+ssh"), S ("ws"), S ("wss")]

/-- The `'/' + url` prepend of `urlunsplit`'s authority branch: a
non-empty path not starting with `/` gets one. -/
def absPath (url : PS) : PS :=
  if url ≠ [] ∧ url.take 1 ≠ ['/'] then '/' :: url else url

/-- The authority part of `urlunsplit`: the `//` marker is emitted when
there is a netloc, or when the scheme is a known netloc-carrying scheme
and the path does not already start with `//`. -/
def urlunsplitBase (scheme netloc url : PS) : PS :=
  if netloc ≠ [] ∨ (scheme ≠ [] ∧ scheme ∈ usesNetloc ∧
      url.take 2 ≠ ['/', '/']) then
    '/' :: '/' :: (netloc ++ absPath url)
  else url

/-- The `scheme:` prefix of `urlunsplit`. -/
def urlunsplitScheme (scheme url1 : PS) : PS :=
  if scheme ≠ [] then scheme ++ ':' :: url1 else url1

/-- The `?query` and `#fragment` suffixes of `urlunsplit`. -/
def urlunsplitQF (u2 query fragment : PS) : PS :=
  if fragment ≠ [] then
    (if query ≠ [] then u2 ++ '?' :: query else u2) ++ '#' :: fragment
  else (if query ≠ [] then u2 ++ '?' :: query else u2)

/-- CPython 3.11 `urllib.parse.urlunsplit`. -/
def urlunsplit (scheme netloc url query fragment : PS) : PS :=
  urlunsplitQF (urlunsplitScheme scheme (urlunsplitBase scheme netloc url))
    query fragment

/-- CPython `urllib.parse.urlunparse`. -/
def urlunparse (scheme netloc url params query fragment : PS) : PS :=
  urlunsplit scheme netloc
    (if params ≠ [] then url ++ ';' :: params else url) query fragment

/-- CPython `urllib.parse.urldefrag` (`none` = `ValueError` propagated). -/
def urldefragE (url : PS) : Option PS :=
  if '#' ∈ url then
    match urlparseE url [] with
    | none => none
    | some p =>
      some (urlunparse p.scheme p.netloc p.path p.params p.query [])
  else some url

/-- Hostname part of a netloc (`SplitResult._hostinfo[0]`). -/
def hostnameOfNetloc (netloc : PS) : PS :=
  let hostinfo := afterLastChar '@' netloc
  if '[' ∈ hostinfo then beforeFirstChar ']' (afterFirstChar '[' hostinfo)
  else beforeFirstChar ':' hostinfo

/-- Model of `(parsed.hostname or "")`: the `hostname` property lowercases
the part before any `%` (an IPv6 zone id keeps its case); an empty hostname
maps to `None` and then to the empty string. -/
def pyHostname (netloc : PS) : PS :=
  let h := hostnameOfNetloc netloc
  match splitFirst '%' h with
  | none => lowerS h
  | some (pre, post) => lowerS pre ++ '%' :: post

/-- CPython `urllib.parse.parse_qsl(qs, keep_blank_values=keepBlank)` with
the `&` separator. -/
def parse_qsl (qs : PS) (keepBlank : Bool) : List (PS × PS) :=
  (splitAll '&' qs).flatMap (fun chunk =>
    if chunk = [] then []
    else
      match splitFirst '=' chunk with
      | some (n, v) =>
        if v.length > 0 ∨ keepBlank = true then
          [(pyUnquote (n.map plusToSpace), pyUnquote (v.map plusToSpace))]
        else []
      | none =>
        if keepBlank = true then [(pyUnquote (chunk.map plusToSpace), [])]
        else [])

/-- CPython `urllib.parse.urlencode(pairs, doseq=True)` on string pairs
(each pair quoted with `quote_plus` and joined with `&`). -/
def pyUrlencode (pairs : List (PS × PS)) : PS :=
  pyJoin ['&'] (pairs.map (fun kv => pyQuotePlus kv.1 ++ '=' :: pyQuotePlus kv.2))

/-- Keep first and last elements, drop empty strings in between
(`segments[1:-1] = filter(None, segments[1:-1])`). -/
def filterMiddle : List PS → List PS
  | [] => []
  | [x] => [x]
  | x :: y :: rest =>
    x :: ((y :: rest).dropLast.filter (fun p => !p.isEmpty) ++
      [(y :: rest).getLastD []])

/-- Dot-segment resolution loop of `urljoin`. -/
def resolveSegs (segs : List PS) : List PS :=
  segs.foldl (fun acc seg =>
    if seg = ['.', '.'] then acc.dropLast
    else if seg = ['.'] then acc
    else acc ++ [seg]) []

/-- CPython `urllib.parse.urljoin` (`none` = `ValueError` propagated from
parsing). -/
def urljoinE (base url : PS) : Option PS :=
  if base = [] then some url
  else if url = [] then some base
  else
    match urlparseE base [] with
    | none => none
    | some b =>
      match urlparseE url b.scheme with
      | none => none
      | some u =>
        if u.scheme ≠ b.scheme ∨ u.scheme ∉ usesRelative then some url
        else if u.scheme ∈ usesNetloc ∧ u.netloc ≠ [] then
          some (urlunparse u.scheme u.netloc u.path u.params u.query
            u.fragment)
        else
          let netloc := if u.scheme ∈ usesNetloc then b.netloc else u.netloc
          if u.path = [] ∧ u.params = [] then
            some (urlunparse u.scheme netloc b.path b.params
              (if u.query = [] then b.query else u.query) u.fragment)
          else
            let baseParts0 := splitAll '/' b.path
            let baseParts :=
              if baseParts0.getLastD [] ≠ [] then baseParts0.dropLast
              else baseParts0
            let segments :=
              if u.path.take 1 = ['/'] then splitAll '/' u.path
              else filterMiddle (baseParts ++ splitAll '/' u.path)
            let rp := resolveSegs segments
            let rp2 :=
              if segments.getLastD [] = ['.'] ∨
                  segments.getLastD [] = ['.', '.'] then rp ++ [[]]
              else rp
            let joined := pyJoin ['/'] rp2
            some (urlunparse u.scheme netloc
              (if joined = [] then ['/'] else joined) u.params u.query
              u.fragment)

/-! Definitions from `scraper.py`. -/

/-- Blacklisted query-parameter keys (`QUERY_PARAM_BLACKLIST`). -/
def QUERY_PARAM_BLACKLIST : List PS :=
  [S ("utm_source"), S ("utm_medium"), S ("utm_campaign"), S ("utm_term"),
    S ("utm_content"), S ("gclid"), S ("fbclid"), S ("mc_cid"), S ("mc_eid"),
    S ("replytocom"), S ("sessionid"), S ("phpsessid"), S ("sid"),
    S ("sessid"), S ("amp"), S ("amp_html")]

/-- Path trap substrings (`TRAP_SUBSTRINGS_PATH`). -/
def TRAP_SUBSTRINGS_PATH : List PS :=
  [S ("/calendar"), S ("/ical"), S ("/feed/"), S ("/wp-json"),
    S ("/wp-admin"), S ("/xmlrpc.php"), S ("/tag/"), S ("/author/"),
    S ("/comments"), S ("/embed"), S ("/print/"), S ("/login"),
    S ("/logout"), S ("/signup"), S ("/cgi-bin"), S ("/redirect")]

/-- Query trap substrings (`TRAP_SUBSTRINGS_QUERY`).  The three uppercase
entries are kept verbatim from the source; they are compared against the
lowercased query and can therefore never match. -/
def TRAP_SUBSTRINGS_QUERY : List PS :=
  [S ("format=amp"), S ("feed="), S ("C=;O="), S ("C=N;O=D"), S ("C=M;O=A")]

/-- Keywords of the inline `trap_keywords` list in `is_valid` (again the
three `?C=..` entries are uppercase in the source and dead against the
lowercased path/query). -/
def trap_keywords : List PS :=
  [S ("calendar"), S ("ical"), S ("wp-json"), S ("replytocom"),
    S ("sessionid"), S ("feed="), S ("/feed/"), S ("\n"), S ("?C=;O="),
    S ("?C=N;O=D"), S ("?C=M;O=A")]

/-- Extensions of the non-HTML-resource regex in `is_valid`
(`jpe?g` expands to `jpg`/`jpeg`, `tiff?` to `tif`/`tiff`). -/
def EXTENSIONS : List PS :=
  [S ("css"), S ("js"), S ("bmp"), S ("gif"), S ("jpeg"), S ("jpg"),
    S ("ico"), S ("png"), S ("tiff"), S ("tif"), S ("mid"), S ("mp2"),
    S ("mp3"), S ("mp4"), S ("wav"), S ("avi"), S ("mov"), S ("mpeg"),
    S ("ram"), S ("m4v"), S ("mkv"), S ("ogg"), S ("ogv"), S ("pdf"),
    S ("ps"), S ("eps"), S ("tex"), S ("ppt"), S ("pptx"), S ("doc"),
    S ("docx"), S ("xls"), S ("xlsx"), S ("names"), S ("data"), S ("dat"),
    S ("exe"), S ("bz2"), S ("tar"), S ("msi"), S ("bin"), S ("7z"),
    S ("psd"), S ("dmg"), S ("iso"), S ("epub"), S ("dll"), S ("cnf"),
    S ("tgz"), S ("sha1"), S ("thmx"), S ("mso"), S ("arff"), S ("rtf"),
    S ("jar"), S ("csv"), S ("rm"), S ("smil"), S ("wmv"), S ("swf"),
    S ("wma"), S ("zip"), S ("rar"), S ("gz"), S ("svg"), S ("ics"),
    S ("m3u8")]

/-- ASCII digit test (`\d` over the crawler's ASCII inputs). -/
def isDigitC (c : Char) : Bool := decide (48 ≤ c.toNat ∧ c.toNat ≤ 57)

/-- Does `P` hold of some suffix of `s`?  This models `re.search`: the
pattern matches somewhere iff it matches at some start position. -/
def anySuffix (P : PS → Bool) : PS → Bool
  | [] => P []
  | c :: t => P (c :: t) || anySuffix P t

/-- First `n` characters exist and are all digits. -/
def digitsLen (t : PS) (n : Nat) : Bool :=
  decide ((t.take n).length = n) && (t.take n).all isDigitC

/-- Model of `re.match(r".*\.(css|...|m3u8)$", low_path)`: with Python
semantics `.` does not cross a newline and `$` also matches just before one
trailing newline, so the match succeeds iff the path (less one trailing
newline) is newline-free and ends in a dot plus a listed extension. -/
def extensionMatch (s : PS) : Bool :=
  let s' := if s ≠ [] ∧ s.getLastD ' ' = '\n' then s.dropLast else s
  decide ('\n' ∉ s') &&
    EXTENSIONS.any (fun ext => List.isSuffixOf ('.' :: ext) s')

/-- Search for `REPEATED_SEGMENT_RE = (/[^/]+)\1{2,}`: some position starts
three consecutive copies of `/seg` for a nonempty slash-free `seg`. -/
def REPEATED_SEGMENT_RE_search (s : PS) : Bool :=
  anySuffix (fun t =>
    decide (t.take 1 = ['/']) &&
    (List.range (t.length + 1)).any (fun l =>
      decide (1 ≤ l) &&
      (let w := (t.drop 1).take l
       decide (w.length = l) && decide ('/' ∉ w) &&
       decide ((t.drop (l + 1)).take (2 * (l + 1)) =
         ('/' :: w) ++ ('/' :: w))))) s

/-- Search for `LONG_DIGITS_RE = \d{6,}`. -/
def LONG_DIGITS_RE_search (s : PS) : Bool :=
  anySuffix (fun t => digitsLen t 6) s

/-- Search for `YEAR_RE = /(19|20)\d{2}(/(0?[1-9]|1[0-2]))?/`.  The
optional month group starts with `/`, so a match exists at a position iff
`/(19|20)\d{2}/` matches there. -/
def YEAR_RE_search (s : PS) : Bool :=
  anySuffix (fun t =>
    decide (t.take 1 = ['/']) &&
    (let y := (t.drop 1).take 2
     decide (y = S ("19") ∨ y = S ("20"))) &&
    digitsLen (t.drop 3) 2 &&
    decide ((t.drop 5).take 1 = ['/'])) s

/-- Trailing `\d{4}-\d{2}-\d{2}(?:&|$)` of the query-date regexes. -/
def qsDateTail (t : PS) : Bool :=
  digitsLen t 4 && decide ((t.drop 4).take 1 = ['-']) &&
  digitsLen (t.drop 5) 2 && decide ((t.drop 7).take 1 = ['-']) &&
  digitsLen (t.drop 8) 2 &&
  (match t.drop 10 with
   | [] => true
   | c :: _ => decide (c = '&'))

/-- The `(?:^|[?&])` anchor of the query regexes: the body matches at the
start, or right after a `?` or `&`. -/
def anchoredQuerySearch (body : PS → Bool) (s : PS) : Bool :=
  body s || anySuffix (fun t =>
    match t with
    | c :: t' => (decide (c = '?') || decide (c = '&')) && body t'
    | [] => false) s

/-- Search for `DATE_YYYY_MM_DD_RE = /\d{4}-\d{2}-\d{2}(?:/|$)`. -/
def DATE_YYYY_MM_DD_RE_search (s : PS) : Bool :=
  anySuffix (fun t =>
    decide (t.take 1 = ['/']) && digitsLen (t.drop 1) 4 &&
    decide ((t.drop 5).take 1 = ['-']) && digitsLen (t.drop 6) 2 &&
    decide ((t.drop 8).take 1 = ['-']) && digitsLen (t.drop 9) 2 &&
    (match t.drop 11 with
     | [] => true
     | c :: _ => decide (c = '/'))) s

/-- Match of `/day/\d{4}-\d{2}-\d{2}(?:/|$)` at the start of `t`. -/
def dayDateAt (t : PS) : Bool :=
  List.isPrefixOf (S ("/day")) t &&
  (decide ((t.drop 4).take 1 = ['/']) && digitsLen (t.drop 5) 4 &&
   decide ((t.drop 9).take 1 = ['-']) && digitsLen (t.drop 10) 2 &&
   decide ((t.drop 12).take 1 = ['-']) && digitsLen (t.drop 13) 2 &&
   (match t.drop 15 with
    | [] => true
    | c :: _ => decide (c = '/')))

/-- Search for `EVENTS_DAY_DATE_RE =
/events(?:/[^/]+)?/day/\d{4}-\d{2}-\d{2}(?:/|$)`. -/
def EVENTS_DAY_DATE_RE_search (s : PS) : Bool :=
  anySuffix (fun t =>
    List.isPrefixOf (S ("/events")) t &&
    (let t' := t.drop 7
     dayDateAt t' ||
     (decide (t'.take 1 = ['/']) &&
      (List.range (t'.length + 1)).any (fun k =>
        decide (1 ≤ k) &&
        (let w := (t'.drop 1).take k
         decide (w.length = k) && decide ('/' ∉ w) &&
         dayDateAt (t'.drop (k + 1))))))) s

/-- Search for `TRIBE_BAR_DATE_RE =
(?:^|[?&])tribe-bar-date=\d{4}-\d{2}-\d{2}(?:&|$)`. -/
def TRIBE_BAR_DATE_RE_search (s : PS) : Bool :=
  anchoredQuerySearch (fun t =>
    List.isPrefixOf (S ("tribe-bar-date=")) t && qsDateTail (t.drop 15)) s

/-- Search for `EVENTDISPLAY_RE =
(?:^|[?&])eventdisplay=(?:past|future|list)(?:&|$)`. -/
def EVENTDISPLAY_RE_search (s : PS) : Bool :=
  anchoredQuerySearch (fun t =>
    List.isPrefixOf (S ("eventdisplay=")) t &&
    ([S ("past"), S ("future"), S ("list")].any (fun w =>
      List.isPrefixOf w (t.drop 13) &&
      (match (t.drop 13).drop w.length with
       | [] => true
       | c :: _ => decide (c = '&'))))) s

/-- Search for `WP_MONTH_ARCHIVE_QS_RE =
(?:^|[?&])m=(?:19|20)\d{2}(0[1-9]|1[0-2])(?:&|$)`. -/
def WP_MONTH_ARCHIVE_QS_RE_search (s : PS) : Bool :=
  anchoredQuerySearch (fun t =>
    List.isPrefixOf (S ("m=")) t &&
    (let u := t.drop 2
     (let y := u.take 2
      decide (y = S ("19") ∨ y = S ("20"))) &&
     digitsLen (u.drop 2) 2 &&
     (let m := (u.drop 4).take 2
      decide (m.length = 2) &&
      ((decide (m.take 1 = ['0']) &&
        decide (49 ≤ (m.getD 1 ' ').toNat ∧ (m.getD 1 ' ').toNat ≤ 57)) ||
       (decide (m.take 1 = ['1']) &&
        decide (48 ≤ (m.getD 1 ' ').toNat ∧ (m.getD 1 ' ').toNat ≤ 50)))) &&
     (match u.drop 6 with
      | [] => true
      | c :: _ => decide (c = '&')))) s

/-- Keyword alternatives of `GENERIC_DATE_QS_RE`. -/
def GENERIC_DATE_KEYWORDS : List PS :=
  [S ("date"), S ("start"), S ("end"), S ("from"), S ("to"),
    S ("startdate"), S ("enddate"), S ("start_date"), S ("end_date")]

/-- Search for `GENERIC_DATE_QS_RE =
(?:^|[?&])(date|start|...)=\d{4}-\d{2}-\d{2}(?:&|$)`. -/
def GENERIC_DATE_QS_RE_search (s : PS) : Bool :=
  anchoredQuerySearch (fun t =>
    GENERIC_DATE_KEYWORDS.any (fun kw =>
      List.isPrefixOf (kw ++ ['=']) t && qsDateTail (t.drop (kw.length + 1)))) s

/-- Keyword alternatives of `PAGE_NUM_RE`. -/
def PAGE_NUM_KEYWORDS : List PS :=
  [S ("page"), S ("paged"), S ("p"), S ("start"), S ("offset")]

/-- Search for `PAGE_NUM_RE =
(?:^|[?&])(page|paged|p|start|offset)=\d{3,}(?:&|$)`: after the keyword and
`=` the maximal digit run has length at least 3 and is followed by `&` or
the end. -/
def PAGE_NUM_RE_search (s : PS) : Bool :=
  anchoredQuerySearch (fun t =>
    PAGE_NUM_KEYWORDS.any (fun kw =>
      List.isPrefixOf (kw ++ ['=']) t &&
      (let u := t.drop (kw.length + 1)
       let ds := u.takeWhile isDigitC
       decide (3 ≤ ds.length) &&
       (match u.drop ds.length with
        | [] => true
        | c :: _ => decide (c = '&'))))) s

/-- Tail of the slash collapse: drop a character that is a slash when the
previous kept character is one. -/
def collapseAux (prev : Char) : PS → PS
  | [] => []
  | c :: rest =>
    if prev = '/' ∧ c = '/' then collapseAux c rest
    else c :: collapseAux c rest

/-- Collapse of consecutive slashes (`re.sub(r"/{2,}", "/", path)`): each
run of slashes keeps its first slash only. -/
def collapseSlashes : PS → PS
  | [] => []
  | a :: rest => a :: collapseAux a rest

/-- The components `_canonicalize` assembles before `urlunparse`. -/
structure CanonParts where
  scheme : PS
  netloc : PS
  path : PS
  query : PS
deriving DecidableEq

/-- Component computation of `_canonicalize` on a successful parse. -/
def canonPartsOf (p : UParse) : CanonParts :=
  let kept := (parse_qsl p.query false).filter
    (fun kv => decide (lowerS kv.1 ∉ QUERY_PARAM_BLACKLIST))
  ⟨p.scheme, pyStrip (lowerS p.netloc),
    collapseSlashes (if p.path = [] then ['/'] else p.path),
    pyUrlencode kept⟩

/-- `_canonicalize` from `scraper.py`: drop blacklisted query parameters,
collapse repeated slashes, lowercase and strip the netloc, rebuild without
params and fragment; empty string on a non-http(s) scheme, and on any parse
error (the bare `except` returns `""`). -/
def _canonicalize (u : PS) : PS :=
  match urlparseE u [] with
  | none => []
  | some p =>
    if p.scheme ≠ S ("http") ∧ p.scheme ≠ S ("https") then []
    else
      let cp := canonPartsOf p
      urlunparse cp.scheme cp.netloc cp.path [] cp.query []

/-- In-scope root domains of `is_valid`. -/
def allowed_roots : List PS :=
  [S ("ics.uci.edu"), S ("cs.uci.edu"), S ("informatics.uci.edu"),
    S ("stat.uci.edu")]

/-- Scope test of `is_valid`: hostname equals a root or ends in
`"." + root`. -/
def inScopeHost (hostname : PS) : Bool :=
  allowed_roots.any (fun root =>
    decide (hostname = root) || List.isSuffixOf ('.' :: root) hostname)

/-- The local `hostname` binding of `is_valid`:
`(parsed.hostname or "").lower()`. -/
def hostnameOfP (parsed : UParse) : PS := lowerS (pyHostname parsed.netloc)

/-- The local `low_path` binding of `is_valid`. -/
def lowPathOfP (parsed : UParse) : PS := lowerS parsed.path

/-- The local `low_query` binding of `is_valid`. -/
def lowQueryOfP (parsed : UParse) : PS := lowerS parsed.query

/-- The local `qsl` binding of `is_valid`
(`parse_qsl(parsed.query, keep_blank_values=True)`). -/
def qslOfP (parsed : UParse) : List (PS × PS) := parse_qsl parsed.query true

/-- The local `segments` binding of `is_valid`
(`[s for s in low_path.split("/") if s]`). -/
def segmentsOfP (parsed : UParse) : List PS :=
  (splitAll '/' (lowPathOfP parsed)).filter (fun s => !s.isEmpty)

/-- The body of `is_valid` after a successful parse: the sequence of early
`return False` checks, rendered as a conjunction in source order. -/
def is_valid_checks (parsed : UParse) : Bool :=
  (decide (parsed.scheme = S ("http")) ||
    decide (parsed.scheme = S ("https"))) &&
  decide (parsed.query.length ≤ 300) &&
  !(hostnameOfP parsed).isEmpty &&
  inScopeHost (hostnameOfP parsed) &&
  decide ((qslOfP parsed).length ≤ 12) &&
  decide ((qslOfP parsed).length ≤ 20) &&
  !extensionMatch (lowPathOfP parsed) &&
  !(trap_keywords.any (fun k =>
    containsSub k (lowPathOfP parsed) || containsSub k (lowQueryOfP parsed))) &&
  decide ((segmentsOfP parsed).length ≤ 30) &&
  !((segmentsOfP parsed).any (fun seg =>
    decide (3 < (segmentsOfP parsed).count seg))) &&
  !(TRAP_SUBSTRINGS_PATH.any (fun t => containsSub t (lowPathOfP parsed))) &&
  !(TRAP_SUBSTRINGS_QUERY.any (fun t => containsSub t (lowQueryOfP parsed))) &&
  !(EVENTS_DAY_DATE_RE_search (lowPathOfP parsed)) &&
  !((containsSub (S ("events")) (lowPathOfP parsed) ||
      containsSub (S ("calendar")) (lowPathOfP parsed)) &&
    DATE_YYYY_MM_DD_RE_search (lowPathOfP parsed)) &&
  !(TRIBE_BAR_DATE_RE_search (lowQueryOfP parsed)) &&
  !(EVENTDISPLAY_RE_search (lowQueryOfP parsed)) &&
  !(WP_MONTH_ARCHIVE_QS_RE_search (lowQueryOfP parsed)) &&
  !((containsSub (S ("events")) (lowPathOfP parsed) ||
      containsSub (S ("calendar")) (lowPathOfP parsed)) &&
    GENERIC_DATE_QS_RE_search (lowQueryOfP parsed)) &&
  !(REPEATED_SEGMENT_RE_search (lowPathOfP parsed)) &&
  !(LONG_DIGITS_RE_search (lowPathOfP parsed)) &&
  !(YEAR_RE_search (lowPathOfP parsed) &&
    (containsSub (S ("events")) (lowPathOfP parsed) ||
      containsSub (S ("archive")) (lowPathOfP parsed) ||
      containsSub (S ("calendar")) (lowPathOfP parsed))) &&
  !(PAGE_NUM_RE_search (lowQueryOfP parsed))

/-- `is_valid` from `scraper.py`.  The enclosing `try/except` returning
`False` corresponds to the `none` parse case. -/
def is_valid (url : PS) : Bool :=
  if url = [] ∨ 2000 < url.length then false
  else
    match urlparseE url [] with
    | none => false
    | some parsed => is_valid_checks parsed

/-! Definitions from `utils/analytics.py`. -/

/-- Apostrophe character. -/
def apos : Char := Char.ofNat 39

/-- Builder for words containing an apostrophe. -/
def apW (a b : String) : PS := S a ++ apos :: S b

/-- The fixed stopword set `_STOPWORDS`. -/
def _STOPWORDS : List PS :=
  [S ("a"), S ("about"), S ("above"), S ("after"), S ("again"),
    S ("against"), S ("all"), S ("am"), S ("an"), S ("and"), S ("any"),
    S ("are"), apW ("aren") ("t"), S ("as"), S ("at"), S ("be"),
    S ("because"), S ("been"), S ("before"), S ("being"), S ("below"),
    S ("between"), S ("both"), S ("but"), S ("by"), apW ("can") ("t"),
    S ("cannot"), S ("could"), apW ("couldn") ("t"), S ("did"),
    apW ("didn") ("t"), S ("do"), S ("does"), apW ("doesn") ("t"),
    S ("doing"), apW ("don") ("t"), S ("down"), S ("during"), S ("each"),
    S ("few"), S ("for"), S ("from"), S ("further"), S ("had"),
    apW ("hadn") ("t"), S ("has"), apW ("hasn") ("t"), S ("have"),
    apW ("haven") ("t"), S ("having"), S ("he"), apW ("he") ("d"),
    apW ("he") ("ll"), apW ("he") ("s"), S ("her"), S ("here"),
    apW ("here") ("s"), S ("hers"), S ("herself"), S ("him"), S ("himself"),
    S ("his"), S ("how"), apW ("how") ("s"), S ("i"), apW ("i") ("d"),
    apW ("i") ("ll"), apW ("i") ("m"), apW ("i") ("ve"), S ("if"), S ("in"),
    S ("into"), S ("is"), apW ("isn") ("t"), S ("it"), apW ("it") ("s"),
    S ("its"), S ("itself"), apW ("let") ("s"), S ("me"), S ("more"),
    S ("most"), apW ("mustn") ("t"), S ("my"), S ("myself"), S ("no"),
    S ("nor"), S ("not"), S ("of"), S ("off"), S ("on"), S ("once"),
    S ("only"), S ("or"), S ("other"), S ("ought"), S ("our"), S ("ours"),
    S ("ourselves"), S ("out"), S ("over"), S ("own"), S ("same"),
    apW ("shan") ("t"), S ("she"), apW ("she") ("d"), apW ("she") ("ll"),
    apW ("she") ("s"), S ("should"), apW ("shouldn") ("t"), S ("so"),
    S ("some"), S ("such"), S ("than"), S ("that"), apW ("that") ("s"),
    S ("the"), S ("their"), S ("theirs"), S ("them"), S ("themselves"),
    S ("then"), S ("there"), apW ("there") ("s"), S ("these"), S ("they"),
    apW ("they") ("d"), apW ("they") ("ll"), apW ("they") ("re"),
    apW ("they") ("ve"), S ("this"), S ("those"), S ("through"), S ("to"),
    S ("too"), S ("under"), S ("until"), S ("up"), S ("very"), S ("was"),
    apW ("wasn") ("t"), S ("we"), apW ("we") ("d"), apW ("we") ("ll"),
    apW ("we") ("re"), apW ("we") ("ve"), S ("were"), apW ("weren") ("t"),
    S ("what"), apW ("what") ("s"), S ("when"), apW ("when") ("s"),
    S ("where"), apW ("where") ("s"), S ("which"), S ("while"), S ("who"),
    apW ("who") ("s"), S ("whom"), S ("why"), apW ("why") ("s"), S ("with"),
    apW ("won") ("t"), S ("would"), apW ("wouldn") ("t"), S ("you"),
    apW ("you") ("d"), apW ("you") ("ll"), apW ("you") ("re"),
    apW ("you") ("ve"), S ("your"), S ("yours"), S ("yourself"),
    S ("yourselves")]

/-- Character class of `_WORD_RE = [a-zA-Z0-9']+`. -/
def isWordChar (c : Char) : Bool :=
  decide (97 ≤ c.toNat ∧ c.toNat ≤ 122) ||
    decide (65 ≤ c.toNat ∧ c.toNat ≤ 90) ||
    decide (48 ≤ c.toNat ∧ c.toNat ≤ 57) || decide (c.toNat = 39)

/-- Run accumulator for `wordRuns`; `cur` is the reversed current run. -/
def wordRunsAux (cur : PS) : PS → List PS
  | [] => if cur.isEmpty then [] else [cur.reverse]
  | c :: t =>
    if isWordChar c then wordRunsAux (c :: cur) t
    else if cur.isEmpty then wordRunsAux [] t
    else cur.reverse :: wordRunsAux [] t

/-- `re.findall(_WORD_RE, s)`: maximal runs of word characters. -/
def wordRuns (s : PS) : List PS := wordRunsAux [] s

/-- Python `token.strip(chr(39))`: drop apostrophes at both ends. -/
def stripApos (s : PS) : PS :=
  ((s.dropWhile (fun c => c.toNat = 39)).reverse.dropWhile
    (fun c => c.toNat = 39)).reverse

/-- `Analytics._tokenize_no_stop`: lowercase word tokens with apostrophes
stripped, keeping only tokens that contain a letter and are not stopwords. -/
def _tokenize_no_stop (text : PS) : List PS :=
  (wordRuns (lowerS text)).filterMap (fun token =>
    let t := stripApos token
    if t ≠ [] ∧ t.any isAsciiAlpha ∧ t ∉ _STOPWORDS then some t else none)

/-- `Analytics._count_words_total`: number of word tokens (after apostrophe
stripping) that contain a letter, without stopword removal. -/
def _count_words_total (text : PS) : Nat :=
  ((wordRuns (lowerS text)).filter (fun token =>
    let t := stripApos token
    !t.isEmpty && t.any isAsciiAlpha)).length

/-- `collections.Counter` modelled as an insertion-ordered association
list: `counterAdd` increments a key, appending new keys at the end. -/
def counterAdd (c : List (PS × Nat)) (t : PS) : List (PS × Nat) :=
  if c.any (fun kv => kv.1 = t) then
    c.map (fun kv => if kv.1 = t then (kv.1, kv.2 + 1) else kv)
  else c ++ [(t, 1)]

/-- `Counter.update` with a token list. -/
def counterUpdate (c : List (PS × Nat)) (ts : List PS) : List (PS × Nat) :=
  ts.foldl counterAdd c

/-- Mutable state of the `Analytics` singleton.  `report_writes` counts the
invocations of `_write_reports_nolock` (the file-writing effect). -/
structure AnalyticsState where
  unique_urls : List PS
  word_counts : List (PS × Nat)
  longest_page_url : Option PS
  longest_page_word_count : Nat
  subdomain_counts : List (PS × Nat)
  pages_since_flush : Nat
  flush_every : Nat
  report_writes : Nat
deriving DecidableEq

/-- `Analytics.__init__` (with `flush_every = max(1, int(flush_every))`;
the default is 50). -/
def initAnalytics (flushEvery : Nat) : AnalyticsState :=
  ⟨[], [], none, 0, [], 0, max 1 flushEvery, 0⟩

/-- State update of `Analytics.record_page` after the two parses: `unf` is
the defragmented URL, `host` the lowercased hostname, `text` the visible
text extracted by the external HTML parser. -/
def recordPure (st : AnalyticsState) (unf host text : PS) : AnalyticsState :=
  let is_new := unf ∉ st.unique_urls
  let st1 :=
    if is_new then
      { st with
        unique_urls := st.unique_urls ++ [unf],
        subdomain_counts :=
          if List.isSuffixOf (S (".uci.edu")) host then
            counterAdd st.subdomain_counts host
          else st.subdomain_counts }
    else st
  if text = [] then st1
  else
    let tokens := _tokenize_no_stop text
    let word_count := _count_words_total text
    let st2 :=
      { st1 with
        word_counts :=
          if tokens ≠ [] then counterUpdate st1.word_counts tokens
          else st1.word_counts,
        longest_page_url :=
          if st1.longest_page_word_count < word_count then some unf
          else st1.longest_page_url,
        longest_page_word_count :=
          if st1.longest_page_word_count < word_count then word_count
          else st1.longest_page_word_count }
    let psf := st2.pages_since_flush + 1
    if st2.flush_every ≤ psf then
      { st2 with
        pages_since_flush := 0,
        report_writes := st2.report_writes + 1 }
    else { st2 with pages_since_flush := psf }

/-- `Analytics.record_page(url, page)` where `text` is the result of
`_extract_visible_text(page)` (the external HTML-parsing boundary).
`none` models an exception escaping from `urldefrag`/`urlparse` (both run
before any state mutation, so the state is unchanged in that case). -/
def record_page (st : AnalyticsState) (url : PS) (text : PS) :
    Option AnalyticsState :=
  if url = [] then some st
  else
    match urldefragE url with
    | none => none
    | some url_no_frag =>
      match urlparseE url_no_frag [] with
      | none => none
      | some parsed =>
        some (recordPure st url_no_frag (lowerS (pyHostname parsed.netloc))
          text)

/-! Definitions from `scraper.py`: `extract_next_links`. -/

/-- External HTML boundary: a fetched body together with the artefacts the
external parser extracts from it (`len(content)`, `soup.get_text`, and the
`href` values of anchor tags in document order). -/
structure Page where
  size : Nat
  text : PS
  hrefs : List PS
deriving DecidableEq

/-- `resp.raw_response`. -/
structure RawResponse where
  url : Option PS
  content : Option Page
  contentType : PS
deriving DecidableEq

/-- The `resp` object handed to `extract_next_links` (a `none` response
models `resp` being falsy). -/
structure Response where
  status : Int
  url : PS
  rawResponse : Option RawResponse
deriving DecidableEq

/-- `MAX_HTML_BYTES` from `scraper.py`. -/
def MAX_HTML_BYTES : Nat := 2500000

/-- `MIN_TEXT_TOKENS_ALIVE` from `scraper.py`. -/
def MIN_TEXT_TOKENS_ALIVE : Nat := 20

/-- One iteration body of the link loop: join against the base, strip the
fragment, canonicalize.  `none` models an exception escaping from
`urljoin`/`urldefrag` (which are outside `_canonicalize`'s `try`). -/
def canonHrefE (base href : PS) : Option PS :=
  match urljoinE base (pyStrip href) with
  | none => none
  | some absolute =>
    match urldefragE absolute with
    | none => none
    | some defragged => some (_canonicalize defragged)

/-- The link loop of `extract_next_links`: skip empty hrefs, canonicalize,
keep nonempty results not seen before, in order. -/
def collectLinks (base : PS) : List PS → List PS → Option (List PS)
  | [], _ => some []
  | h :: t, seen =>
    if h = [] then collectLinks base t seen
    else
      match canonHrefE base h with
      | none => none
      | some cleaned =>
        if cleaned ≠ [] ∧ cleaned ∉ seen then
          match collectLinks base t (cleaned :: seen) with
          | none => none
          | some out => some (cleaned :: out)
        else collectLinks base t seen

/-- `resp.url or url`: the URL `record_page` is called with. -/
def recUrlOf (url : PS) (r : Response) : PS :=
  if r.url ≠ [] then r.url else url

/-- `getattr(raw, "url", None) or resp.url or url`: the base of the
`urljoin` calls. -/
def baseOf (url : PS) (r : Response) (raw : RawResponse) : PS :=
  match raw.url with
  | some bu => if bu ≠ [] then bu else recUrlOf url r
  | none => recUrlOf url r

/-- `extract_next_links(url, resp)`.  The first component is `some` of
the returned link list, or `none` when an exception escapes the link loop
(the `urljoin`/`urldefrag` calls are outside any `try`, so a `ValueError`
on a malformed href propagates out of the function); the second lists the
`record_page` calls made before returning or raising (`record_page` runs
before the link loop in the source). -/
def extract_next_links (url : PS) (resp : Option Response) :
    Option (List PS) × List (PS × PS) :=
  match resp with
  | none => (some [], [])
  | some r =>
    if r.status ≠ 200 then (some [], [])
    else
      match r.rawResponse with
      | none => (some [], [])
      | some raw =>
        match raw.content with
        | none => (some [], [])
        | some page =>
          if raw.contentType ≠ [] ∧
              ¬(containsSub (S ("html")) (lowerS raw.contentType) = true) then
            (some [], [])
          else if MAX_HTML_BYTES < page.size then (some [], [])
          else if (wordRuns page.text).length < MIN_TEXT_TOKENS_ALIVE then
            (some [], [])
          else
            match collectLinks (baseOf url r raw) page.hrefs [] with
            | none => (none, [(recUrlOf url r, page.text)])
            | some out => (some out, [(recUrlOf url r, page.text)])

/-! Model of the politeness block of `Worker.run` in `crawler/worker.py`.

Per fetched URL each worker executes, in order and with no lock around the
module-level dict `_last_fetch_by_host`:
  (1) read `now = time.time()` and `last = _last_fetch_by_host.get(host)`;
  (2) sleep the computed remainder and write
      `_last_fetch_by_host[host] = time.time()`;
  (3) call `download` (the fetch).
Time is a global logical clock that never decreases; every step happens at
some clock value at least the current one, and the sleep in (2) forces the
write's time to be at least the read's time plus the computed wait.
Workers interleave arbitrarily, as threads do. -/

/-- Program counter and locals of one worker's politeness block. -/
structure WorkerPState where
  pc : Nat
  host : Nat
  lastRead : Option Nat
  readTime : Nat
deriving DecidableEq

/-- Shared system state: configured delay, logical clock, the
`_last_fetch_by_host` table, the workers, and the log of fetch events
(host, time of the `download` call). -/
structure PoliteSys where
  delay : Nat
  clock : Nat
  table : List (Nat × Nat)
  workers : List WorkerPState
  fetches : List (Nat × Nat)
deriving DecidableEq

/-- `dict.get(host)`. -/
def lookupT (t : List (Nat × Nat)) (h : Nat) : Option Nat :=
  (t.find? (fun kv => kv.1 = h)).map (fun kv => kv.2)

/-- `dict[host] = v`. -/
def storeT (t : List (Nat × Nat)) (h : Nat) (v : Nat) : List (Nat × Nat) :=
  if t.any (fun kv => kv.1 = h) then
    t.map (fun kv => if kv.1 = h then (h, v) else kv)
  else t ++ [(h, v)]

/-- The wait `Worker.run` computes from its read:
`need = time_delay - (now - last)` when a last time was found, slept only
when positive (natural subtraction models the clamping). -/
def politeNeed (w : WorkerPState) (delay : Nat) : Nat :=
  match w.lastRead with
  | none => 0
  | some l => delay - (w.readTime - l)

/-- Interleaving steps of the workers' politeness blocks. -/
inductive PoliteStep : PoliteSys → PoliteSys → Prop
  | read (sys : PoliteSys) (i : Nat) (w : WorkerPState) (c : Nat)
      (hw : sys.workers.get? i = some w) (hpc : w.pc = 0)
      (hc : sys.clock ≤ c) :
      PoliteStep sys
        { sys with
          clock := c,
          workers := sys.workers.set i
            { w with
              pc := 1,
              lastRead := lookupT sys.table w.host,
              readTime := c } }
  | write (sys : PoliteSys) (i : Nat) (w : WorkerPState) (c : Nat)
      (hw : sys.workers.get? i = some w) (hpc : w.pc = 1)
      (hc : sys.clock ≤ c)
      (hsleep : w.readTime + politeNeed w sys.delay ≤ c) :
      PoliteStep sys
        { sys with
          clock := c,
          table := storeT sys.table w.host c,
          workers := sys.workers.set i { w with pc := 2 } }
  | fetch (sys : PoliteSys) (i : Nat) (w : WorkerPState) (c : Nat)
      (hw : sys.workers.get? i = some w) (hpc : w.pc = 2)
      (hc : sys.clock ≤ c) :
      PoliteStep sys
        { sys with
          clock := c,
          workers := sys.workers.set i { w with pc := 3 },
          fetches := sys.fetches ++ [(w.host, c)] }

/-- Reachability from an initial system by interleaved steps. -/
def PoliteReachable (init sys : PoliteSys) : Prop :=
  Relation.ReflTransGen PoliteStep init sys

/-- Initial system: empty table, given workers all at the start of their
politeness blocks. -/
def politeInit (delay : Nat) (hosts : List Nat) : PoliteSys :=
  ⟨delay, 0, [], hosts.map (fun h => ⟨0, h, none, 0⟩), []⟩

/-- The spacing property the spec claims: any two distinct fetches of the
same host are at least `delay` apart. -/
def FetchesSpaced (sys : PoliteSys) : Prop :=
  ∀ i j, i < sys.fetches.length → j < sys.fetches.length → i ≠ j →
    (sys.fetches.getD i (0, 0)).1 = (sys.fetches.getD j (0, 0)).1 →
    sys.delay ≤ (sys.fetches.getD i (0, 0)).2 - (sys.fetches.getD j (0, 0)).2 ∨
    sys.delay ≤ (sys.fetches.getD j (0, 0)).2 - (sys.fetches.getD i (0, 0)).2

/-! Claim theorems. -/

/-- Hostname `is_valid` computes for a URL (empty when parsing fails). -/
def hostOfUrl (url : PS) : PS :=
  match urlparseE url [] with
  | none => []
  | some p => hostnameOfP p

/-- Path segments `is_valid` computes for a URL (empty when parsing
fails). -/
def pathSegmentsOfUrl (url : PS) : List PS :=
  match urlparseE url [] with
  | none => []
  | some p => segmentsOfP p

/-- Every rule of `is_valid` other than the segment-repetition count, as a
conjunction of the remaining factors of `is_valid_checks` in source
order. -/
def C1OtherRules (p : UParse) : Bool :=
  (decide (p.scheme = S ("http")) || decide (p.scheme = S ("https"))) &&
  decide (p.query.length ≤ 300) &&
  !(hostnameOfP p).isEmpty &&
  inScopeHost (hostnameOfP p) &&
  decide ((qslOfP p).length ≤ 12) &&
  decide ((qslOfP p).length ≤ 20) &&
  !extensionMatch (lowPathOfP p) &&
  !(trap_keywords.any (fun k =>
    containsSub k (lowPathOfP p) || containsSub k (lowQueryOfP p))) &&
  decide ((segmentsOfP p).length ≤ 30) &&
  !(TRAP_SUBSTRINGS_PATH.any (fun t => containsSub t (lowPathOfP p))) &&
  !(TRAP_SUBSTRINGS_QUERY.any (fun t => containsSub t (lowQueryOfP p))) &&
  !(EVENTS_DAY_DATE_RE_search (lowPathOfP p)) &&
  !((containsSub (S ("events")) (lowPathOfP p) ||
      containsSub (S ("calendar")) (lowPathOfP p)) &&
    DATE_YYYY_MM_DD_RE_search (lowPathOfP p)) &&
  !(TRIBE_BAR_DATE_RE_search (lowQueryOfP p)) &&
  !(EVENTDISPLAY_RE_search (lowQueryOfP p)) &&
  !(WP_MONTH_ARCHIVE_QS_RE_search (lowQueryOfP p)) &&
  !((containsSub (S ("events")) (lowPathOfP p) ||
      containsSub (S ("calendar")) (lowPathOfP p)) &&
    GENERIC_DATE_QS_RE_search (lowQueryOfP p)) &&
  !(REPEATED_SEGMENT_RE_search (lowPathOfP p)) &&
  !(LONG_DIGITS_RE_search (lowPathOfP p)) &&
  !(YEAR_RE_search (lowPathOfP p) &&
    (containsSub (S ("events")) (lowPathOfP p) ||
      containsSub (S ("archive")) (lowPathOfP p) ||
      containsSub (S ("calendar")) (lowPathOfP p))) &&
  !(PAGE_NUM_RE_search (lowQueryOfP p))

theorem is_valid_parse_some {url : PS} {p : UParse}
    (hlen : ¬(url = [] ∨ 2000 < url.length))
    (hp : urlparseE url [] = some p) :
    is_valid url = is_valid_checks p := by
  unfold is_valid
  rw [if_neg hlen, hp]

theorem is_valid_checks_iff (p : UParse) :
    is_valid_checks p = true ↔
      (C1OtherRules p = true ∧
        ((segmentsOfP p).any fun seg =>
          decide (3 < (segmentsOfP p).count seg)) = false) := by
  unfold is_valid_checks C1OtherRules
  simp only [Bool.and_eq_true, Bool.not_eq_true']
  tauto

/-- C7: a URL whose host is neither equal to nor a subdomain of one of the
configured root domains is rejected by `is_valid`, whatever its path and
query. -/
theorem C7_out_of_scope_rejected (url : PS)
    (h : inScopeHost (hostOfUrl url) = false) : is_valid url = false := by
  unfold is_valid
  split
  · rfl
  · unfold hostOfUrl at h
    cases hp : urlparseE url [] with
    | none => simp only [hp]
    | some p =>
      simp only [hp] at h ⊢
      show is_valid_checks p = false
      unfold is_valid_checks
      rw [h]
      simp

/-- Witness for C7 at a concrete out-of-scope URL. -/
theorem C7_witness :
    inScopeHost (hostOfUrl (S ("https://www.google.com/search?q=ics"))) =
      false ∧
    is_valid (S ("https://www.google.com/search?q=ics")) = false :=
  ⟨by decide, C7_out_of_scope_rejected _ (by decide)⟩

/-- C1: a path segment repeated four or more times across the whole path
forces rejection; and a URL whose path repeats a segment exactly three
times, while violating none of the other rules of `is_valid`, is
accepted. -/
theorem C1_repeated_segments (url : PS) :
    (∀ seg, 3 < (pathSegmentsOfUrl url).count seg → is_valid url = false) ∧
    (∀ p, urlparseE url [] = some p → ¬(url = [] ∨ 2000 < url.length) →
      (∃ seg ∈ segmentsOfP p, (segmentsOfP p).count seg = 3) →
      (∀ seg ∈ segmentsOfP p, (segmentsOfP p).count seg ≤ 3) →
      C1OtherRules p = true →
      is_valid url = true) := by
  constructor
  · intro seg hcount
    unfold is_valid
    split
    · rfl
    · unfold pathSegmentsOfUrl at hcount
      cases hp : urlparseE url [] with
      | none => simp only [hp]
      | some p =>
        simp only [hp] at hcount
        show is_valid_checks p = false
        have hmem : seg ∈ segmentsOfP p :=
          List.count_pos_iff.mp (by omega)
        have hany : ((segmentsOfP p).any fun s =>
            decide (3 < (segmentsOfP p).count s)) = true := by
          rw [List.any_eq_true]
          exact ⟨seg, hmem, by simpa using hcount⟩
        cases hvc : is_valid_checks p with
        | false => rfl
        | true =>
          exfalso
          have hiff := (is_valid_checks_iff p).mp hvc
          rw [hiff.2] at hany
          cases hany
  · intro p hp hlen _ hall hother
    rw [is_valid_parse_some hlen hp]
    have hseg : ((segmentsOfP p).any fun s =>
        decide (3 < (segmentsOfP p).count s)) = false := by
      rw [List.any_eq_false]
      intro x hx
      simpa using hall x hx
    exact (is_valid_checks_iff p).mpr ⟨hother, hseg⟩

/-- Witness for C1: a URL with a segment occurring exactly three times
(non-adjacently) is accepted, and repeating a segment four times forces
rejection. -/
theorem C1_witness :
    (3 < (pathSegmentsOfUrl
        (S ("https://www.ics.uci.edu/a/b/a/c/a/a"))).count (S ("a")) ∧
      is_valid (S ("https://www.ics.uci.edu/a/b/a/c/a/a")) = false) ∧
    is_valid (S ("https://www.ics.uci.edu/a/b/a/c/a")) = true := by
  refine ⟨⟨by decide, (C1_repeated_segments _).1 (S ("a")) (by decide)⟩, ?_⟩
  refine (C1_repeated_segments _).2
    ⟨S ("https"), S ("www.ics.uci.edu"), S ("/a/b/a/c/a"), [], [], []⟩
    (by decide) (by decide) ⟨S ("a"), by decide, by decide⟩
    (by decide) (by decide)

/-- A successful `record_page` call on a non-empty URL is `recordPure` at
the defragmented URL and lowercased hostname. -/
theorem record_page_eq {st : AnalyticsState} {url text : PS}
    {st2 : AnalyticsState} (hu : url ≠ [])
    (h : record_page st url text = some st2) :
    ∃ unf p, urldefragE url = some unf ∧ urlparseE unf [] = some p ∧
      st2 = recordPure st unf (lowerS (pyHostname p.netloc)) text := by
  unfold record_page at h
  rw [if_neg hu] at h
  split at h
  · cases h
  · rename_i unf hdd
    split at h
    · cases h
    · rename_i p hpp
      exact ⟨unf, p, hdd, hpp, (Option.some.inj h).symm⟩

/-- `recordPure` with empty text performs only the unique-URL and
subdomain updates. -/
theorem recordPure_nil (st : AnalyticsState) (unf host : PS) :
    recordPure st unf host [] =
      (if unf ∉ st.unique_urls then
        { st with
          unique_urls := st.unique_urls ++ [unf],
          subdomain_counts :=
            if List.isSuffixOf (S (".uci.edu")) host then
              counterAdd st.subdomain_counts host
            else st.subdomain_counts }
      else st) := rfl

/-- Explicit form of `recordPure` on non-empty text. -/
theorem recordPure_nonempty (st : AnalyticsState) (unf host text : PS)
    (ht : text ≠ []) :
    recordPure st unf host text =
      { unique_urls :=
          if unf ∉ st.unique_urls then st.unique_urls ++ [unf]
          else st.unique_urls,
        word_counts :=
          if _tokenize_no_stop text ≠ [] then
            counterUpdate st.word_counts (_tokenize_no_stop text)
          else st.word_counts,
        longest_page_url :=
          if st.longest_page_word_count < _count_words_total text then
            some unf
          else st.longest_page_url,
        longest_page_word_count :=
          if st.longest_page_word_count < _count_words_total text then
            _count_words_total text
          else st.longest_page_word_count,
        subdomain_counts :=
          if unf ∉ st.unique_urls ∧
              List.isSuffixOf (S (".uci.edu")) host then
            counterAdd st.subdomain_counts host
          else st.subdomain_counts,
        pages_since_flush :=
          if st.flush_every ≤ st.pages_since_flush + 1 then 0
          else st.pages_since_flush + 1,
        flush_every := st.flush_every,
        report_writes :=
          if st.flush_every ≤ st.pages_since_flush + 1 then
            st.report_writes + 1
          else st.report_writes } := by
  unfold recordPure
  rw [if_neg ht]
  by_cases hnew : unf ∉ st.unique_urls <;>
    by_cases hfl : st.flush_every ≤ st.pages_since_flush + 1 <;>
      simp [hnew, hfl]

/-- C10: `record_page` with a non-empty URL and empty extracted text still
registers the fragment-stripped URL as unique (incrementing the subdomain
counter when the host ends in `.uci.edu`), but leaves the word counter,
the longest-page record, the flush counter and the number of report
writes unchanged, so it can never trigger a flush. -/
theorem C10_empty_text_frame (st : AnalyticsState) (url : PS)
    (st2 : AnalyticsState) (hu : url ≠ [])
    (h : record_page st url [] = some st2) :
    st2.word_counts = st.word_counts ∧
    st2.longest_page_url = st.longest_page_url ∧
    st2.longest_page_word_count = st.longest_page_word_count ∧
    st2.pages_since_flush = st.pages_since_flush ∧
    st2.report_writes = st.report_writes ∧
    ∃ unf p, urldefragE url = some unf ∧ urlparseE unf [] = some p ∧
      st2.unique_urls =
        (if unf ∉ st.unique_urls then st.unique_urls ++ [unf]
         else st.unique_urls) ∧
      st2.subdomain_counts =
        (if unf ∉ st.unique_urls ∧
            List.isSuffixOf (S (".uci.edu")) (lowerS (pyHostname p.netloc))
          then counterAdd st.subdomain_counts (lowerS (pyHostname p.netloc))
         else st.subdomain_counts) := by
  obtain ⟨unf, p, hd, hp, hst⟩ := record_page_eq hu h
  subst hst
  rw [recordPure_nil]
  by_cases hnew : unf ∉ st.unique_urls <;>
    by_cases hsuf :
        List.isSuffixOf (S (".uci.edu")) (lowerS (pyHostname p.netloc)) <;>
      exact ⟨by simp [hnew, hsuf], by simp [hnew, hsuf],
        by simp [hnew, hsuf], by simp [hnew, hsuf], by simp [hnew, hsuf],
        unf, p, hd, hp, by simp [hnew, hsuf], by simp [hnew, hsuf]⟩

/-- Witness for C10 with `flush_every = 1` and a fragment to strip: the
unique URL and subdomain are registered but no flush happens. -/
theorem C10_witness :
    ∃ st2, record_page (initAnalytics 1)
        (S ("http://www.ics.uci.edu/p#frag")) [] = some st2 ∧
      st2.unique_urls = [S ("http://www.ics.uci.edu/p")] ∧
      st2.subdomain_counts = [(S ("www.ics.uci.edu"), 1)] ∧
      st2.word_counts = (initAnalytics 1).word_counts ∧
      st2.pages_since_flush = (initAnalytics 1).pages_since_flush ∧
      st2.report_writes = (initAnalytics 1).report_writes := by
  have h : record_page (initAnalytics 1)
      (S ("http://www.ics.uci.edu/p#frag")) [] =
      some ⟨[S ("http://www.ics.uci.edu/p")], [], none, 0,
        [(S ("www.ics.uci.edu"), 1)], 0, 1, 0⟩ := by decide
  have hc := C10_empty_text_frame (initAnalytics 1)
    (S ("http://www.ics.uci.edu/p#frag")) _ (by decide) h
  exact ⟨_, h, by decide, by decide, hc.1, hc.2.2.2.1, hc.2.2.2.2.1⟩

/-- C6: the longest-page record moves only on a strict increase of the
total word count: after a page strictly improves the record, a second
page with an equal word count leaves both the recorded URL and the
recorded count unchanged. -/
theorem C6_longest_tie (st : AnalyticsState) (u1 u2 t1 t2 : PS)
    (s1 s2 : AnalyticsState) (hu1 : u1 ≠ []) (hu2 : u2 ≠ [])
    (h1 : record_page st u1 t1 = some s1)
    (h2 : record_page s1 u2 t2 = some s2)
    (hgt : st.longest_page_word_count < _count_words_total t1)
    (heq : _count_words_total t2 = _count_words_total t1) :
    ∃ unf1, urldefragE u1 = some unf1 ∧
      s1.longest_page_url = some unf1 ∧
      s1.longest_page_word_count = _count_words_total t1 ∧
      s2.longest_page_url = some unf1 ∧
      s2.longest_page_word_count = _count_words_total t1 := by
  have hz : _count_words_total [] = 0 := rfl
  have ht1 : t1 ≠ [] := by
    intro he; rw [he, hz] at hgt; omega
  have ht2 : t2 ≠ [] := by
    intro he; rw [he, hz] at heq; omega
  obtain ⟨unf1, p1, hd1, hp1, hs1⟩ := record_page_eq hu1 h1
  obtain ⟨unf2, p2, hd2, hp2, hs2⟩ := record_page_eq hu2 h2
  have l1 : s1.longest_page_url = some unf1 := by
    rw [hs1, recordPure_nonempty _ _ _ _ ht1]
    show (if st.longest_page_word_count < _count_words_total t1 then
      some unf1 else st.longest_page_url) = some unf1
    rw [if_pos hgt]
  have c1 : s1.longest_page_word_count = _count_words_total t1 := by
    rw [hs1, recordPure_nonempty _ _ _ _ ht1]
    show (if st.longest_page_word_count < _count_words_total t1 then
      _count_words_total t1 else st.longest_page_word_count) =
      _count_words_total t1
    rw [if_pos hgt]
  have hlt : ¬ s1.longest_page_word_count < _count_words_total t2 := by
    rw [c1, heq]; exact lt_irrefl _
  have l2 : s2.longest_page_url = some unf1 := by
    rw [hs2, recordPure_nonempty _ _ _ _ ht2]
    show (if s1.longest_page_word_count < _count_words_total t2 then
      some unf2 else s1.longest_page_url) = some unf1
    rw [if_neg hlt, l1]
  have c2 : s2.longest_page_word_count = _count_words_total t1 := by
    rw [hs2, recordPure_nonempty _ _ _ _ ht2]
    show (if s1.longest_page_word_count < _count_words_total t2 then
      _count_words_total t2 else s1.longest_page_word_count) =
      _count_words_total t1
    rw [if_neg hlt, c1]
  exact ⟨unf1, hd1, l1, c1, l2, c2⟩

/-- Witness for C6: two pages with two word tokens each; the first keeps
the longest-page record. -/
theorem C6_witness :
    ∃ s1 s2,
      record_page (initAnalytics 50) (S ("http://www.ics.uci.edu/a"))
        (S ("alpha beta")) = some s1 ∧
      record_page s1 (S ("http://www.ics.uci.edu/b"))
        (S ("gamma delta")) = some s2 ∧
      s1.longest_page_url = some (S ("http://www.ics.uci.edu/a")) ∧
      s2.longest_page_url = some (S ("http://www.ics.uci.edu/a")) ∧
      s2.longest_page_word_count =
        _count_words_total (S ("alpha beta")) := by
  have h1 : record_page (initAnalytics 50) (S ("http://www.ics.uci.edu/a"))
      (S ("alpha beta")) =
      some ⟨[S ("http://www.ics.uci.edu/a")],
        [(S ("alpha"), 1), (S ("beta"), 1)],
        some (S ("http://www.ics.uci.edu/a")), 2,
        [(S ("www.ics.uci.edu"), 1)], 1, 50, 0⟩ := by decide
  have h2 : record_page
      (⟨[S ("http://www.ics.uci.edu/a")],
        [(S ("alpha"), 1), (S ("beta"), 1)],
        some (S ("http://www.ics.uci.edu/a")), 2,
        [(S ("www.ics.uci.edu"), 1)], 1, 50, 0⟩ : AnalyticsState)
      (S ("http://www.ics.uci.edu/b")) (S ("gamma delta")) =
      some ⟨[S ("http://www.ics.uci.edu/a"), S ("http://www.ics.uci.edu/b")],
        [(S ("alpha"), 1), (S ("beta"), 1), (S ("gamma"), 1),
          (S ("delta"), 1)],
        some (S ("http://www.ics.uci.edu/a")), 2,
        [(S ("www.ics.uci.edu"), 2)], 2, 50, 0⟩ := by decide
  obtain ⟨unf1, hd, l1, c1, l2, c2⟩ :=
    C6_longest_tie (initAnalytics 50) _ _ _ _ _ _ (by decide) (by decide)
      h1 h2 (by decide) (by decide)
  have hdv : urldefragE (S ("http://www.ics.uci.edu/a")) =
      some (S ("http://www.ics.uci.edu/a")) := by decide
  have hu : unf1 = S ("http://www.ics.uci.edu/a") :=
    (Option.some.inj (hdv.symm.trans hd)).symm
  rw [hu] at l1 l2
  exact ⟨_, _, h1, h2, l1, l2, c2⟩

/-- C5: recording two URLs with the same fragment-stripped form adds that
form to the unique-URL list only once and leaves the subdomain counters
unchanged on the repeat, while the repeat still updates the word counter
and the longest-page record from its own text. -/
theorem C5_repeat_unique_once (st : AnalyticsState) (u1 u2 t1 t2 : PS)
    (s1 s2 : AnalyticsState) (unf : PS) (hu1 : u1 ≠ []) (hu2 : u2 ≠ [])
    (hd1 : urldefragE u1 = some unf) (hd2 : urldefragE u2 = some unf)
    (h1 : record_page st u1 t1 = some s1)
    (h2 : record_page s1 u2 t2 = some s2)
    (hnew : unf ∉ st.unique_urls) (ht2 : t2 ≠ []) :
    s1.unique_urls = st.unique_urls ++ [unf] ∧
    s2.unique_urls = st.unique_urls ++ [unf] ∧
    s2.subdomain_counts = s1.subdomain_counts ∧
    s2.word_counts =
      (if _tokenize_no_stop t2 ≠ [] then
        counterUpdate s1.word_counts (_tokenize_no_stop t2)
       else s1.word_counts) ∧
    s2.longest_page_url =
      (if s1.longest_page_word_count < _count_words_total t2 then some unf
       else s1.longest_page_url) ∧
    s2.longest_page_word_count =
      (if s1.longest_page_word_count < _count_words_total t2 then
        _count_words_total t2
       else s1.longest_page_word_count) := by
  obtain ⟨unfA, pA, hdA, hpA, hsA⟩ := record_page_eq hu1 h1
  obtain ⟨unfB, pB, hdB, hpB, hsB⟩ := record_page_eq hu2 h2
  have heA : unfA = unf := Option.some.inj (hdA.symm.trans hd1)
  have heB : unfB = unf := Option.some.inj (hdB.symm.trans hd2)
  rw [heA] at hsA
  rw [heB] at hsB
  have hs1u : s1.unique_urls = st.unique_urls ++ [unf] := by
    by_cases hT : t1 = []
    · rw [hsA, hT, recordPure_nil, if_pos hnew]
    · rw [hsA, recordPure_nonempty _ _ _ _ hT]
      show (if unf ∉ st.unique_urls then st.unique_urls ++ [unf]
        else st.unique_urls) = st.unique_urls ++ [unf]
      rw [if_pos hnew]
  have hmem : unf ∈ s1.unique_urls := by
    rw [hs1u]; exact List.mem_append_right _ (List.mem_singleton.mpr rfl)
  have hnot : ¬ unf ∉ s1.unique_urls := fun hc => hc hmem
  have hnot2 : ¬ (unf ∉ s1.unique_urls ∧
      List.isSuffixOf (S (".uci.edu")) (lowerS (pyHostname pB.netloc))) :=
    fun hc => hc.1 hmem
  refine ⟨hs1u, ?_, ?_, ?_, ?_, ?_⟩
  · rw [hsB, recordPure_nonempty _ _ _ _ ht2]
    show (if unf ∉ s1.unique_urls then s1.unique_urls ++ [unf]
      else s1.unique_urls) = st.unique_urls ++ [unf]
    rw [if_neg hnot, hs1u]
  · rw [hsB, recordPure_nonempty _ _ _ _ ht2]
    show (if unf ∉ s1.unique_urls ∧
        List.isSuffixOf (S (".uci.edu")) (lowerS (pyHostname pB.netloc))
      then counterAdd s1.subdomain_counts (lowerS (pyHostname pB.netloc))
      else s1.subdomain_counts) = s1.subdomain_counts
    rw [if_neg hnot2]
  · rw [hsB, recordPure_nonempty _ _ _ _ ht2]
  · rw [hsB, recordPure_nonempty _ _ _ _ ht2]
  · rw [hsB, recordPure_nonempty _ _ _ _ ht2]

/-- Witness for C5: the same page URL recorded under two different
fragments is unique only once, while the second text still updates the
stats. -/
theorem C5_witness :
    ∃ s1 s2,
      record_page (initAnalytics 50) (S ("http://www.ics.uci.edu/a#x"))
        (S ("alpha beta")) = some s1 ∧
      record_page s1 (S ("http://www.ics.uci.edu/a#y"))
        (S ("epsilon zeta eta")) = some s2 ∧
      s2.unique_urls =
        (initAnalytics 50).unique_urls ++ [S ("http://www.ics.uci.edu/a")] ∧
      s2.subdomain_counts = s1.subdomain_counts ∧
      s2.longest_page_word_count =
        _count_words_total (S ("epsilon zeta eta")) := by
  have h1 : record_page (initAnalytics 50)
      (S ("http://www.ics.uci.edu/a#x")) (S ("alpha beta")) =
      some ⟨[S ("http://www.ics.uci.edu/a")],
        [(S ("alpha"), 1), (S ("beta"), 1)],
        some (S ("http://www.ics.uci.edu/a")), 2,
        [(S ("www.ics.uci.edu"), 1)], 1, 50, 0⟩ := by decide
  have h2 : record_page
      (⟨[S ("http://www.ics.uci.edu/a")],
        [(S ("alpha"), 1), (S ("beta"), 1)],
        some (S ("http://www.ics.uci.edu/a")), 2,
        [(S ("www.ics.uci.edu"), 1)], 1, 50, 0⟩ : AnalyticsState)
      (S ("http://www.ics.uci.edu/a#y")) (S ("epsilon zeta eta")) =
      some ⟨[S ("http://www.ics.uci.edu/a")],
        [(S ("alpha"), 1), (S ("beta"), 1), (S ("epsilon"), 1),
          (S ("zeta"), 1), (S ("eta"), 1)],
        some (S ("http://www.ics.uci.edu/a")), 3,
        [(S ("www.ics.uci.edu"), 1)], 2, 50, 0⟩ := by decide
  obtain ⟨hA, hB, hC, hD, hE, hF⟩ :=
    C5_repeat_unique_once (initAnalytics 50) _ _ _ _ _ _
      (S ("http://www.ics.uci.edu/a")) (by decide) (by decide) (by decide)
      (by decide) h1 h2 (by decide) (by decide)
  refine ⟨_, _, h1, h2, hB, hC, ?_⟩
  rw [hF]
  decide

/-- C9: the claimed per-host spacing fails under interleaving.  Both
workers read the empty `_last_fetch_by_host` table before either writes,
so both compute a zero wait and fetch the same host at the same instant:
a state with two same-host fetches zero apart is reachable, refuting
`FetchesSpaced` (the read-then-write is not atomic). -/
theorem C9_politeness_race :
    ∃ sys, PoliteReachable (politeInit 5 [0, 0]) sys ∧
      ¬ FetchesSpaced sys := by
  have r01 : PoliteStep
      (⟨5, 0, [], [⟨0, 0, none, 0⟩, ⟨0, 0, none, 0⟩], []⟩ : PoliteSys)
      ⟨5, 0, [], [⟨1, 0, none, 0⟩, ⟨0, 0, none, 0⟩], []⟩ :=
    PoliteStep.read _ 0 ⟨0, 0, none, 0⟩ 0 rfl rfl (Nat.le_refl 0)
  have r12 : PoliteStep
      (⟨5, 0, [], [⟨1, 0, none, 0⟩, ⟨0, 0, none, 0⟩], []⟩ : PoliteSys)
      ⟨5, 0, [], [⟨1, 0, none, 0⟩, ⟨1, 0, none, 0⟩], []⟩ :=
    PoliteStep.read _ 1 ⟨0, 0, none, 0⟩ 0 rfl rfl (Nat.le_refl 0)
  have r23 : PoliteStep
      (⟨5, 0, [], [⟨1, 0, none, 0⟩, ⟨1, 0, none, 0⟩], []⟩ : PoliteSys)
      ⟨5, 0, [(0, 0)], [⟨2, 0, none, 0⟩, ⟨1, 0, none, 0⟩], []⟩ :=
    PoliteStep.write _ 0 ⟨1, 0, none, 0⟩ 0 rfl rfl (Nat.le_refl 0)
      (Nat.le_refl 0)
  have r34 : PoliteStep
      (⟨5, 0, [(0, 0)], [⟨2, 0, none, 0⟩, ⟨1, 0, none, 0⟩], []⟩ : PoliteSys)
      ⟨5, 0, [(0, 0)], [⟨2, 0, none, 0⟩, ⟨2, 0, none, 0⟩], []⟩ :=
    PoliteStep.write _ 1 ⟨1, 0, none, 0⟩ 0 rfl rfl (Nat.le_refl 0)
      (Nat.le_refl 0)
  have r45 : PoliteStep
      (⟨5, 0, [(0, 0)], [⟨2, 0, none, 0⟩, ⟨2, 0, none, 0⟩], []⟩ : PoliteSys)
      ⟨5, 0, [(0, 0)], [⟨3, 0, none, 0⟩, ⟨2, 0, none, 0⟩], [(0, 0)]⟩ :=
    PoliteStep.fetch _ 0 ⟨2, 0, none, 0⟩ 0 rfl rfl (Nat.le_refl 0)
  have r56 : PoliteStep
      (⟨5, 0, [(0, 0)], [⟨3, 0, none, 0⟩, ⟨2, 0, none, 0⟩],
        [(0, 0)]⟩ : PoliteSys)
      ⟨5, 0, [(0, 0)], [⟨3, 0, none, 0⟩, ⟨3, 0, none, 0⟩],
        [(0, 0), (0, 0)]⟩ :=
    PoliteStep.fetch _ 1 ⟨2, 0, none, 0⟩ 0 rfl rfl (Nat.le_refl 0)
  refine ⟨⟨5, 0, [(0, 0)], [⟨3, 0, none, 0⟩, ⟨3, 0, none, 0⟩],
    [(0, 0), (0, 0)]⟩, ?_, ?_⟩
  · exact Relation.ReflTransGen.head r01
      (Relation.ReflTransGen.head r12
        (Relation.ReflTransGen.head r23
          (Relation.ReflTransGen.head r34
            (Relation.ReflTransGen.head r45
              (Relation.ReflTransGen.head r56
                Relation.ReflTransGen.refl)))))
  · intro hF
    have hc := hF 0 1 (by decide) (by decide) (by decide) (by decide)
    rcases hc with h | h <;> exact absurd h (by decide)

/-- First-occurrence deduplication against an already-seen list, keeping
order. -/
def firstDedup : List PS → List PS → List PS
  | [], _ => []
  | x :: t, seen =>
    if x ∈ seen then firstDedup t seen else x :: firstDedup t (x :: seen)

/-- The canonicalized outcomes of the non-empty hrefs whose processing
succeeds and yields a non-empty cleaned link, in document order (before
deduplication). -/
def canonOutcomes (base : PS) (hrefs : List PS) : List PS :=
  (hrefs.filter (fun h => h ≠ [])).filterMap (fun h =>
    match canonHrefE base h with
    | none => none
    | some c => if c = [] then none else some c)

theorem firstDedup_cons (x : PS) (l seen : List PS) :
    firstDedup (x :: l) seen =
      (if x ∈ seen then firstDedup l seen
       else x :: firstDedup l (x :: seen)) := rfl

theorem firstDedup_nodup (l : List PS) :
    ∀ seen, (firstDedup l seen).Nodup ∧
      ∀ x ∈ firstDedup l seen, x ∉ seen := by
  induction l with
  | nil => intro seen; exact ⟨List.nodup_nil, fun x hx => absurd hx
      (List.not_mem_nil x)⟩
  | cons a t ih =>
    intro seen
    unfold firstDedup
    by_cases ha : a ∈ seen
    · rw [if_pos ha]; exact ih seen
    · rw [if_neg ha]
      obtain ⟨hnd, hout⟩ := ih (a :: seen)
      refine ⟨List.nodup_cons.mpr ⟨?_, hnd⟩, ?_⟩
      · intro hmem
        exact absurd (List.mem_cons_self a seen) (hout a hmem)
      · intro x hx
        rcases List.mem_cons.mp hx with he | ht
        · rw [he]; exact ha
        · intro hxs
          exact hout x ht (List.mem_cons_of_mem a hxs)

theorem collectLinks_eq (base : PS) (hrefs : List PS) :
    ∀ seen, (∀ h ∈ hrefs, h ≠ [] → canonHrefE base h ≠ none) →
      collectLinks base hrefs seen =
        some (firstDedup (canonOutcomes base hrefs) seen) := by
  induction hrefs with
  | nil => intro seen _; rfl
  | cons a t ih =>
    intro seen hall
    have hallt : ∀ h ∈ t, h ≠ [] → canonHrefE base h ≠ none :=
      fun h hm => hall h (List.mem_cons_of_mem a hm)
    unfold collectLinks canonOutcomes
    by_cases hae : a = []
    · rw [if_pos hae, List.filter_cons_of_neg (by simpa using hae)]
      exact ih seen hallt
    · rw [if_neg hae, List.filter_cons_of_pos (by simpa using hae)]
      cases hc : canonHrefE base a with
      | none => exact absurd hc (hall a (List.mem_cons_self a t) hae)
      | some c =>
        rw [List.filterMap_cons]
        simp only [hc]
        by_cases hce : c = []
        · rw [if_pos hce]
          rw [if_neg (by rw [hce]; rintro ⟨h1, h2⟩; exact h1 rfl)]
          exact ih seen hallt
        · rw [if_neg hce]
          by_cases hcs : c ∈ seen
          · rw [if_neg (by rintro ⟨h1, h2⟩; exact h2 hcs)]
            rw [ih seen hallt, firstDedup_cons, if_pos hcs]
            rfl
          · rw [if_pos ⟨hce, hcs⟩, ih (c :: seen) hallt, firstDedup_cons,
              if_neg hcs]
            rfl

theorem collectLinks_none (base : PS) (hrefs : List PS) :
    ∀ seen, (∃ h ∈ hrefs, h ≠ [] ∧ canonHrefE base h = none) →
      collectLinks base hrefs seen = none := by
  induction hrefs with
  | nil =>
    rintro seen ⟨h, hm, _⟩
    cases hm
  | cons a t ih =>
    rintro seen ⟨h, hm, hne, hcn⟩
    unfold collectLinks
    by_cases hae : a = []
    · rw [if_pos hae]
      rcases List.mem_cons.mp hm with he | hmt
      · exact absurd (he.trans hae) hne
      · exact ih seen ⟨h, hmt, hne, hcn⟩
    · rw [if_neg hae]
      rcases List.mem_cons.mp hm with he | hmt
      · rw [← he, hcn]
      · cases hc : canonHrefE base a with
        | none => rfl
        | some c =>
          show (if c ≠ [] ∧ c ∉ seen then
              match collectLinks base t (c :: seen) with
              | none => none
              | some out => some (c :: out)
            else collectLinks base t seen) = none
          by_cases hcc : c ≠ [] ∧ c ∉ seen
          · rw [if_pos hcc, ih (c :: seen) ⟨h, hmt, hne, hcn⟩]
          · rw [if_neg hcc]
            exact ih seen ⟨h, hmt, hne, hcn⟩

/-- C8 (amended): `extract_next_links` returns no links and records
nothing when the response is missing, the status is not 200, the raw
response or its body is missing, the declared content type is known and
not HTML, the body exceeds `MAX_HTML_BYTES`, or the visible text has
fewer than `MIN_TEXT_TOKENS_ALIVE` word tokens.  In every other case it
records the page exactly once, and then: when every non-empty href
canonicalizes without an exception it returns the first-occurrence
deduplication of the canonicalized links in document order (which is
duplicate-free); when some non-empty href makes `urljoin`/`urldefrag`
raise, the exception escapes after the single `record_page` call and no
list is returned. -/
theorem C8_extract_cases (url : PS) :
    extract_next_links url none = (some [], []) ∧
    (∀ r, r.status ≠ 200 →
      extract_next_links url (some r) = (some [], [])) ∧
    (∀ r, r.rawResponse = none →
      extract_next_links url (some r) = (some [], [])) ∧
    (∀ r raw, r.rawResponse = some raw → raw.content = none →
      extract_next_links url (some r) = (some [], [])) ∧
    (∀ r raw page, r.rawResponse = some raw → raw.content = some page →
      ((raw.contentType ≠ [] ∧
          containsSub (S ("html")) (lowerS raw.contentType) = false) ∨
        MAX_HTML_BYTES < page.size ∨
        (wordRuns page.text).length < MIN_TEXT_TOKENS_ALIVE) →
      extract_next_links url (some r) = (some [], [])) ∧
    (∀ r raw page, r.status = 200 → r.rawResponse = some raw →
      raw.content = some page →
      (raw.contentType = [] ∨
        containsSub (S ("html")) (lowerS raw.contentType) = true) →
      page.size ≤ MAX_HTML_BYTES →
      MIN_TEXT_TOKENS_ALIVE ≤ (wordRuns page.text).length →
      (∀ h ∈ page.hrefs, h ≠ [] → canonHrefE (baseOf url r raw) h ≠ none) →
      extract_next_links url (some r) =
        (some (firstDedup (canonOutcomes (baseOf url r raw) page.hrefs)
            []),
          [(recUrlOf url r, page.text)]) ∧
      (firstDedup (canonOutcomes (baseOf url r raw) page.hrefs) []).Nodup) ∧
    (∀ r raw page, r.status = 200 → r.rawResponse = some raw →
      raw.content = some page →
      (raw.contentType = [] ∨
        containsSub (S ("html")) (lowerS raw.contentType) = true) →
      page.size ≤ MAX_HTML_BYTES →
      MIN_TEXT_TOKENS_ALIVE ≤ (wordRuns page.text).length →
      (∃ h ∈ page.hrefs, h ≠ [] ∧ canonHrefE (baseOf url r raw) h = none) →
      extract_next_links url (some r) =
        (none, [(recUrlOf url r, page.text)])) :=
  by
  refine ⟨rfl, ?_, ?_, ?_, ?_, ?_, ?_⟩
  · intro r hs
    simp only [extract_next_links]
    rw [if_pos hs]
  · intro r hraw
    simp only [extract_next_links]
    by_cases hs : r.status ≠ 200
    · rw [if_pos hs]
    · rw [if_neg hs, hraw]
  · intro r raw hraw hcontent
    simp only [extract_next_links]
    by_cases hs : r.status ≠ 200
    · rw [if_pos hs]
    · rw [if_neg hs, hraw]
      show (match raw.content with
        | none => (some [], [])
        | some page =>
          if raw.contentType ≠ [] ∧
              ¬(containsSub (S ("html")) (lowerS raw.contentType) = true)
            then (some [], [])
          else if MAX_HTML_BYTES < page.size then (some [], [])
          else if (wordRuns page.text).length < MIN_TEXT_TOKENS_ALIVE then
            (some [], [])
          else
            match collectLinks (baseOf url r raw) page.hrefs [] with
            | none => (none, [(recUrlOf url r, page.text)])
            | some out => (some out, [(recUrlOf url r, page.text)])) =
        (some [], [])
      rw [hcontent]
  · intro r raw page hraw hcontent hskip
    simp only [extract_next_links]
    by_cases hs : r.status ≠ 200
    · rw [if_pos hs]
    · rw [if_neg hs, hraw]
      show (match raw.content with
        | none => (some [], [])
        | some page =>
          if raw.contentType ≠ [] ∧
              ¬(containsSub (S ("html")) (lowerS raw.contentType) = true)
            then (some [], [])
          else if MAX_HTML_BYTES < page.size then (some [], [])
          else if (wordRuns page.text).length < MIN_TEXT_TOKENS_ALIVE then
            (some [], [])
          else
            match collectLinks (baseOf url r raw) page.hrefs [] with
            | none => (none, [(recUrlOf url r, page.text)])
            | some out => (some out, [(recUrlOf url r, page.text)])) =
        (some [], [])
      rw [hcontent]
      show (if raw.contentType ≠ [] ∧
          ¬(containsSub (S ("html")) (lowerS raw.contentType) = true)
        then (some [], [])
        else if MAX_HTML_BYTES < page.size then
          ((some [] : Option (List PS)), ([] : List (PS × PS)))
        else if (wordRuns page.text).length < MIN_TEXT_TOKENS_ALIVE then
          (some [], [])
        else
          match collectLinks (baseOf url r raw) page.hrefs [] with
          | none => (none, [(recUrlOf url r, page.text)])
          | some out => (some out, [(recUrlOf url r, page.text)])) =
        (some [], [])
      split_ifs with hA hB hC
      · rfl
      · rfl
      · rfl
      · rcases hskip with h | h | h
        · exact absurd ⟨h.1, by rw [h.2]; exact Bool.false_ne_true⟩ hA
        · exact absurd h hB
        · exact absurd h hC
  · intro r raw page h200 hraw hcontent hctype hsize htok hall
    have h1 : ¬ r.status ≠ 200 := fun hc => hc h200
    have h2 : ¬(raw.contentType ≠ [] ∧
        ¬(containsSub (S ("html")) (lowerS raw.contentType) = true)) := by
      rintro ⟨hc1, hc2⟩
      rcases hctype with h | h
      · exact hc1 h
      · exact hc2 h
    have h3 : ¬ MAX_HTML_BYTES < page.size := Nat.not_lt.mpr hsize
    have h4 : ¬ (wordRuns page.text).length < MIN_TEXT_TOKENS_ALIVE :=
      Nat.not_lt.mpr htok
    constructor
    · simp only [extract_next_links]
      rw [if_neg h1, hraw]
      show (match raw.content with
        | none => (some [], [])
        | some page =>
          if raw.contentType ≠ [] ∧
              ¬(containsSub (S ("html")) (lowerS raw.contentType) = true)
            then (some [], [])
          else if MAX_HTML_BYTES < page.size then (some [], [])
          else if (wordRuns page.text).length < MIN_TEXT_TOKENS_ALIVE then
            (some [], [])
          else
            match collectLinks (baseOf url r raw) page.hrefs [] with
            | none => (none, [(recUrlOf url r, page.text)])
            | some out => (some out, [(recUrlOf url r, page.text)])) = _
      rw [hcontent]
      show (if raw.contentType ≠ [] ∧
          ¬(containsSub (S ("html")) (lowerS raw.contentType) = true)
        then (some [], [])
        else if MAX_HTML_BYTES < page.size then
          ((some [] : Option (List PS)), ([] : List (PS × PS)))
        else if (wordRuns page.text).length < MIN_TEXT_TOKENS_ALIVE then
          (some [], [])
        else
          match collectLinks (baseOf url r raw) page.hrefs [] with
          | none => (none, [(recUrlOf url r, page.text)])
          | some out => (some out, [(recUrlOf url r, page.text)])) = _
      rw [if_neg h2, if_neg h3, if_neg h4,
        collectLinks_eq (baseOf url r raw) page.hrefs [] hall]
    · exact (firstDedup_nodup (canonOutcomes (baseOf url r raw) page.hrefs)
        []).1
  · intro r raw page h200 hraw hcontent hctype hsize htok hex
    have h1 : ¬ r.status ≠ 200 := fun hc => hc h200
    have h2 : ¬(raw.contentType ≠ [] ∧
        ¬(containsSub (S ("html")) (lowerS raw.contentType) = true)) := by
      rintro ⟨hc1, hc2⟩
      rcases hctype with h | h
      · exact hc1 h
      · exact hc2 h
    have h3 : ¬ MAX_HTML_BYTES < page.size := Nat.not_lt.mpr hsize
    have h4 : ¬ (wordRuns page.text).length < MIN_TEXT_TOKENS_ALIVE :=
      Nat.not_lt.mpr htok
    simp only [extract_next_links]
    rw [if_neg h1, hraw]
    show (match raw.content with
      | none => (some [], [])
      | some page =>
        if raw.contentType ≠ [] ∧
            ¬(containsSub (S ("html")) (lowerS raw.contentType) = true)
          then (some [], [])
        else if MAX_HTML_BYTES < page.size then (some [], [])
        else if (wordRuns page.text).length < MIN_TEXT_TOKENS_ALIVE then
          (some [], [])
        else
          match collectLinks (baseOf url r raw) page.hrefs [] with
          | none => (none, [(recUrlOf url r, page.text)])
          | some out => (some out, [(recUrlOf url r, page.text)])) = _
    rw [hcontent]
    show (if raw.contentType ≠ [] ∧
        ¬(containsSub (S ("html")) (lowerS raw.contentType) = true)
      then (some [], [])
      else if MAX_HTML_BYTES < page.size then
        ((some [] : Option (List PS)), ([] : List (PS × PS)))
      else if (wordRuns page.text).length < MIN_TEXT_TOKENS_ALIVE then
        (some [], [])
      else
        match collectLinks (baseOf url r raw) page.hrefs [] with
        | none => (none, [(recUrlOf url r, page.text)])
        | some out => (some out, [(recUrlOf url r, page.text)])) = _
    rw [if_neg h2, if_neg h3, if_neg h4,
      collectLinks_none (baseOf url r raw) page.hrefs [] hex]

/-- C8 counterexample: a 200 HTML response whose page is alive (20 word
tokens) but whose single anchor href is `http://[`, on which `urljoin`
raises `ValueError: Invalid IPv6 URL` outside any `try`: the page is
recorded once, yet no link list is returned — the frozen claim's
"in every other case it records the page exactly once and returns the
... list" is false for this input. -/
theorem C8_counterexample :
    canonHrefE (S ("http://www.ics.uci.edu/index.html"))
      (S ("http://[")) = none ∧
    MIN_TEXT_TOKENS_ALIVE ≤ (wordRuns
      (S ("alpha beta gamma delta epsilon zeta eta theta iota kappa la mu nu xi omicron pi rho sigma tau upsilon"))).length ∧
    extract_next_links (S ("http://www.ics.uci.edu/index.html"))
      (some ⟨200, S ("http://www.ics.uci.edu/index.html"),
        some ⟨some (S ("http://www.ics.uci.edu/index.html")),
          some ⟨1000,
            S ("alpha beta gamma delta epsilon zeta eta theta iota kappa la mu nu xi omicron pi rho sigma tau upsilon"),
            [S ("http://[")]⟩,
          S ("text/html")⟩⟩) =
      (none, [(S ("http://www.ics.uci.edu/index.html"),
        S ("alpha beta gamma delta epsilon zeta eta theta iota kappa la mu nu xi omicron pi rho sigma tau upsilon"))])
    := by decide

/-- Witness for C8 on a concrete 200 response with one duplicate link, one
fragment-only variant and one empty cleaned link: the result is the
deduplicated canonical list and one `record_page` call. -/
theorem C8_witness :
    extract_next_links (S ("http://www.ics.uci.edu/index.html"))
      (some ⟨200, S ("http://www.ics.uci.edu/index.html"),
        some ⟨some (S ("http://www.ics.uci.edu/index.html")),
          some ⟨1000,
            S ("alpha beta gamma delta epsilon zeta eta theta iota kappa la mu nu xi omicron pi rho sigma tau upsilon"),
            [S ("a/b"), S ("a/b#frag"), S ("c"), S ("a/b")]⟩,
          S ("text/html")⟩⟩) =
      (some [S ("http://www.ics.uci.edu/a/b"),
          S ("http://www.ics.uci.edu/c")],
        [(S ("http://www.ics.uci.edu/index.html"),
          S ("alpha beta gamma delta epsilon zeta eta theta iota kappa la mu nu xi omicron pi rho sigma tau upsilon"))]) ∧
    [S ("http://www.ics.uci.edu/a/b"), S ("http://www.ics.uci.edu/c")].Nodup
    := by
  have hc := (C8_extract_cases
      (S ("http://www.ics.uci.edu/index.html"))).2.2.2.2.2.1
    ⟨200, S ("http://www.ics.uci.edu/index.html"),
      some ⟨some (S ("http://www.ics.uci.edu/index.html")),
        some ⟨1000,
          S ("alpha beta gamma delta epsilon zeta eta theta iota kappa la mu nu xi omicron pi rho sigma tau upsilon"),
          [S ("a/b"), S ("a/b#frag"), S ("c"), S ("a/b")]⟩,
        S ("text/html")⟩⟩
    ⟨some (S ("http://www.ics.uci.edu/index.html")),
      some ⟨1000,
        S ("alpha beta gamma delta epsilon zeta eta theta iota kappa la mu nu xi omicron pi rho sigma tau upsilon"),
        [S ("a/b"), S ("a/b#frag"), S ("c"), S ("a/b")]⟩,
      S ("text/html")⟩
    ⟨1000,
      S ("alpha beta gamma delta epsilon zeta eta theta iota kappa la mu nu xi omicron pi rho sigma tau upsilon"),
      [S ("a/b"), S ("a/b#frag"), S ("c"), S ("a/b")]⟩
    rfl rfl rfl (Or.inr (by decide)) (by decide) (by decide) (by decide)
  exact ⟨hc.1.trans (by decide), by decide⟩

theorem flushBuf_ne_nil (b : Nat) (bs : List Nat) :
    flushBuf (b :: bs) ≠ [] := by
  simp [flushBuf, utf8DecodeBytes, utf8DecodeLoop]

theorem unquoteLoop_ne_nil :
    ∀ fuel (s : PS) (buf : List Nat), s.length ≤ fuel →
      s ≠ [] ∨ buf ≠ [] → unquoteLoop fuel s buf ≠ [] := by
  intro fuel
  induction fuel with
  | zero =>
    intro s buf hlen hne
    have hs : s = [] := List.eq_nil_of_length_eq_zero (Nat.le_zero.mp hlen)
    rcases hne with h | h
    · exact absurd hs h
    · show flushBuf buf ≠ []
      cases buf with
      | nil => exact absurd rfl h
      | cons b bs => exact flushBuf_ne_nil b bs
  | succ fuel ih =>
    intro s buf hlen hne
    cases s with
    | nil =>
      rcases hne with h | h
      · exact absurd rfl h
      · show flushBuf buf ≠ []
        cases buf with
        | nil => exact absurd rfl h
        | cons b bs => exact flushBuf_ne_nil b bs
    | cons c rest =>
      show (if c.toNat = 37 then
          match hexPair rest with
          | some b => unquoteLoop fuel (rest.drop 2) (buf ++ [b])
          | none => unquoteLoop fuel rest (buf ++ [37])
        else if c.toNat < 0x80 then unquoteLoop fuel rest (buf ++ [c.toNat])
        else flushBuf buf ++ c :: unquoteLoop fuel rest []) ≠ []
      have hr : rest.length ≤ fuel := by
        simp only [List.length_cons] at hlen; omega
      by_cases h37 : c.toNat = 37
      · rw [if_pos h37]
        cases hh : hexPair rest with
        | some b =>
          show unquoteLoop fuel (rest.drop 2) (buf ++ [b]) ≠ []
          refine ih _ _ ?_ (Or.inr (by simp))
          rw [List.length_drop]; omega
        | none =>
          show unquoteLoop fuel rest (buf ++ [37]) ≠ []
          exact ih rest (buf ++ [37]) hr (Or.inr (by simp))
      · rw [if_neg h37]
        by_cases hA : c.toNat < 0x80
        · rw [if_pos hA]
          exact ih rest (buf ++ [c.toNat]) hr (Or.inr (by simp))
        · rw [if_neg hA]
          simp

theorem pyUnquote_ne_nil {s : PS} (h : s ≠ []) : pyUnquote s ≠ [] :=
  unquoteLoop_ne_nil s.length s [] (Nat.le_refl _) (Or.inl h)

/-- `keep_blank_values=False` drops exactly the blank-valued pairs that
`keep_blank_values=True` keeps. -/
theorem parse_qsl_false_eq_filter (qs : PS) :
    parse_qsl qs false =
      (parse_qsl qs true).filter (fun kv => decide (kv.2 ≠ [])) := by
  unfold parse_qsl
  have hmain : ∀ l : List PS,
      (l.flatMap (fun chunk =>
        if chunk = [] then []
        else
          match splitFirst '=' chunk with
          | some (n, v) =>
            if v.length > 0 ∨ false = true then
              [(pyUnquote (n.map plusToSpace), pyUnquote (v.map plusToSpace))]
            else []
          | none =>
            if false = true then [(pyUnquote (chunk.map plusToSpace), [])]
            else [])) =
      (l.flatMap (fun chunk =>
        if chunk = [] then []
        else
          match splitFirst '=' chunk with
          | some (n, v) =>
            if v.length > 0 ∨ true = true then
              [(pyUnquote (n.map plusToSpace), pyUnquote (v.map plusToSpace))]
            else []
          | none =>
            if true = true then [(pyUnquote (chunk.map plusToSpace), [])]
            else [])).filter (fun kv => decide (kv.2 ≠ [])) := by
    intro l
    induction l with
    | nil => rfl
    | cons a t iht =>
      rw [List.flatMap_cons, List.flatMap_cons, List.filter_append, iht]
      congr 1
      by_cases ha : a = []
      · rw [if_pos ha, if_pos ha]; rfl
      · rw [if_neg ha, if_neg ha]
        cases hsp : splitFirst '=' a with
        | some nv =>
          obtain ⟨n, v⟩ := nv
          show (if v.length > 0 ∨ false = true then
              [(pyUnquote (n.map plusToSpace), pyUnquote (v.map plusToSpace))]
            else []) =
            (if v.length > 0 ∨ true = true then
              [(pyUnquote (n.map plusToSpace), pyUnquote (v.map plusToSpace))]
            else []).filter (fun kv => decide (kv.2 ≠ []))
          by_cases hv : v.length > 0
          · rw [if_pos (Or.inl hv), if_pos (Or.inl hv)]
            have hvne : v ≠ [] := by
              intro he; rw [he] at hv; exact absurd hv (by decide)
            have hmne : v.map plusToSpace ≠ [] := by
              intro he; exact hvne (List.map_eq_nil_iff.mp he)
            have hkv : decide (pyUnquote (v.map plusToSpace) ≠ []) =
                true := decide_eq_true (pyUnquote_ne_nil hmne)
            simp only [List.filter_cons, hkv, if_true, List.filter_nil]
          · have hv0 : v = [] :=
              List.eq_nil_of_length_eq_zero (by omega)
            rw [if_neg (by rintro (hc | hc); exact hv hc; cases hc),
              if_pos (Or.inr rfl), hv0]
            show ([] : List (PS × PS)) =
              List.filter (fun kv => decide (kv.2 ≠ []))
                [(pyUnquote (n.map plusToSpace), pyUnquote [])]
            have hz : pyUnquote ([] : PS) = [] := rfl
            rw [hz]
            simp
        | none =>
          show (if false = true then
              [(pyUnquote (a.map plusToSpace), ([] : PS))] else []) =
            (if true = true then
              [(pyUnquote (a.map plusToSpace), ([] : PS))]
            else []).filter (fun kv => decide (kv.2 ≠ []))
          rw [if_neg (by decide), if_pos rfl]
          simp
  exact hmain (splitAll '&' qs)

/-- C2 counterexample: the query of `http://a.com/?x=&y=1` contains the
pair `x=` whose key is not blacklisted, yet `_canonicalize` drops it
(because `parse_qsl` is called with `keep_blank_values=False`). -/
theorem C2_counterexample :
    (S ("x"), ([] : PS)) ∈ parse_qsl (S ("x=&y=1")) true ∧
    lowerS (S ("x")) ∉ QUERY_PARAM_BLACKLIST ∧
    _canonicalize (S ("http://a.com/?x=&y=1")) = S ("http://a.com/?y=1") :=
  by decide

/-- C2 (amended): on every URL that parses with an http(s) scheme,
`_canonicalize` re-encodes, in their original relative order, exactly the
query pairs whose value is non-empty and whose lowercased key is outside
`QUERY_PARAM_BLACKLIST` (blank-valued pairs are dropped even when their
key is not blacklisted). -/
theorem C2_canonical_query (u : PS) (p : UParse)
    (hp : urlparseE u [] = some p)
    (hs : ¬(p.scheme ≠ S ("http") ∧ p.scheme ≠ S ("https"))) :
    _canonicalize u =
      urlunparse p.scheme (pyStrip (lowerS p.netloc))
        (collapseSlashes (if p.path = [] then ['/'] else p.path)) []
        (pyUrlencode ((parse_qsl p.query true).filter
          (fun kv => decide (lowerS kv.1 ∉ QUERY_PARAM_BLACKLIST) &&
            decide (kv.2 ≠ [])))) [] := by
  unfold _canonicalize
  rw [hp]
  show (if p.scheme ≠ S ("http") ∧ p.scheme ≠ S ("https") then []
    else
      let cp := canonPartsOf p
      urlunparse cp.scheme cp.netloc cp.path [] cp.query []) = _
  rw [if_neg hs]
  show urlunparse (canonPartsOf p).scheme (canonPartsOf p).netloc
    (canonPartsOf p).path [] (canonPartsOf p).query [] = _
  have hq : (canonPartsOf p).query =
      pyUrlencode ((parse_qsl p.query true).filter
        (fun kv => decide (lowerS kv.1 ∉ QUERY_PARAM_BLACKLIST) &&
          decide (kv.2 ≠ []))) := by
    show pyUrlencode ((parse_qsl p.query false).filter
      (fun kv => decide (lowerS kv.1 ∉ QUERY_PARAM_BLACKLIST))) = _
    rw [parse_qsl_false_eq_filter, List.filter_filter]
  rw [hq]
  rfl

/-- Witness for C2 (amended) on a URL with a blank-valued pair, a kept
pair and a blacklisted pair. -/
theorem C2_witness :
    _canonicalize (S ("http://a.com/?x=&y=1&utm_source=z")) =
      urlunparse (S ("http")) (pyStrip (lowerS (S ("a.com"))))
        (collapseSlashes (if (S ("/")) = [] then ['/'] else S ("/")))
        []
        (pyUrlencode ((parse_qsl (S ("x=&y=1&utm_source=z")) true).filter
          (fun kv => decide (lowerS kv.1 ∉ QUERY_PARAM_BLACKLIST) &&
            decide (kv.2 ≠ [])))) [] :=
  C2_canonical_query _
    ⟨S ("http"), S ("a.com"), S ("/"), [], S ("x=&y=1&utm_source=z"), []⟩
    (by decide) (by decide)

/-- `canonPartsOf` depends only on the scheme, netloc, path and kept query
pairs. -/
theorem canonPartsOf_congr (p1 p2 : UParse)
    (hs : p1.scheme = p2.scheme) (hn : p1.netloc = p2.netloc)
    (hpth : p1.path = p2.path)
    (hq : (parse_qsl p1.query false).filter
        (fun kv => decide (lowerS kv.1 ∉ QUERY_PARAM_BLACKLIST)) =
      (parse_qsl p2.query false).filter
        (fun kv => decide (lowerS kv.1 ∉ QUERY_PARAM_BLACKLIST))) :
    canonPartsOf p1 = canonPartsOf p2 := by
  simp only [canonPartsOf]
  rw [hs, hn, hpth, hq]

theorem _canonicalize_congr (u1 u2 : PS) (p1 p2 : UParse)
    (hp1 : urlparseE u1 [] = some p1) (hp2 : urlparseE u2 [] = some p2)
    (hs : p1.scheme = p2.scheme)
    (hcp : canonPartsOf p1 = canonPartsOf p2) :
    _canonicalize u1 = _canonicalize u2 := by
  unfold _canonicalize
  rw [hp1, hp2]
  show (if p1.scheme ≠ S ("http") ∧ p1.scheme ≠ S ("https") then []
    else
      let cp := canonPartsOf p1
      urlunparse cp.scheme cp.netloc cp.path [] cp.query []) =
    (if p2.scheme ≠ S ("http") ∧ p2.scheme ≠ S ("https") then []
    else
      let cp := canonPartsOf p2
      urlunparse cp.scheme cp.netloc cp.path [] cp.query [])
  rw [hs, hcp]

/-- C4: `_canonicalize` is unchanged by the fragment (two URLs parsing to
the same scheme, netloc, path and query canonicalize identically, whatever
their fragments), and by the presence of one query pair with a
blacklisted key. -/
theorem C4_fragment_blacklist_invariance :
    (∀ u1 u2 p1 p2, urlparseE u1 [] = some p1 →
      urlparseE u2 [] = some p2 →
      p1.scheme = p2.scheme → p1.netloc = p2.netloc → p1.path = p2.path →
      p1.query = p2.query → _canonicalize u1 = _canonicalize u2) ∧
    (∀ u1 u2 p1 p2 pre post k v, urlparseE u1 [] = some p1 →
      urlparseE u2 [] = some p2 →
      p1.scheme = p2.scheme → p1.netloc = p2.netloc → p1.path = p2.path →
      parse_qsl p1.query false = pre ++ post →
      parse_qsl p2.query false = pre ++ (k, v) :: post →
      lowerS k ∈ QUERY_PARAM_BLACKLIST →
      _canonicalize u1 = _canonicalize u2) := by
  constructor
  · intro u1 u2 p1 p2 hp1 hp2 hs hn hpth hq
    exact _canonicalize_congr u1 u2 p1 p2 hp1 hp2 hs
      (canonPartsOf_congr p1 p2 hs hn hpth (by rw [hq]))
  · intro u1 u2 p1 p2 pre post k v hp1 hp2 hs hn hpth hq1 hq2 hk
    refine _canonicalize_congr u1 u2 p1 p2 hp1 hp2 hs
      (canonPartsOf_congr p1 p2 hs hn hpth ?_)
    rw [hq1, hq2, List.filter_append, List.filter_append,
      List.filter_cons_of_neg]
    intro hc
    exact (of_decide_eq_true hc) hk

/-- Witness for C4: a fragment pair and a blacklisted-parameter pair of
concrete URLs canonicalize identically. -/
theorem C4_witness :
    _canonicalize (S ("http://a.com/p?q=1#x")) =
      _canonicalize (S ("http://a.com/p?q=1#y")) ∧
    _canonicalize (S ("http://a.com/p?a=1")) =
      _canonicalize (S ("http://a.com/p?utm_source=t&a=1")) := by
  constructor
  · exact C4_fragment_blacklist_invariance.1 _ _
      ⟨S ("http"), S ("a.com"), S ("/p"), [], S ("q=1"), S ("x")⟩
      ⟨S ("http"), S ("a.com"), S ("/p"), [], S ("q=1"), S ("y")⟩
      (by decide) (by decide) (by decide) (by decide) (by decide)
      (by decide)
  · exact C4_fragment_blacklist_invariance.2 _ _
      ⟨S ("http"), S ("a.com"), S ("/p"), [], S ("a=1"), []⟩
      ⟨S ("http"), S ("a.com"), S ("/p"), [],
        S ("utm_source=t&a=1"), []⟩
      [] [(S ("a"), S ("1"))] (S ("utm_source")) (S ("t"))
      (by decide) (by decide) (by decide) (by decide) (by decide)
      (by decide) (by decide) (by decide)

/-! Support for the idempotence of `_canonicalize` (C3): reparse of the
rebuilt URL, slash-collapse fixpoints, parameter-split invariants and the
`urlencode`/`parse_qsl` round trip. -/

theorem takeWhile_append_all {p : Char → Bool} {l1 l2 : PS}
    (h : ∀ c ∈ l1, p c = true) :
    (l1 ++ l2).takeWhile p = l1 ++ l2.takeWhile p := by
  induction l1 with
  | nil => simp
  | cons a t ih => simp_all [List.takeWhile_cons]

theorem dropWhile_append_all {p : Char → Bool} {l1 l2 : PS}
    (h : ∀ c ∈ l1, p c = true) :
    (l1 ++ l2).dropWhile p = l2.dropWhile p := by
  induction l1 with
  | nil => simp
  | cons a t ih => simp_all [List.dropWhile_cons]

/-- Evaluation of `urlsplitE` given the outcome of each of its stages. -/
theorem urlsplitE_eq_of {url sch rest0 : PS}
    (h0 : url.dropWhile isC0OrSpace = url)
    (h1 : removeUnsafeUrlChars url = url)
    (h2 : splitFirst ':' url = some (sch, rest0))
    (h3 : sch ≠ [] ∧ isAsciiAlpha (sch.headD ' ') = true ∧
      sch.all isSchemeChar = true)
    (h4 : lowerS sch = sch)
    {nl rest2 : PS}
    (h5 : rest0.take 2 = ['/', '/'])
    (h6 : (rest0.drop 2).takeWhile (fun c => !isNetlocDelim c) = nl)
    (h7 : (rest0.drop 2).dropWhile (fun c => !isNetlocDelim c) = rest2)
    (h8 : ¬(('[' ∈ nl ∧ ']' ∉ nl) ∨ (']' ∈ nl ∧ '[' ∉ nl)))
    (h9 : splitFirst '#' rest2 = none)
    {pth q : PS}
    (h10 : splitFirst '?' rest2 = some (pth, q) ∨
      (splitFirst '?' rest2 = none ∧ pth = rest2 ∧ q = [])) :
    urlsplitE url [] = some ⟨sch, nl, pth, q, []⟩ := by
  have hsr : usSR url [] = (sch, rest0) := by
    unfold usSR usUrl1 usDefS splitScheme
    rw [h0, h1, h2]
    show (if sch ≠ [] ∧ isAsciiAlpha (sch.headD ' ') ∧
        sch.all isSchemeChar then (lowerS sch, rest0)
      else (usDefS [], url)) = (sch, rest0)
    rw [if_pos h3, h4]
  have hnr : usNR url [] = (nl, rest2) := by
    unfold usNR
    rw [hsr]
    show splitNetlocPart rest0 = (nl, rest2)
    unfold splitNetlocPart
    rw [if_pos h5, h6, h7]
  have hrf : usRF url [] = (rest2, []) := by
    unfold usRF
    rw [hnr]
    show splitFrag rest2 = (rest2, [])
    unfold splitFrag
    rw [h9]
  have hpq : usPQ url [] = (pth, q) := by
    unfold usPQ
    rw [hrf]
    show splitQueryPart rest2 = (pth, q)
    unfold splitQueryPart
    rcases h10 with hq | ⟨hq, hpe, hqe⟩
    · rw [hq]
    · rw [hq, hpe, hqe]
  unfold urlsplitE
  rw [hsr, hnr, hrf, hpq]
  rw [if_neg h8]
theorem splitFirst_none_not_mem {c : Char} {s : PS}
    (h : splitFirst c s = none) : c ∉ s := by
  induction s with
  | nil => simp
  | cons a t ih =>
    simp only [splitFirst] at h
    by_cases hac : a = c
    · rw [if_pos hac] at h; cases h
    · rw [if_neg hac] at h
      intro hm
      rcases List.mem_cons.mp hm with he | ht
      · exact hac he.symm
      · cases hsp : splitFirst c t with
        | none => exact ih hsp ht
        | some pr => rw [hsp] at h; cases h

theorem splitFirst_some_of_mem {c : Char} {s : PS} (h : c ∈ s) :
    ∃ pre post, splitFirst c s = some (pre, post) := by
  cases hsp : splitFirst c s with
  | none => exact absurd h (splitFirst_none_not_mem hsp)
  | some pr =>
    obtain ⟨pre, post⟩ := pr
    exact ⟨pre, post, rfl⟩

/-- A character of `usUrl1` output is not tab, CR or LF. -/
theorem usUrl1_ok {url : PS} {c : Char} (h : c ∈ usUrl1 url) :
    ¬(c.toNat = 9 ∨ c.toNat = 13 ∨ c.toNat = 10) := by
  unfold usUrl1 removeUnsafeUrlChars at h
  have hp := (List.mem_filter.mp h).2
  simp only [Bool.not_eq_true', Bool.or_eq_false_iff,
    decide_eq_false_iff_not] at hp
  tauto

theorem usSR_snd_sub {url d : PS} {c : Char} (h : c ∈ (usSR url d).2) :
    c ∈ usUrl1 url := by
  unfold usSR splitScheme at h
  cases hsp : splitFirst ':' (usUrl1 url) with
  | none => rw [hsp] at h; exact h
  | some pr =>
    obtain ⟨pre, post⟩ := pr
    rw [hsp] at h
    replace h : c ∈ (if pre ≠ [] ∧ isAsciiAlpha (pre.headD ' ') = true ∧
        pre.all isSchemeChar = true then (lowerS pre, post)
      else (usDefS d, usUrl1 url)).2 := h
    obtain ⟨hdec, hnm⟩ := splitFirst_eq_some hsp
    by_cases hc : pre ≠ [] ∧ isAsciiAlpha (pre.headD ' ') = true ∧
        pre.all isSchemeChar = true
    · rw [if_pos hc] at h
      rw [hdec]
      exact List.mem_append_right _ (List.mem_cons_of_mem _ h)
    · rw [if_neg hc] at h
      exact h

theorem usNR_fst {url d : PS} {c : Char} (h : c ∈ (usNR url d).1) :
    isNetlocDelim c = false ∧ c ∈ usUrl1 url := by
  unfold usNR splitNetlocPart at h
  by_cases h2 : (usSR url d).2.take 2 = ['/', '/']
  · rw [if_pos h2] at h
    refine ⟨by simpa using List.mem_takeWhile_imp h, ?_⟩
    exact usSR_snd_sub (List.drop_subset 2 _
      ((List.takeWhile_sublist _).mem h))
  · rw [if_neg h2] at h
    cases h

theorem usNR_snd_sub {url d : PS} {c : Char} (h : c ∈ (usNR url d).2) :
    c ∈ usUrl1 url := by
  unfold usNR splitNetlocPart at h
  by_cases h2 : (usSR url d).2.take 2 = ['/', '/']
  · rw [if_pos h2] at h
    exact usSR_snd_sub (List.drop_subset 2 _
      ((List.dropWhile_sublist _).mem h))
  · rw [if_neg h2] at h
    exact usSR_snd_sub h

theorem usRF_fst {url d : PS} {c : Char} (h : c ∈ (usRF url d).1) :
    c ≠ '#' ∧ c ∈ (usNR url d).2 := by
  unfold usRF splitFrag at h
  cases hsp : splitFirst '#' (usNR url d).2 with
  | none =>
    rw [hsp] at h
    exact ⟨fun he => splitFirst_none_not_mem hsp (he ▸ h), h⟩
  | some pr =>
    obtain ⟨pre, post⟩ := pr
    rw [hsp] at h
    obtain ⟨hdec, hnm⟩ := splitFirst_eq_some hsp
    exact ⟨fun he => hnm (he ▸ h), hdec ▸ List.mem_append_left _ h⟩

theorem usPQ_fst {url d : PS} {c : Char} (h : c ∈ (usPQ url d).1) :
    c ≠ '?' ∧ c ∈ (usRF url d).1 := by
  unfold usPQ splitQueryPart at h
  cases hsp : splitFirst '?' (usRF url d).1 with
  | none =>
    rw [hsp] at h
    exact ⟨fun he => splitFirst_none_not_mem hsp (he ▸ h), h⟩
  | some pr =>
    obtain ⟨pre, post⟩ := pr
    rw [hsp] at h
    obtain ⟨hdec, hnm⟩ := splitFirst_eq_some hsp
    exact ⟨fun he => hnm (he ▸ h), hdec ▸ List.mem_append_left _ h⟩

theorem usPQ_snd_sub {url d : PS} {c : Char} (h : c ∈ (usPQ url d).2) :
    c ∈ (usRF url d).1 := by
  unfold usPQ splitQueryPart at h
  cases hsp : splitFirst '?' (usRF url d).1 with
  | none => rw [hsp] at h; cases h
  | some pr =>
    obtain ⟨pre, post⟩ := pr
    rw [hsp] at h
    obtain ⟨hdec, hnm⟩ := splitFirst_eq_some hsp
    exact hdec ▸ List.mem_append_right _ (List.mem_cons_of_mem _ h)

/-- Character classes of the components of a successful `urlsplit`: no
tab/CR/LF anywhere; no `/?#` in the netloc; no `#?` in the path; no `#`
in the query. -/
theorem urlsplitE_chars {url d : PS} {sp : USplit}
    (h : urlsplitE url d = some sp) :
    (∀ c ∈ sp.netloc, isNetlocDelim c = false ∧
      ¬(c.toNat = 9 ∨ c.toNat = 13 ∨ c.toNat = 10)) ∧
    (∀ c ∈ sp.path, c ≠ '#' ∧ c ≠ '?' ∧
      ¬(c.toNat = 9 ∨ c.toNat = 13 ∨ c.toNat = 10)) ∧
    (∀ c ∈ sp.query, c ≠ '#' ∧
      ¬(c.toNat = 9 ∨ c.toNat = 13 ∨ c.toNat = 10)) := by
  unfold urlsplitE at h
  split at h
  · cases h
  · have hsp := Option.some.inj h
    subst hsp
    refine ⟨?_, ?_, ?_⟩
    · intro c hc
      obtain ⟨hd, hm⟩ := usNR_fst hc
      exact ⟨hd, usUrl1_ok hm⟩
    · intro c hc
      obtain ⟨hq, hrf⟩ := usPQ_fst hc
      obtain ⟨hh, hnr⟩ := usRF_fst hrf
      exact ⟨hh, hq, usUrl1_ok (usNR_snd_sub hnr)⟩
    · intro c hc
      obtain ⟨hh, hnr⟩ := usRF_fst (usPQ_snd_sub hc)
      exact ⟨hh, usUrl1_ok (usNR_snd_sub hnr)⟩

theorem mem_afterLastChar_sub {c c2 : Char} {s : PS}
    (h : c2 ∈ afterLastChar c s) : c2 ∈ s := by
  unfold afterLastChar at h
  have := (List.takeWhile_sublist _).mem (List.mem_reverse.mp h)
  exact List.mem_reverse.mp this

theorem afterLastChar_decomp {c : Char} {s : PS} (h : c ∈ s) :
    (∃ pre, s = pre ++ c :: afterLastChar c s) ∧
      c ∉ afterLastChar c s := by
  constructor
  · have hsplit : s.reverse.takeWhile (fun a => a ≠ c) ++
        s.reverse.dropWhile (fun a => a ≠ c) = s.reverse :=
      List.takeWhile_append_dropWhile _ _
    cases hd : s.reverse.dropWhile (fun a => a ≠ c) with
    | nil =>
      exfalso
      rw [hd, List.append_nil] at hsplit
      have hall : ∀ a ∈ s.reverse, a ≠ c := by
        intro a ha
        rw [← hsplit] at ha
        simpa using List.mem_takeWhile_imp ha
      exact hall c (List.mem_reverse.mpr h) rfl
    | cons d t =>
      have hdc : d = c := by
        have hh := List.head?_dropWhile_not (fun a => decide (a ≠ c))
          s.reverse
        rw [show List.dropWhile (fun a => decide (a ≠ c)) s.reverse =
          s.reverse.dropWhile (fun a => a ≠ c) from rfl, hd] at hh
        simpa using hh
      refine ⟨t.reverse, ?_⟩
      have hs2 : s.reverse =
          s.reverse.takeWhile (fun a => a ≠ c) ++ c :: t := by
        calc s.reverse = s.reverse.takeWhile (fun a => a ≠ c) ++
            s.reverse.dropWhile (fun a => a ≠ c) := hsplit.symm
          _ = s.reverse.takeWhile (fun a => a ≠ c) ++ c :: t := by
            rw [hd, hdc]
      show s = t.reverse ++ c ::
        (s.reverse.takeWhile (fun a => a ≠ c)).reverse
      have hx : (t.reverse ++ c ::
          (s.reverse.takeWhile (fun a => a ≠ c)).reverse).reverse =
          s.reverse := by
        rw [List.reverse_append, List.reverse_cons, List.reverse_reverse,
          List.reverse_reverse]
        nth_rewrite 2 [hs2]
        simp
      have hy := congrArg List.reverse hx
      rw [List.reverse_reverse, List.reverse_reverse] at hy
      exact hy.symm
  · intro hm
    unfold afterLastChar at hm
    have := List.mem_takeWhile_imp (List.mem_reverse.mp hm)
    simp at this

/-- Every `;` in `s` is followed, somewhere later, by a `/` (so
`_splitparams` finds no parameter part). -/
def NoOrphanSemi (s : PS) : Prop :=
  ∀ x y, s = x ++ ';' :: y → '/' ∈ y

theorem noOrphan_of_not_mem {s : PS} (h : ';' ∉ s) : NoOrphanSemi s := by
  intro x y hd
  exact absurd (hd ▸ List.mem_append_right x (List.mem_cons_self _ _)) h

theorem noOrphan_tail {c : Char} {s : PS} (h : NoOrphanSemi (c :: s)) :
    NoOrphanSemi s := by
  intro x y hd
  exact h (c :: x) y (by rw [hd]; rfl)

theorem noOrphan_cons {c : Char} {s : PS} (hc : c ≠ ';')
    (h : NoOrphanSemi s) : NoOrphanSemi (c :: s) := by
  intro x y hd
  cases x with
  | nil =>
    simp only [List.nil_append, List.cons.injEq] at hd
    exact absurd hd.1 hc
  | cons a x2 =>
    simp only [List.cons_append, List.cons.injEq] at hd
    exact h x2 y hd.2

theorem noOrphan_append_slash {pre t : PS} (h : ';' ∉ t) :
    NoOrphanSemi (pre ++ '/' :: t) := by
  intro x y hd
  rcases List.append_eq_append_iff.mp hd.symm with ⟨a, ha1, ha2⟩ |
    ⟨a, ha1, ha2⟩
  · cases a with
    | nil =>
      simp only [List.nil_append, List.cons.injEq] at ha2
      exact absurd ha2.1 (by decide)
    | cons b a2 =>
      simp only [List.cons_append, List.cons.injEq] at ha2
      obtain ⟨hb, hy⟩ := ha2
      rw [hy]
      exact List.mem_append_right a2 (List.mem_cons_self _ _)
  · cases a with
    | nil =>
      simp only [List.nil_append, List.cons.injEq] at ha2
      exact absurd ha2.1 (by decide)
    | cons b a2 =>
      simp only [List.cons_append, List.cons.injEq] at ha2
      obtain ⟨hb, ht⟩ := ha2
      exfalso
      apply h
      rw [ht]
      exact List.mem_append_right a2 (List.mem_cons_self _ _)

theorem splitparams_of_noOrphan {s : PS} (h : NoOrphanSemi s) :
    splitparams s = (s, []) := by
  by_cases hm : ';' ∈ s
  · obtain ⟨x, y, hd⟩ := List.append_of_mem hm
    have hsl : '/' ∈ s := by
      rw [hd]
      exact List.mem_append_right x (List.mem_cons_of_mem _ (h x y hd))
    have hno : ';' ∉ afterLastChar '/' s := by
      intro hsemi
      obtain ⟨⟨pre, hdec⟩, hnoslash⟩ := afterLastChar_decomp hsl
      obtain ⟨a, b, hab⟩ := List.append_of_mem hsemi
      have hdd : s = (pre ++ '/' :: a) ++ ';' :: b := by
        rw [hdec, hab]; simp
      have hy := h _ _ hdd
      apply hnoslash
      rw [hab]
      exact List.mem_append_right a (List.mem_cons_of_mem _ hy)
    unfold splitparams
    rw [if_pos hsl]
    show (match splitFirst ';' (afterLastChar '/' s) with
      | none => (s, [])
      | some (a1, a2) =>
        (s.take (s.length - (afterLastChar '/' s).length) ++ a1, a2)) =
      (s, [])
    rw [splitFirst_eq_none hno]
  · unfold splitparams
    by_cases hsl : '/' ∈ s
    · rw [if_pos hsl]
      show (match splitFirst ';' (afterLastChar '/' s) with
        | none => (s, [])
        | some (a1, a2) =>
          (s.take (s.length - (afterLastChar '/' s).length) ++ a1, a2)) =
        (s, [])
      rw [splitFirst_eq_none (fun hc => hm (mem_afterLastChar_sub hc))]
    · rw [if_neg hsl, splitFirst_eq_none hm]

theorem slash_mem_collapseAux {prev : Char} {s : PS} (hp : prev ≠ '/')
    (h : '/' ∈ s) : '/' ∈ collapseAux prev s := by
  induction s generalizing prev with
  | nil => cases h
  | cons c t ih =>
    unfold collapseAux
    by_cases hc : c = '/'
    · rw [if_neg (fun hx => hp hx.1)]
      exact hc ▸ List.mem_cons_self _ _
    · rw [if_neg (fun hx => hc hx.2)]
      rcases List.mem_cons.mp h with he | ht
      · exact absurd he.symm hc
      · exact List.mem_cons_of_mem _ (ih hc ht)

theorem noOrphan_collapseAux :
    ∀ (prev : Char) (s : PS), NoOrphanSemi s →
      ∀ x y, collapseAux prev s = x ++ ';' :: y → '/' ∈ y := by
  intro prev s
  induction s generalizing prev with
  | nil =>
    intro _ x y hd
    simp only [collapseAux] at hd
    cases x <;> cases hd
  | cons c t ih =>
    intro h x y hd
    unfold collapseAux at hd
    by_cases hcc : prev = '/' ∧ c = '/'
    · rw [if_pos hcc] at hd
      exact ih c (noOrphan_tail h) x y hd
    · rw [if_neg hcc] at hd
      cases x with
      | nil =>
        simp only [List.nil_append, List.cons.injEq] at hd
        obtain ⟨hc, hy⟩ := hd
        have hslash : '/' ∈ t := h [] t (by rw [hc]; rfl)
        rw [← hy]
        exact slash_mem_collapseAux (by rw [hc]; decide) hslash
      | cons a x2 =>
        simp only [List.cons_append, List.cons.injEq] at hd
        exact ih c (noOrphan_tail h) x2 y hd.2

theorem noOrphan_collapse {s : PS} (h : NoOrphanSemi s) :
    NoOrphanSemi (collapseSlashes s) := by
  cases s with
  | nil => intro x y hd; cases x <;> cases hd
  | cons a t =>
    intro x y hd
    simp only [collapseSlashes] at hd
    cases x with
    | nil =>
      simp only [List.nil_append, List.cons.injEq] at hd
      obtain ⟨hc, hy⟩ := hd
      have hslash : '/' ∈ t := h [] t (by rw [hc]; rfl)
      rw [← hy]
      exact slash_mem_collapseAux (by rw [hc]; decide) hslash
    | cons b x2 =>
      simp only [List.cons_append, List.cons.injEq] at hd
      exact noOrphan_collapseAux a t (noOrphan_tail h) x2 y hd.2

/-- Inversion of `urlparseE`. -/
theorem urlparseE_inv {url d : PS} {p : UParse}
    (h : urlparseE url d = some p) :
    ∃ sp : USplit, urlsplitE url d = some sp ∧ p.scheme = sp.scheme ∧
      p.netloc = sp.netloc ∧ p.query = sp.query ∧
      p.fragment = sp.fragment ∧
      ((sp.scheme ∈ usesParams ∧ ';' ∈ sp.path ∧
          p.path = (splitparams sp.path).1 ∧
          p.params = (splitparams sp.path).2) ∨
        (¬(sp.scheme ∈ usesParams ∧ ';' ∈ sp.path) ∧ p.path = sp.path ∧
          p.params = [])) := by
  unfold urlparseE at h
  cases hsp : urlsplitE url d with
  | none => rw [hsp] at h; cases h
  | some sp =>
    rw [hsp] at h
    replace h : (if sp.scheme ∈ usesParams ∧ ';' ∈ sp.path then
        some (⟨sp.scheme, sp.netloc, (splitparams sp.path).1,
          (splitparams sp.path).2, sp.query, sp.fragment⟩ : UParse)
      else some ⟨sp.scheme, sp.netloc, sp.path, [], sp.query,
        sp.fragment⟩) = some p := h
    by_cases hc : sp.scheme ∈ usesParams ∧ ';' ∈ sp.path
    · rw [if_pos hc] at h
      have hp := (Option.some.inj h).symm
      subst hp
      exact ⟨sp, rfl, rfl, rfl, rfl, rfl, Or.inl ⟨hc.1, hc.2, rfl, rfl⟩⟩
    · rw [if_neg hc] at h
      have hp := (Option.some.inj h).symm
      subst hp
      exact ⟨sp, rfl, rfl, rfl, rfl, rfl, Or.inr ⟨hc, rfl, rfl⟩⟩

theorem mem_splitparams_fst {s : PS} {c : Char}
    (h : c ∈ (splitparams s).1) : c ∈ s := by
  unfold splitparams at h
  by_cases hsl : '/' ∈ s
  · rw [if_pos hsl] at h
    replace h : c ∈ (match splitFirst ';' (afterLastChar '/' s) with
      | none => (s, [])
      | some (a1, a2) =>
        (s.take (s.length - (afterLastChar '/' s).length) ++ a1,
          a2)).1 := h
    cases hsp : splitFirst ';' (afterLastChar '/' s) with
    | none =>
      rw [hsp] at h
      exact h
    | some pr =>
      obtain ⟨a1, a2⟩ := pr
      rw [hsp] at h
      replace h : c ∈ s.take (s.length - (afterLastChar '/' s).length) ++
        a1 := h
      rcases List.mem_append.mp h with ht | ha
      · exact List.take_subset _ _ ht
      · have hdec := (splitFirst_eq_some hsp).1
        exact mem_afterLastChar_sub
          (hdec ▸ List.mem_append_left _ ha)
  · rw [if_neg hsl] at h
    cases hsp : splitFirst ';' s with
    | none =>
      rw [hsp] at h
      exact h
    | some pr =>
      obtain ⟨a1, a2⟩ := pr
      rw [hsp] at h
      replace h : c ∈ a1 := h
      have hdec := (splitFirst_eq_some hsp).1
      exact hdec ▸ List.mem_append_left _ h

/-- Component character classes of a successful `urlparse`. -/
theorem urlparseE_chars {url d : PS} {p : UParse}
    (h : urlparseE url d = some p) :
    (∀ c ∈ p.netloc, isNetlocDelim c = false ∧
      ¬(c.toNat = 9 ∨ c.toNat = 13 ∨ c.toNat = 10)) ∧
    (∀ c ∈ p.path, c ≠ '#' ∧ c ≠ '?' ∧
      ¬(c.toNat = 9 ∨ c.toNat = 13 ∨ c.toNat = 10)) ∧
    (∀ c ∈ p.query, c ≠ '#' ∧
      ¬(c.toNat = 9 ∨ c.toNat = 13 ∨ c.toNat = 10)) := by
  obtain ⟨sp, hsp, hs, hn, hq, hf, hcase⟩ := urlparseE_inv h
  obtain ⟨hcn, hcp, hcq⟩ := urlsplitE_chars hsp
  refine ⟨?_, ?_, ?_⟩
  · intro c hc; exact hcn c (hn ▸ hc)
  · intro c hc
    rcases hcase with ⟨_, _, hpp, _⟩ | ⟨_, hpp, _⟩
    · exact hcp c (mem_splitparams_fst (hpp ▸ hc))
    · exact hcp c (hpp ▸ hc)
  · intro c hc; exact hcq c (hq ▸ hc)

theorem noOrphan_splitparams_fst {s : PS} :
    NoOrphanSemi (splitparams s).1 := by
  by_cases hm : ';' ∈ s
  · by_cases hsl : '/' ∈ s
    · obtain ⟨⟨pre, hdec⟩, hnos⟩ := afterLastChar_decomp hsl
      unfold splitparams
      rw [if_pos hsl]
      show NoOrphanSemi (match splitFirst ';' (afterLastChar '/' s) with
        | none => (s, [])
        | some (a1, a2) =>
          (s.take (s.length - (afterLastChar '/' s).length) ++ a1,
            a2)).1
      set A := afterLastChar '/' s with hA
      cases hsp : splitFirst ';' A with
      | none =>
        show NoOrphanSemi s
        rw [hdec]
        exact noOrphan_append_slash (splitFirst_none_not_mem hsp)
      | some pr =>
        obtain ⟨a1, a2⟩ := pr
        show NoOrphanSemi (s.take (s.length - A.length) ++ a1)
        obtain ⟨hadec, hna⟩ := splitFirst_eq_some hsp
        have hlen : s.length - A.length = pre.length + 1 := by
          rw [hdec]
          simp only [List.length_append, List.length_cons]
          omega
        have htake : s.take (s.length - A.length) = pre ++ ['/'] := by
          rw [hlen, hdec, List.take_append]
          rfl
        rw [htake, List.append_assoc, List.singleton_append]
        exact noOrphan_append_slash hna
    · unfold splitparams
      rw [if_neg hsl]
      cases hsp : splitFirst ';' s with
      | none => exact noOrphan_of_not_mem (splitFirst_none_not_mem hsp)
      | some pr =>
        obtain ⟨a1, a2⟩ := pr
        show NoOrphanSemi a1
        exact noOrphan_of_not_mem (splitFirst_eq_some hsp).2
  · rw [splitparams_of_noOrphan (noOrphan_of_not_mem hm)]
    exact noOrphan_of_not_mem hm

/-- On a scheme that uses parameters, the path `urlparse` returns has no
`;` after its last `/`. -/
theorem urlparseE_noOrphan {url d : PS} {p : UParse}
    (h : urlparseE url d = some p) (hsch : p.scheme ∈ usesParams) :
    NoOrphanSemi p.path := by
  obtain ⟨sp, hsp, hs, hn, hq, hf, hcase⟩ := urlparseE_inv h
  rcases hcase with ⟨_, _, hpp, _⟩ | ⟨hnc, hpp, _⟩
  · rw [hpp]; exact noOrphan_splitparams_fst
  · rw [hpp]
    refine noOrphan_of_not_mem (fun hmem => hnc ⟨?_, hmem⟩)
    rw [← hs]
    exact hsch

/-- No two adjacent slashes. -/
def noDS : PS → Prop
  | [] => True
  | [_] => True
  | a :: b :: t => ¬(a = '/' ∧ b = '/') ∧ noDS (b :: t)

theorem noDS_tail {c : Char} {s : PS} (h : noDS (c :: s)) : noDS s := by
  cases s with
  | nil => trivial
  | cons b t => exact h.2

theorem noDS_collapseAux :
    ∀ (s : PS) (prev : Char), noDS (collapseAux prev s) ∧
      ∀ h2, (collapseAux prev s).head? = some h2 → prev = '/' →
        h2 ≠ '/' := by
  intro s
  induction s with
  | nil => intro prev; exact ⟨trivial, fun h2 hh => by cases hh⟩
  | cons c t ih =>
    intro prev
    unfold collapseAux
    by_cases hcc : prev = '/' ∧ c = '/'
    · rw [if_pos hcc]
      refine ⟨(ih c).1, fun h2 hh _ => (ih c).2 h2 hh hcc.2⟩
    · rw [if_neg hcc]
      constructor
      · cases hr : collapseAux c t with
        | nil => trivial
        | cons b r =>
          refine ⟨fun hdd => ?_, hr ▸ (ih c).1⟩
          exact (ih c).2 b (by rw [hr]; rfl) hdd.1 hdd.2
      · intro h2 hh hprev
        simp only [List.head?_cons, Option.some.injEq] at hh
        intro hc2
        exact hcc ⟨hprev, hh ▸ hc2⟩

theorem noDS_collapse (s : PS) : noDS (collapseSlashes s) := by
  cases s with
  | nil => trivial
  | cons a t =>
    show noDS (a :: collapseAux a t)
    cases hr : collapseAux a t with
    | nil => trivial
    | cons b r =>
      refine ⟨fun hdd => ?_, hr ▸ (noDS_collapseAux t a).1⟩
      exact (noDS_collapseAux t a).2 b (by rw [hr]; rfl) hdd.1 hdd.2

theorem collapseAux_eq_self :
    ∀ (s : PS) (prev : Char), noDS s →
      (prev = '/' → ∀ h2, s.head? = some h2 → h2 ≠ '/') →
      collapseAux prev s = s := by
  intro s
  induction s with
  | nil => intro prev _ _; rfl
  | cons c t ih =>
    intro prev hds hh
    unfold collapseAux
    rw [if_neg (fun hcc => hh hcc.1 c rfl hcc.2)]
    congr 1
    refine ih c (noDS_tail hds) (fun hc2 h2 hh2 => ?_)
    cases t with
    | nil => cases hh2
    | cons b r =>
      simp only [List.head?_cons, Option.some.injEq] at hh2
      exact fun he => hds.1 ⟨hc2, hh2 ▸ he⟩

theorem collapse_eq_self {s : PS} (h : noDS s) : collapseSlashes s = s := by
  cases s with
  | nil => rfl
  | cons a t =>
    show a :: collapseAux a t = a :: t
    congr 1
    refine collapseAux_eq_self t a (noDS_tail h) (fun ha h2 hh2 => ?_)
    cases t with
    | nil => cases hh2
    | cons b r =>
      simp only [List.head?_cons, Option.some.injEq] at hh2
      exact fun he => h.1 ⟨ha, hh2 ▸ he⟩

theorem noDS_take2 {s : PS} (h : noDS s) : s.take 2 ≠ ['/', '/'] := by
  intro hc
  cases s with
  | nil => cases hc
  | cons a t =>
    cases t with
    | nil => cases hc
    | cons b r =>
      simp only [List.take, List.cons.injEq] at hc
      exact h.1 ⟨hc.1, hc.2.1⟩

theorem collapse_ne_nil {s : PS} (h : s ≠ []) : collapseSlashes s ≠ [] := by
  cases s with
  | nil => exact absurd rfl h
  | cons a t => simp [collapseSlashes]

theorem mem_pyQuote_class {es : List Char} {k : PS} {c : Char}
    (h : c ∈ pyQuote es k) :
    isAlwaysSafe c = true ∨ c ∈ es ∨ c.toNat = 37 := by
  unfold pyQuote at h
  obtain ⟨d, hd, hc⟩ := List.mem_flatMap.mp h
  by_cases hcond : (isAlwaysSafe d || decide (d ∈ es)) = true
  · rw [if_pos hcond] at hc
    simp only [List.mem_singleton] at hc
    subst hc
    simp only [Bool.or_eq_true, decide_eq_true_eq] at hcond
    rcases hcond with hs | hm
    · exact Or.inl hs
    · exact Or.inr (Or.inl hm)
  · rw [if_neg hcond] at hc
    obtain ⟨b, hb, hcb⟩ := List.mem_flatMap.mp hc
    rcases mem_pctByte_char
        (utf8EncodeCp_lt_256 (char_toNat_valid d) b hb) hcb with h37 | hs
    · exact Or.inr (Or.inr h37)
    · exact Or.inl hs

theorem mem_pyQuotePlus_class {k : PS} {c : Char} (h : c ∈ pyQuotePlus k) :
    isAlwaysSafe c = true ∨ c.toNat = 43 ∨ c.toNat = 37 := by
  unfold pyQuotePlus at h
  by_cases hsp : ' ' ∈ k
  · rw [if_pos hsp] at h
    obtain ⟨d, hd, he⟩ := List.mem_map.mp h
    rcases mem_pyQuote_class hd with hs | hm | h37
    · by_cases hde : d = ' '
      · rw [if_pos hde] at he
        exact Or.inr (Or.inl (he ▸ rfl))
      · rw [if_neg hde] at he
        exact Or.inl (he ▸ hs)
    · simp only [List.mem_singleton] at hm
      rw [if_pos hm] at he
      exact Or.inr (Or.inl (he ▸ rfl))
    · by_cases hde : d = ' '
      · rw [if_pos hde] at he
        exact Or.inr (Or.inl (he ▸ rfl))
      · rw [if_neg hde] at he
        exact Or.inr (Or.inr (he ▸ h37))
  · rw [if_neg hsp] at h
    rcases mem_pyQuote_class h with hs | hm | h37
    · exact Or.inl hs
    · cases hm
    · exact Or.inr (Or.inr h37)

theorem mem_pyUrlencode_class {pairs : List (PS × PS)} {c : Char}
    (h : c ∈ pyUrlencode pairs) :
    isAlwaysSafe c = true ∨ c.toNat = 43 ∨ c.toNat = 37 ∨
      c.toNat = 61 ∨ c.toNat = 38 := by
  unfold pyUrlencode at h
  rcases mem_pyJoin h with hsep | ⟨p, hp, hcp⟩
  · simp only [List.mem_singleton] at hsep
    exact Or.inr (Or.inr (Or.inr (Or.inr (hsep ▸ rfl))))
  · obtain ⟨kv, hkv, hpe⟩ := List.mem_map.mp hp
    rw [← hpe] at hcp
    rcases List.mem_append.mp hcp with hk | hv
    · rcases mem_pyQuotePlus_class hk with hs | h43 | h37
      · exact Or.inl hs
      · exact Or.inr (Or.inl h43)
      · exact Or.inr (Or.inr (Or.inl h37))
    · rcases List.mem_cons.mp hv with he | hv2
      · exact Or.inr (Or.inr (Or.inr (Or.inl (he ▸ rfl))))
      · rcases mem_pyQuotePlus_class hv2 with hs | h43 | h37
        · exact Or.inl hs
        · exact Or.inr (Or.inl h43)
        · exact Or.inr (Or.inr (Or.inl h37))

theorem isAlwaysSafe_ranges {c : Char} (h : isAlwaysSafe c = true) :
    (65 ≤ c.toNat ∧ c.toNat ≤ 90) ∨ (97 ≤ c.toNat ∧ c.toNat ≤ 122) ∨
      (48 ≤ c.toNat ∧ c.toNat ≤ 57) ∨ c.toNat = 95 ∨ c.toNat = 46 ∨
      c.toNat = 45 ∨ c.toNat = 126 := by
  simp only [isAlwaysSafe, Bool.or_eq_true, decide_eq_true_eq] at h
  tauto

/-- Characters of a `urlencode` output: printable, and none of `#`, `?`,
tab, CR, LF. -/
theorem urlencode_char_clean {pairs : List (PS × PS)} {c : Char}
    (h : c ∈ pyUrlencode pairs) :
    c ≠ '#' ∧ c ≠ '?' ∧
      ¬(c.toNat = 9 ∨ c.toNat = 13 ∨ c.toNat = 10) := by
  have hcl := mem_pyUrlencode_class h
  have hb : c.toNat ≠ 35 ∧ c.toNat ≠ 63 ∧
      ¬(c.toNat = 9 ∨ c.toNat = 13 ∨ c.toNat = 10) := by
    rcases hcl with hs | h43 | h37 | h61 | h38
    · rcases isAlwaysSafe_ranges hs with h | h | h | h | h | h | h <;> omega
    · omega
    · omega
    · omega
    · omega
  exact ⟨fun he => hb.1 (he ▸ rfl), fun he => hb.2.1 (he ▸ rfl), hb.2.2⟩

theorem utf8EncodeCp_ne_nil (n : Nat) : utf8EncodeCp n ≠ [] := by
  unfold utf8EncodeCp
  split_ifs <;> simp

theorem quoteBranch_ne_nil (es : List Char) (c : Char) :
    (if (isAlwaysSafe c || decide (c ∈ es)) = true then [c]
      else (utf8EncodeCp c.toNat).flatMap pctByte) ≠ [] := by
  split_ifs with hc
  · simp
  · cases henc : utf8EncodeCp c.toNat with
    | nil => exact absurd henc (utf8EncodeCp_ne_nil _)
    | cons b r =>
      rw [List.flatMap_cons]
      simp [pctByte]

theorem pyQuote_ne_nil {es : List Char} {s : PS} (h : s ≠ []) :
    pyQuote es s ≠ [] := by
  cases s with
  | nil => exact absurd rfl h
  | cons a t =>
    unfold pyQuote
    rw [List.flatMap_cons]
    intro hc
    exact quoteBranch_ne_nil es a (List.append_eq_nil.mp hc).1

theorem pyQuotePlus_ne_nil {s : PS} (h : s ≠ []) : pyQuotePlus s ≠ [] := by
  unfold pyQuotePlus
  split_ifs with hsp
  · intro hc
    exact pyQuote_ne_nil h (List.map_eq_nil_iff.mp hc)
  · exact pyQuote_ne_nil h

theorem amp_not_mem_chunk (kv : PS × PS) :
    '&' ∉ pyQuotePlus kv.1 ++ '=' :: pyQuotePlus kv.2 := by
  intro hm
  have hb : Char.toNat '&' = 38 := rfl
  rcases List.mem_append.mp hm with hk | hv
  · rcases mem_pyQuotePlus_class hk with hs | h43 | h37
    · rcases isAlwaysSafe_ranges hs with h | h | h | h | h | h | h <;> omega
    · omega
    · omega
  · rcases List.mem_cons.mp hv with he | hv2
    · cases he
    · rcases mem_pyQuotePlus_class hv2 with hs | h43 | h37
      · rcases isAlwaysSafe_ranges hs with h | h | h | h | h | h | h <;>
          omega
      · omega
      · omega

theorem eq_not_mem_quotePlus (k : PS) : '=' ∉ pyQuotePlus k := by
  intro hm
  have hb : Char.toNat '=' = 61 := rfl
  rcases mem_pyQuotePlus_class hm with hs | h43 | h37
  · rcases isAlwaysSafe_ranges hs with h | h | h | h | h | h | h <;> omega
  · omega
  · omega

/-- Parsing back a `urlencode` of pairs with non-empty values recovers the
pairs exactly (with `keep_blank_values=False`). -/
theorem parse_qsl_urlencode (kept : List (PS × PS))
    (hv : ∀ kv ∈ kept, kv.2 ≠ []) :
    parse_qsl (pyUrlencode kept) false = kept := by
  by_cases hk : kept = []
  · subst hk; rfl
  · unfold parse_qsl pyUrlencode
    rw [splitAll_pyJoin (by simpa using hk)
      (fun p hp => by
        obtain ⟨kv, hkv, hpe⟩ := List.mem_map.mp hp
        rw [← hpe]
        exact amp_not_mem_chunk kv)]
    rw [List.flatMap_map]
    have hone : ∀ kv ∈ kept,
        ((fun chunk =>
          if chunk = [] then []
          else
            match splitFirst '=' chunk with
            | some (n, v) =>
              if v.length > 0 ∨ false = true then
                [(pyUnquote (n.map plusToSpace),
                  pyUnquote (v.map plusToSpace))]
              else []
            | none =>
              if false = true then
                [(pyUnquote (chunk.map plusToSpace), [])]
              else []) ∘
          (fun kv => pyQuotePlus kv.1 ++ '=' :: pyQuotePlus kv.2)) kv =
        [kv] := by
      intro kv hkv
      show (if pyQuotePlus kv.1 ++ '=' :: pyQuotePlus kv.2 = [] then []
        else
          match splitFirst '='
              (pyQuotePlus kv.1 ++ '=' :: pyQuotePlus kv.2) with
          | some (n, v) =>
            if v.length > 0 ∨ false = true then
              [(pyUnquote (n.map plusToSpace),
                pyUnquote (v.map plusToSpace))]
            else []
          | none =>
            if false = true then
              [(pyUnquote ((pyQuotePlus kv.1 ++ '=' ::
                pyQuotePlus kv.2).map plusToSpace), [])]
            else []) = [kv]
      rw [if_neg (by simp), splitFirst_append _ (eq_not_mem_quotePlus _)]
      have hlen : (pyQuotePlus kv.2).length > 0 :=
        List.length_pos.mpr (pyQuotePlus_ne_nil (hv kv hkv))
      show (if (pyQuotePlus kv.2).length > 0 ∨ false = true then
          [(pyUnquote ((pyQuotePlus kv.1).map plusToSpace),
            pyUnquote ((pyQuotePlus kv.2).map plusToSpace))]
        else []) = [kv]
      rw [if_pos (Or.inl hlen), pyUnquote_plus_quotePlus,
        pyUnquote_plus_quotePlus]
    exact (List.flatMap_congr hone).trans (List.flatMap_singleton' kept)

theorem mem_dropWhile_of_not {p : Char → Bool} {c : Char} {l : PS}
    (hm : c ∈ l) (hc : p c = false) : c ∈ l.dropWhile p := by
  induction l with
  | nil => cases hm
  | cons a t ih =>
    rw [List.dropWhile_cons]
    split_ifs with ha
    · rcases List.mem_cons.mp hm with he | ht
      · rw [he] at hc; rw [hc] at ha; cases ha
      · exact ih ht
    · exact hm

theorem mem_pyStrip_sub {c : Char} {s : PS} (h : c ∈ pyStrip s) :
    c ∈ s := by
  unfold pyStrip pyRStrip pyLStrip at h
  have h1 := List.mem_reverse.mp h
  have h2 := (List.dropWhile_sublist _).mem h1
  have h3 := List.mem_reverse.mp h2
  exact (List.dropWhile_sublist _).mem h3

theorem mem_pyStrip_of_not_space {c : Char} {s : PS} (hm : c ∈ s)
    (hc : isPySpace c = false) : c ∈ pyStrip s := by
  unfold pyStrip pyRStrip pyLStrip
  apply List.mem_reverse.mpr
  apply mem_dropWhile_of_not _ hc
  apply List.mem_reverse.mpr
  exact mem_dropWhile_of_not hm hc

/-- Membership of a non-letter, non-space character is invariant under
lowercasing and stripping. -/
theorem mem_strip_lower_iff {s : PS} {c : Char}
    (hr : c.toNat < 65 ∨ (90 < c.toNat ∧ c.toNat < 97) ∨ 122 < c.toNat)
    (hsp : isPySpace c = false) :
    c ∈ pyStrip (lowerS s) ↔ c ∈ s :=
  ⟨fun h => (mem_lowerS_iff hr _).mp (mem_pyStrip_sub h),
   fun h => mem_pyStrip_of_not_space ((mem_lowerS_iff hr _).mpr h) hsp⟩

/-- The canonical netloc keeps the original character-class facts. -/
theorem netloc_canon_chars {netloc : PS} {c : Char}
    (hfacts : ∀ d ∈ netloc, isNetlocDelim d = false ∧
      ¬(d.toNat = 9 ∨ d.toNat = 13 ∨ d.toNat = 10))
    (h : c ∈ pyStrip (lowerS netloc)) :
    isNetlocDelim c = false ∧
      ¬(c.toNat = 9 ∨ c.toNat = 13 ∨ c.toNat = 10) := by
  have h2 := mem_pyStrip_sub h
  obtain ⟨d, hd, he⟩ := List.mem_map.mp h2
  obtain ⟨hdel, huns⟩ := hfacts d hd
  subst he
  have hor : ((pyLowerChar d).toNat = d.toNat + 32 ∧ 65 ≤ d.toNat ∧
      d.toNat ≤ 90) ∨ (pyLowerChar d).toNat = d.toNat := by
    rw [pyLowerChar_toNat]
    by_cases hu : 65 ≤ d.toNat ∧ d.toNat ≤ 90
    · rw [if_pos hu]; exact Or.inl ⟨rfl, hu⟩
    · rw [if_neg hu]; exact Or.inr rfl
  simp only [isNetlocDelim, Bool.or_eq_false_iff,
    decide_eq_false_iff_not] at hdel ⊢
  constructor
  · rcases hor with ⟨he, hu⟩ | he <;> omega
  · rcases hor with ⟨he, hu⟩ | he <;> omega

theorem mem_collapseAux_sub {c prev : Char} {s : PS}
    (h : c ∈ collapseAux prev s) : c ∈ s := by
  induction s generalizing prev with
  | nil => cases h
  | cons a t ih =>
    unfold collapseAux at h
    split_ifs at h with hcc
    · exact List.mem_cons_of_mem _ (ih h)
    · rcases List.mem_cons.mp h with he | ht
      · exact he ▸ List.mem_cons_self _ _
      · exact List.mem_cons_of_mem _ (ih ht)

theorem mem_collapse_sub {c : Char} {s : PS} (h : c ∈ collapseSlashes s) :
    c ∈ s := by
  cases s with
  | nil => cases h
  | cons a t =>
    rcases List.mem_cons.mp h with he | ht
    · exact he ▸ List.mem_cons_self _ _
    · exact List.mem_cons_of_mem _ (mem_collapseAux_sub ht)

theorem absPath_eq_cons {pth : PS} (h : pth ≠ []) :
    ∃ t, absPath pth = '/' :: t := by
  unfold absPath
  by_cases hc : pth ≠ [] ∧ pth.take 1 ≠ ['/']
  · rw [if_pos hc]; exact ⟨pth, rfl⟩
  · rw [if_neg hc]
    cases pth with
    | nil => exact absurd rfl h
    | cons a t =>
      refine ⟨t, ?_⟩
      have ha : a = '/' := by
        by_contra hne
        exact hc ⟨h, by simp [List.take, hne]⟩
      rw [ha]

theorem mem_absPath {c : Char} {pth : PS} (h : c ∈ absPath pth) :
    c = '/' ∨ c ∈ pth := by
  unfold absPath at h
  split_ifs at h with hc
  · rcases List.mem_cons.mp h with he | ht
    · exact Or.inl he
    · exact Or.inr ht
  · exact Or.inr h

theorem noDS_absPath {pth : PS} (h : noDS pth) : noDS (absPath pth) := by
  unfold absPath
  split_ifs with hc
  · cases pth with
    | nil => trivial
    | cons a t =>
      refine ⟨fun hdd => ?_, h⟩
      exact hc.2 (by rw [hdd.2]; rfl)
  · exact h

theorem absPath_idem (pth : PS) (h : pth ≠ []) :
    absPath (absPath pth) = absPath pth := by
  obtain ⟨t, ht⟩ := absPath_eq_cons h
  rw [ht]
  unfold absPath
  rw [if_neg (fun hc => hc.2 rfl)]

theorem noOrphan_absPath {pth : PS} (h : NoOrphanSemi pth) :
    NoOrphanSemi (absPath pth) := by
  unfold absPath
  split_ifs with hc
  · exact noOrphan_cons (by decide) h
  · exact h

/-- Evaluation of `urlunsplit` for a non-empty scheme in `uses_netloc`,
a path with no leading `//` and no fragment. -/
theorem urlunsplit_eval {sch nl pth q : PS} (hs : sch ≠ [])
    (hnet : sch ∈ usesNetloc) (hp2 : pth.take 2 ≠ ['/', '/']) :
    urlunsplit sch nl pth q [] =
      sch ++ ':' :: ('/' :: '/' :: (nl ++ absPath pth) ++
        (if q ≠ [] then '?' :: q else [])) := by
  unfold urlunsplit urlunsplitQF urlunsplitScheme urlunsplitBase
  rw [if_neg (fun hc : ([] : PS) ≠ [] => hc rfl),
    if_pos (Or.inr ⟨hs, hnet, hp2⟩), if_pos hs]
  by_cases hq : q ≠ []
  · rw [if_pos hq, if_pos hq]
    simp [List.append_assoc]
  · rw [if_neg hq, if_neg hq]
    simp

theorem urlsplitE_no_bracket_err {url d : PS} {sp : USplit}
    (h : urlsplitE url d = some sp) :
    ¬(('[' ∈ sp.netloc ∧ ']' ∉ sp.netloc) ∨
      (']' ∈ sp.netloc ∧ '[' ∉ sp.netloc)) := by
  unfold urlsplitE at h
  split at h
  · cases h
  · rename_i hcond
    have hsp := Option.some.inj h
    subst hsp
    exact hcond

/-- Reparsing the URL `_canonicalize` rebuilds recovers its components:
the scheme, the canonical netloc, the canonical path (with a `/`
prepended when it does not start with one), no params, and the re-encoded
query. -/
theorem canon_reparse (sch nl0 pth0 q : PS)
    (hcase : sch = S ("http") ∨ sch = S ("https"))
    (hchn : ∀ c ∈ nl0, isNetlocDelim c = false ∧
      ¬(c.toNat = 9 ∨ c.toNat = 13 ∨ c.toNat = 10))
    (hchp : ∀ c ∈ pth0, c ≠ '#' ∧ c ≠ '?' ∧
      ¬(c.toNat = 9 ∨ c.toNat = 13 ∨ c.toNat = 10))
    (hno : NoOrphanSemi pth0)
    (hbr : ¬(('[' ∈ nl0 ∧ ']' ∉ nl0) ∨ (']' ∈ nl0 ∧ '[' ∉ nl0)))
    (hqc : ∀ c ∈ q, c ≠ '#' ∧
      ¬(c.toNat = 9 ∨ c.toNat = 13 ∨ c.toNat = 10)) :
    urlparseE (urlunsplit sch (pyStrip (lowerS nl0))
      (collapseSlashes (if pth0 = [] then ['/'] else pth0)) q []) [] =
    some ⟨sch, pyStrip (lowerS nl0),
      absPath (collapseSlashes (if pth0 = [] then ['/'] else pth0)), [],
      q, []⟩ := by
  have hs1 : sch ≠ [] := by rcases hcase with h | h <;> (rw [h]; decide)
  have hs2 : isAsciiAlpha (sch.headD ' ') = true := by
    rcases hcase with h | h <;> (rw [h]; decide)
  have hs3 : sch.all isSchemeChar = true := by
    rcases hcase with h | h <;> (rw [h]; decide)
  have hs4 : lowerS sch = sch := by
    rcases hcase with h | h <;> (rw [h]; decide)
  have hs5 : ':' ∉ sch := by rcases hcase with h | h <;> (rw [h]; decide)
  have hs6 : sch ∈ usesNetloc := by
    rcases hcase with h | h <;> (rw [h]; decide)
  have hs_chars : ∀ c ∈ sch,
      ¬(c.toNat = 9 ∨ c.toNat = 13 ∨ c.toNat = 10) := by
    rcases hcase with h | h <;> (rw [h]; decide)
  have hhd : ∃ c0 r0, sch = c0 :: r0 ∧ isC0OrSpace c0 = false := by
    rcases hcase with h | h <;> rw [h]
    · exact ⟨'h', ['t', 't', 'p'], rfl, by decide⟩
    · exact ⟨'h', ['t', 't', 'p', 's'], rfl, by decide⟩
  have hpp_ne : (if pth0 = [] then ['/'] else pth0) ≠ [] := by
    by_cases he : pth0 = []
    · rw [if_pos he]; decide
    · rw [if_neg he]; exact he
  have hpth_ne : collapseSlashes (if pth0 = [] then ['/'] else pth0) ≠
      [] := collapse_ne_nil hpp_ne
  have hnds : noDS (collapseSlashes (if pth0 = [] then ['/'] else pth0)) :=
    noDS_collapse _
  have hp2 : (collapseSlashes
      (if pth0 = [] then ['/'] else pth0)).take 2 ≠ ['/', '/'] :=
    noDS_take2 hnds
  have hpth_chars : ∀ c ∈ collapseSlashes
      (if pth0 = [] then ['/'] else pth0), c ≠ '#' ∧ c ≠ '?' ∧
      ¬(c.toNat = 9 ∨ c.toNat = 13 ∨ c.toNat = 10) := by
    intro c hc
    have hc2 := mem_collapse_sub hc
    by_cases he : pth0 = []
    · rw [if_pos he] at hc2
      simp only [List.mem_singleton] at hc2
      subst hc2
      refine ⟨by decide, by decide, by decide⟩
    · rw [if_neg he] at hc2
      exact hchp c hc2
  obtain ⟨t0, habs0⟩ := absPath_eq_cons hpth_ne
  have habs_chars : ∀ c ∈ absPath (collapseSlashes
      (if pth0 = [] then ['/'] else pth0)), c ≠ '#' ∧ c ≠ '?' ∧
      ¬(c.toNat = 9 ∨ c.toNat = 13 ∨ c.toNat = 10) := by
    intro c hc
    rcases mem_absPath hc with he | hm
    · subst he; refine ⟨by decide, by decide, by decide⟩
    · exact hpth_chars c hm
  have hno_pth : NoOrphanSemi (collapseSlashes
      (if pth0 = [] then ['/'] else pth0)) := by
    apply noOrphan_collapse
    by_cases he : pth0 = []
    · rw [if_pos he]
      exact noOrphan_of_not_mem (by decide)
    · rw [if_neg he]; exact hno
  have hno_abs := noOrphan_absPath hno_pth
  have hnl_chars : ∀ c ∈ pyStrip (lowerS nl0), isNetlocDelim c = false ∧
      ¬(c.toNat = 9 ∨ c.toNat = 13 ∨ c.toNat = 10) :=
    fun c hc => netloc_canon_chars hchn hc
  have hout := @urlunsplit_eval sch (pyStrip (lowerS nl0))
    (collapseSlashes (if pth0 = [] then ['/'] else pth0)) q hs1 hs6 hp2
  obtain ⟨c0, r0, hsch0, hc0⟩ := hhd
  have hqtail_chars : ∀ c ∈ (if q ≠ [] then '?' :: q else ([] : PS)),
      c ≠ '#' ∧ ¬(c.toNat = 9 ∨ c.toNat = 13 ∨ c.toNat = 10) := by
    intro c hc
    split_ifs at hc with hq
    · rcases List.mem_cons.mp hc with he | hm
      · subst he; exact ⟨by decide, by decide⟩
      · exact hqc c hm
    · cases hc
  have h0 : (urlunsplit sch (pyStrip (lowerS nl0))
      (collapseSlashes (if pth0 = [] then ['/'] else pth0)) q
      []).dropWhile isC0OrSpace =
      urlunsplit sch (pyStrip (lowerS nl0))
        (collapseSlashes (if pth0 = [] then ['/'] else pth0)) q [] := by
    rw [hout]
    apply dropWhile_eq_self_of_head
    intro c hc
    rw [hsch0, List.cons_append] at hc
    simp only [List.head?_cons, Option.mem_def, Option.some.injEq] at hc
    subst hc
    exact hc0
  have h1 : removeUnsafeUrlChars (urlunsplit sch (pyStrip (lowerS nl0))
      (collapseSlashes (if pth0 = [] then ['/'] else pth0)) q []) =
      urlunsplit sch (pyStrip (lowerS nl0))
        (collapseSlashes (if pth0 = [] then ['/'] else pth0)) q [] := by
    rw [hout]
    apply List.filter_eq_self.mpr
    intro c hc
    have hok : ¬(c.toNat = 9 ∨ c.toNat = 13 ∨ c.toNat = 10) := by
      rcases List.mem_append.mp hc with hcs | hcr
      · exact hs_chars c hcs
      · rcases List.mem_cons.mp hcr with he | hcr2
        · subst he; decide
        · rcases List.mem_append.mp hcr2 with hcl | hcq
          · rcases List.mem_cons.mp hcl with he | hcl2
            · subst he; decide
            · rcases List.mem_cons.mp hcl2 with he | hcl3
              · subst he; decide
              · rcases List.mem_append.mp hcl3 with hnl | hab
                · exact (hnl_chars c hnl).2
                · exact (habs_chars c hab).2.2
          · exact (hqtail_chars c hcq).2
    simp only [Bool.not_eq_true', Bool.or_eq_false_iff,
      decide_eq_false_iff_not]
    tauto
  have h2 : splitFirst ':' (urlunsplit sch (pyStrip (lowerS nl0))
      (collapseSlashes (if pth0 = [] then ['/'] else pth0)) q []) =
      some (sch, '/' :: '/' :: (pyStrip (lowerS nl0) ++
        absPath (collapseSlashes (if pth0 = [] then ['/'] else pth0))) ++
        (if q ≠ [] then '?' :: q else [])) := by
    rw [hout]
    exact splitFirst_append _ hs5
  have h6 : (('/' :: '/' :: (pyStrip (lowerS nl0) ++
      absPath (collapseSlashes (if pth0 = [] then ['/'] else pth0))) ++
      (if q ≠ [] then '?' :: q else [])).drop 2).takeWhile
      (fun c => !isNetlocDelim c) = pyStrip (lowerS nl0) := by
    rw [List.cons_append, List.cons_append]
    show ((pyStrip (lowerS nl0) ++
      absPath (collapseSlashes (if pth0 = [] then ['/'] else pth0))) ++
      (if q ≠ [] then '?' :: q else [])).takeWhile
      (fun c => !isNetlocDelim c) = _
    rw [List.append_assoc,
      takeWhile_append_all (fun c hc => by simp [(hnl_chars c hc).1]),
      habs0, List.cons_append]
    simp [List.takeWhile_cons, isNetlocDelim]
  have h7 : (('/' :: '/' :: (pyStrip (lowerS nl0) ++
      absPath (collapseSlashes (if pth0 = [] then ['/'] else pth0))) ++
      (if q ≠ [] then '?' :: q else [])).drop 2).dropWhile
      (fun c => !isNetlocDelim c) =
      absPath (collapseSlashes (if pth0 = [] then ['/'] else pth0)) ++
        (if q ≠ [] then '?' :: q else []) := by
    rw [List.cons_append, List.cons_append]
    show ((pyStrip (lowerS nl0) ++
      absPath (collapseSlashes (if pth0 = [] then ['/'] else pth0))) ++
      (if q ≠ [] then '?' :: q else [])).dropWhile
      (fun c => !isNetlocDelim c) = _
    rw [List.append_assoc,
      dropWhile_append_all (fun c hc => by simp [(hnl_chars c hc).1]),
      habs0, List.cons_append]
    simp [List.dropWhile_cons, isNetlocDelim]
  have h8 : ¬(('[' ∈ pyStrip (lowerS nl0) ∧ ']' ∉ pyStrip (lowerS nl0)) ∨
      (']' ∈ pyStrip (lowerS nl0) ∧ '[' ∉ pyStrip (lowerS nl0))) := by
    have hil : ('[' : Char) ∈ pyStrip (lowerS nl0) ↔ '[' ∈ nl0 :=
      mem_strip_lower_iff (Or.inr (Or.inl (by decide))) (by decide)
    have hir : (']' : Char) ∈ pyStrip (lowerS nl0) ↔ ']' ∈ nl0 :=
      mem_strip_lower_iff (Or.inr (Or.inl (by decide))) (by decide)
    intro hcon
    apply hbr
    rcases hcon with ⟨h1a, h1b⟩ | ⟨h1a, h1b⟩
    · exact Or.inl ⟨hil.mp h1a, fun hm => h1b (hir.mpr hm)⟩
    · exact Or.inr ⟨hir.mp h1a, fun hm => h1b (hil.mpr hm)⟩
  have h9 : splitFirst '#'
      (absPath (collapseSlashes (if pth0 = [] then ['/'] else pth0)) ++
        (if q ≠ [] then '?' :: q else [])) = none := by
    apply splitFirst_eq_none
    intro hm
    rcases List.mem_append.mp hm with hab | hqt
    · exact (habs_chars _ hab).1 rfl
    · exact (hqtail_chars _ hqt).1 rfl
  have h10 : splitFirst '?'
      (absPath (collapseSlashes (if pth0 = [] then ['/'] else pth0)) ++
        (if q ≠ [] then '?' :: q else [])) =
      some (absPath (collapseSlashes (if pth0 = [] then ['/'] else pth0)),
        q) ∨
      (splitFirst '?'
        (absPath (collapseSlashes (if pth0 = [] then ['/'] else pth0)) ++
          (if q ≠ [] then '?' :: q else [])) = none ∧
        absPath (collapseSlashes (if pth0 = [] then ['/'] else pth0)) =
          absPath (collapseSlashes (if pth0 = [] then ['/'] else pth0)) ++
            (if q ≠ [] then '?' :: q else []) ∧
        q = []) := by
    by_cases hq : q ≠ []
    · left
      rw [if_pos hq]
      exact splitFirst_append _ (fun hm => (habs_chars _ hm).2.1 rfl)
    · right
      rw [if_neg hq, List.append_nil]
      refine ⟨?_, rfl, not_not.mp hq⟩
      exact splitFirst_eq_none (fun hm => (habs_chars _ hm).2.1 rfl)
  have hsplit := urlsplitE_eq_of h0 h1 h2 ⟨hs1, hs2, hs3⟩ hs4 rfl h6 h7
    h8 h9 h10
  unfold urlparseE
  rw [hsplit]
  show (if sch ∈ usesParams ∧ ';' ∈ absPath (collapseSlashes
      (if pth0 = [] then ['/'] else pth0)) then
      some (⟨sch, pyStrip (lowerS nl0),
        (splitparams (absPath (collapseSlashes
          (if pth0 = [] then ['/'] else pth0)))).1,
        (splitparams (absPath (collapseSlashes
          (if pth0 = [] then ['/'] else pth0)))).2, q, []⟩ : UParse)
    else some ⟨sch, pyStrip (lowerS nl0),
      absPath (collapseSlashes (if pth0 = [] then ['/'] else pth0)), [],
      q, []⟩) = _
  by_cases hsemi : sch ∈ usesParams ∧ ';' ∈ absPath (collapseSlashes
      (if pth0 = [] then ['/'] else pth0))
  · rw [if_pos hsemi, splitparams_of_noOrphan hno_abs]
  · rw [if_neg hsemi]

/-- C3: `_canonicalize` is idempotent. -/
theorem C3_canonicalize_idem (u : PS) :
    _canonicalize (_canonicalize u) = _canonicalize u := by
  have hnil : _canonicalize ([] : PS) = [] := by decide
  cases hp : urlparseE u [] with
  | none =>
    have hcu : _canonicalize u = [] := by
      unfold _canonicalize
      rw [hp]
    rw [hcu, hnil]
  | some p =>
    by_cases hsch : p.scheme ≠ S ("http") ∧ p.scheme ≠ S ("https")
    · have hcu : _canonicalize u = [] := by
        unfold _canonicalize
        rw [hp]
        show (if p.scheme ≠ S ("http") ∧ p.scheme ≠ S ("https") then []
          else
            let cp := canonPartsOf p
            urlunparse cp.scheme cp.netloc cp.path [] cp.query []) = []
        rw [if_pos hsch]
      rw [hcu, hnil]
    · have hcase : p.scheme = S ("http") ∨ p.scheme = S ("https") := by
        by_cases h1 : p.scheme = S ("http")
        · exact Or.inl h1
        · by_cases h2 : p.scheme = S ("https")
          · exact Or.inr h2
          · exact absurd ⟨h1, h2⟩ hsch
      have hs1 : p.scheme ≠ [] := by
        rcases hcase with h | h <;> (rw [h]; decide)
      have hs6 : p.scheme ∈ usesNetloc := by
        rcases hcase with h | h <;> (rw [h]; decide)
      obtain ⟨hchn, hchp, hchq⟩ := urlparseE_chars hp
      have hno := urlparseE_noOrphan hp
        (by rcases hcase with h | h <;> (rw [h]; decide))
      obtain ⟨sp, hsp2, hs2, hn2, hq2, hf2, hcase2⟩ := urlparseE_inv hp
      have hbr0 := urlsplitE_no_bracket_err hsp2
      rw [← hn2] at hbr0
      have hkv : ∀ kv ∈ (parse_qsl p.query false).filter
          (fun kv => decide (lowerS kv.1 ∉ QUERY_PARAM_BLACKLIST)),
          kv.2 ≠ [] := by
        intro kv hm
        have h1 := (List.mem_filter.mp hm).1
        rw [parse_qsl_false_eq_filter] at h1
        exact of_decide_eq_true (List.mem_filter.mp h1).2
      have hqc : ∀ c ∈ pyUrlencode ((parse_qsl p.query false).filter
          (fun kv => decide (lowerS kv.1 ∉ QUERY_PARAM_BLACKLIST))),
          c ≠ '#' ∧ ¬(c.toNat = 9 ∨ c.toNat = 13 ∨ c.toNat = 10) :=
        fun c hc => ⟨(urlencode_char_clean hc).1,
          (urlencode_char_clean hc).2.2⟩
      have hpp_ne : (if p.path = [] then ['/'] else p.path) ≠ [] := by
        by_cases he : p.path = []
        · rw [if_pos he]; decide
        · rw [if_neg he]; exact he
      have hpth_ne : collapseSlashes
          (if p.path = [] then ['/'] else p.path) ≠ [] :=
        collapse_ne_nil hpp_ne
      have hcu : _canonicalize u = urlunsplit p.scheme
          (pyStrip (lowerS p.netloc))
          (collapseSlashes (if p.path = [] then ['/'] else p.path))
          (pyUrlencode ((parse_qsl p.query false).filter
            (fun kv => decide (lowerS kv.1 ∉ QUERY_PARAM_BLACKLIST))))
          [] := by
        unfold _canonicalize
        rw [hp]
        show (if p.scheme ≠ S ("http") ∧ p.scheme ≠ S ("https") then []
          else
            let cp := canonPartsOf p
            urlunparse cp.scheme cp.netloc cp.path [] cp.query []) = _
        rw [if_neg hsch]
        rfl
      have hrp := canon_reparse p.scheme p.netloc p.path
        (pyUrlencode ((parse_qsl p.query false).filter
          (fun kv => decide (lowerS kv.1 ∉ QUERY_PARAM_BLACKLIST))))
        hcase hchn hchp hno hbr0 hqc
      rw [hcu]
      unfold _canonicalize
      rw [hrp]
      show (if p.scheme ≠ S ("http") ∧ p.scheme ≠ S ("https") then []
        else
          let cp := canonPartsOf ⟨p.scheme, pyStrip (lowerS p.netloc),
            absPath (collapseSlashes
              (if p.path = [] then ['/'] else p.path)), [],
            pyUrlencode ((parse_qsl p.query false).filter
              (fun kv => decide (lowerS kv.1 ∉ QUERY_PARAM_BLACKLIST))),
            []⟩
          urlunparse cp.scheme cp.netloc cp.path [] cp.query []) = _
      rw [if_neg hsch]
      show urlunsplit p.scheme
        (pyStrip (lowerS (pyStrip (lowerS p.netloc))))
        (collapseSlashes (if absPath (collapseSlashes
          (if p.path = [] then ['/'] else p.path)) = [] then ['/']
          else absPath (collapseSlashes
            (if p.path = [] then ['/'] else p.path))))
        (pyUrlencode ((parse_qsl (pyUrlencode
          ((parse_qsl p.query false).filter
            (fun kv => decide (lowerS kv.1 ∉ QUERY_PARAM_BLACKLIST))))
          false).filter
          (fun kv => decide (lowerS kv.1 ∉ QUERY_PARAM_BLACKLIST))))
        [] = _
      have e1 : pyStrip (lowerS (pyStrip (lowerS p.netloc))) =
          pyStrip (lowerS p.netloc) := by
        rw [lowerS_pyStrip, lowerS_idem, pyStrip_idem]
      have e2 : (if absPath (collapseSlashes
          (if p.path = [] then ['/'] else p.path)) = [] then ['/']
          else absPath (collapseSlashes
            (if p.path = [] then ['/'] else p.path))) =
          absPath (collapseSlashes
            (if p.path = [] then ['/'] else p.path)) := by
        obtain ⟨t0, ht0⟩ := absPath_eq_cons hpth_ne
        rw [if_neg (by rw [ht0]; simp)]
      have e3 : collapseSlashes (absPath (collapseSlashes
          (if p.path = [] then ['/'] else p.path))) =
          absPath (collapseSlashes
            (if p.path = [] then ['/'] else p.path)) :=
        collapse_eq_self (noDS_absPath (noDS_collapse _))
      have e4 : parse_qsl (pyUrlencode ((parse_qsl p.query false).filter
          (fun kv => decide (lowerS kv.1 ∉ QUERY_PARAM_BLACKLIST))))
          false =
          (parse_qsl p.query false).filter
            (fun kv => decide (lowerS kv.1 ∉ QUERY_PARAM_BLACKLIST)) :=
        parse_qsl_urlencode _ hkv
      have e5 : ((parse_qsl p.query false).filter
          (fun kv => decide (lowerS kv.1 ∉ QUERY_PARAM_BLACKLIST))).filter
          (fun kv => decide (lowerS kv.1 ∉ QUERY_PARAM_BLACKLIST)) =
          (parse_qsl p.query false).filter
            (fun kv => decide (lowerS kv.1 ∉ QUERY_PARAM_BLACKLIST)) :=
        List.filter_eq_self.mpr (fun kv hm => (List.mem_filter.mp hm).2)
      rw [e1, e2, e3, e4, e5]
      rw [urlunsplit_eval hs1 hs6
          (noDS_take2 (noDS_absPath (noDS_collapse _))),
        urlunsplit_eval hs1 hs6 (noDS_take2 (noDS_collapse _)),
        absPath_idem _ hpth_ne]

end Crawler
